import Mathlib

/-!
# Verification of the HNSW benchmark harness (Proyecto-SO)

Shallow embedding of the loaders, the normalizer, the insertion driver, the
concurrent query executor, the metrics collector and the `main` functions of
the build and query programs, followed by the theorems that settle the claims
of the specification against that code.

Conventions
* `size_t` values are natural numbers reduced modulo `2 ^ 64`; `int` values
  are integers, converted to `size_t` by `toSize`.
* A byte is a natural number; a file is the list of its bytes.
* A `std::vector<T>` filled through `memcpy`/`read` is modelled by its storage
  bytes, viewed as a list of fixed-width words (`words`).
* Behaviour the C++ standard leaves undefined (division by zero, a write past
  the end of a buffer) is an explicit `Fault`.
* `float` arithmetic is an exact model of IEEE-754 binary32 (`F32`): every
  operation computes the exact result and rounds it once, to nearest, ties to
  even. The `double` index expressions of the percentiles are modelled the
  same way on natural numbers (`F64.roundNat`).
* The worker threads of the query executor are an interleaving of atomic
  steps, one per access to shared memory; an interleaving is a `Schedule`.
* A `std::map` is the list of its entries in iteration order, that is, in
  ascending key order; a `std::string` is the list of its characters.
* A `main` function is modelled from its loading step on; what it does to the
  external index (`addPoint`, `saveIndex`) is recorded in a `BuildOutcome`.
-/

set_option autoImplicit false

namespace ProyectoSO

/-! ## Machine integers and raw storage -/

/-- Number of values of `size_t` on the 64-bit target. -/
def SIZE_MOD : Nat := 2 ^ 64

/-- Conversion of a C `int` to `size_t` (reduction modulo `2 ^ 64`). -/
def toSize (i : Int) : Nat := (i % (SIZE_MOD : Int)).toNat

/-- Multiplication of two `size_t` values. -/
def mulSize (a b : Nat) : Nat := (a * b) % SIZE_MOD

/-- Addition of two `size_t` values. -/
def addSize (a b : Nat) : Nat := (a + b) % SIZE_MOD

abbrev Byte := Nat

/-- One element of a vector as its object representation (a list of bytes). -/
abbrev Word := List Byte

/-- The first `count` words of width `w` laid out in `storage`. -/
def words (w : Nat) : Nat → List Byte → List Word
  | 0, _ => []
  | count + 1, storage => storage.take w :: words w count (storage.drop w)

/-- Storage of a freshly constructed `std::vector<T>(count)` with `sizeof(T) = w`:
value-initialised, so every byte is zero. -/
def zeroStorage (w count : Nat) : List Byte := List.replicate (w * count) 0

/-- What can go wrong in a loader: the four thrown errors of the code, and the two
undefined behaviours it can run into. -/
inductive Fault where
  | openError
  | statError
  | sizeMismatch
  | mapError
  | divisionByZero
  | outOfBoundsWrite
  deriving DecidableEq, Repr

instance instDecidableEqExcept {ε α : Type} [DecidableEq ε] [DecidableEq α] :
    DecidableEq (Except ε α) := fun a b =>
  match a, b with
  | .ok x, .ok y => if h : x = y then isTrue (by rw [h]) else isFalse (fun e => h (by cases e; rfl))
  | .error x, .error y =>
    if h : x = y then isTrue (by rw [h]) else isFalse (fun e => h (by cases e; rfl))
  | .ok _, .error _ => isFalse (fun e => by cases e)
  | .error _, .ok _ => isFalse (fun e => by cases e)

/-- Outcome of `memcpy(dst, src, k)` / `istream::read(dst, k)` on a destination
buffer `dst`: the first `k` source bytes overwrite the first `k` destination
bytes; writing past the end of `dst` is a fault. -/
def copyInto (dst src : List Byte) (k : Nat) : Except Fault (List Byte) :=
  if k ≤ dst.length then .ok (src.take k ++ dst.drop k) else .error .outOfBoundsWrite

/-- The part of the file system a loader observes for one path. -/
structure FileEnv where
  /-- `open` / the `ifstream` constructor succeeds. -/
  openOk : Bool
  /-- `fstat` succeeds. -/
  statOk : Bool
  /-- `mmap` is granted by the kernel (for a non-empty range). -/
  mapOk : Bool
  /-- Content of the file. -/
  bytes : List Byte
  deriving Repr

/-- Success of `mmap(nullptr, len, ...)`: POSIX rejects a zero length (`EINVAL`). -/
def FileEnv.mmapSucceeds (env : FileEnv) (len : Nat) : Bool := env.mapOk && len != 0

/-- Result of a loader with a `size_t &n` output parameter: the value of `n` when the
call ends (normally or by a throw) and what was returned. -/
structure LoadResult where
  n : Nat
  out : Except Fault (List Word)
  deriving Repr

/-! ## `build_optimized.cpp`: memory-mapped loaders -/

namespace build_optimized

/-- Embedding of `load_embeddings_mmap(path, n, dim)`; `n0` is the caller's `n` before the call. -/
def load_embeddings_mmap (env : FileEnv) (n0 : Nat) (dim : Int) : LoadResult :=
  if !env.openOk then ⟨n0, .error .openError⟩
  else if !env.statOk then ⟨n0, .error .statError⟩
  else
    let file_size := env.bytes.length
    let width := mulSize 4 (toSize dim)
    if width = 0 then ⟨n0, .error .divisionByZero⟩
    else if file_size % width ≠ 0 then ⟨n0, .error .sizeMismatch⟩
    else
      let n := file_size / width
      if !env.mmapSucceeds file_size then ⟨n, .error .mapError⟩
      else
        let count := mulSize n (toSize dim)
        match copyInto (zeroStorage 4 count) env.bytes file_size with
        | .ok storage => ⟨n, .ok (words 4 count storage)⟩
        | .error f => ⟨n, .error f⟩

/-- Embedding of `load_ids_mmap(path, n)`. -/
def load_ids_mmap (env : FileEnv) (n0 : Nat) : LoadResult :=
  if !env.openOk then ⟨n0, .error .openError⟩
  else if !env.statOk then ⟨n0, .error .statError⟩
  else
    let file_size := env.bytes.length
    if file_size % 8 ≠ 0 then ⟨n0, .error .sizeMismatch⟩
    else
      let n := file_size / 8
      if !env.mmapSucceeds file_size then ⟨n, .error .mapError⟩
      else
        match copyInto (zeroStorage 8 n) env.bytes file_size with
        | .ok storage => ⟨n, .ok (words 8 n storage)⟩
        | .error f => ⟨n, .error f⟩

end build_optimized

/-! ## Copying-read loaders of the query programs -/

namespace query_optimized

/-- Embedding of `RealQueryOptimizer::load_queries`: the buffer holds `size / 4` floats and
`read` is asked for all `size` bytes. -/
def load_queries (env : FileEnv) : Except Fault (List Word) :=
  if !env.openOk then .error .openError
  else
    let size := env.bytes.length
    let count := size / 4
    match copyInto (zeroStorage 4 count) env.bytes size with
    | .ok storage => .ok (words 4 count storage)
    | .error f => .error f

/-- Embedding of `RealQueryOptimizer::load_query_ids`. -/
def load_query_ids (env : FileEnv) : Except Fault (List Word) :=
  if !env.openOk then .error .openError
  else
    let size := env.bytes.length
    let count := size / 8
    match copyInto (zeroStorage 8 count) env.bytes size with
    | .ok storage => .ok (words 8 count storage)
    | .error f => .error f

end query_optimized

namespace hnsw_query_basic

/-- Embedding of `load_fvec` of the basic query program: `size` counts floats and `read` is
asked for `size * sizeof(float)` bytes. -/
def load_fvec (env : FileEnv) : Except Fault (List Word) :=
  if !env.openOk then .error .openError
  else
    let size := env.bytes.length / 4
    match copyInto (zeroStorage 4 size) env.bytes (mulSize size 4) with
    | .ok storage => .ok (words 4 size storage)
    | .error f => .error f

/-- Embedding of `load_u64vec` of the basic query program. -/
def load_u64vec (env : FileEnv) : Except Fault (List Word) :=
  if !env.openOk then .error .openError
  else
    let size := env.bytes.length / 8
    match copyInto (zeroStorage 8 size) env.bytes (mulSize size 8) with
    | .ok storage => .ok (words 8 size storage)
    | .error f => .error f

end hnsw_query_basic

namespace hnswn_build_basic

/-- Embedding of `load_fvec` of the basic build program, which checks the size first. -/
def load_fvec (env : FileEnv) : Except Fault (List Word) :=
  if !env.openOk then .error .openError
  else
    let size := env.bytes.length
    if size % 4 ≠ 0 then .error .sizeMismatch
    else
      match copyInto (zeroStorage 4 (size / 4)) env.bytes size with
      | .ok storage => .ok (words 4 (size / 4) storage)
      | .error f => .error f

/-- Embedding of `load_u64` of the basic build program. -/
def load_u64 (env : FileEnv) : Except Fault (List Word) :=
  if !env.openOk then .error .openError
  else
    let size := env.bytes.length
    if size % 8 ≠ 0 then .error .sizeMismatch
    else
      match copyInto (zeroStorage 8 (size / 8)) env.bytes size with
      | .ok storage => .ok (words 8 (size / 8) storage)
      | .error f => .error f

end hnswn_build_basic

/-! ## `query_optimized.cpp`: the concurrent query executor -/

namespace query_optimized

/-- Where a worker thread of `RealQueryOptimizer::run` stands in its loop body. -/
inductive WorkerPC where
  /-- About to execute `counter.fetch_add(1)`. -/
  | fetch
  /-- Claimed `i < n`; about to search, time the search and store `latencies[i]`. -/
  | claimed (i : Nat)
  /-- About to store `processed_ids[i] = query_ids[i]`. -/
  | storeId (i : Nat)
  /-- About to execute `stats[tid].queries++`. -/
  | bump (i : Nat)
  /-- Left the loop through `break`. -/
  | exited
  deriving DecidableEq, Repr

/-- Shared state of one call of `run`. `log` is a ghost history: one entry `(tid, i)` for
every completed loop body, in completion order. -/
structure RunState where
  counter : Nat
  pcs : List WorkerPC
  latencies : List Nat
  processed_ids : List Nat
  stats : List Nat
  log : List (Nat × Nat)
  deriving DecidableEq, Repr

/-- Embedding of `std::vector::resize(n)` on a vector of numbers: keeps the first `n` elements
and pads with value-initialised (zero) elements. -/
def resize (v : List Nat) (n : Nat) : List Nat := v.take n ++ List.replicate (n - v.length) 0

/-- The query count computed by `run`: `std::min(queries.size() / dim, query_ids.size())`. -/
def queryCount (queries_size : Nat) (dim : Int) (query_ids_size : Nat) : Nat :=
  min (queries_size / toSize dim) query_ids_size

/-- State of `run` when the workers are started: outputs resized, cursor at 0, and one worker
per iteration of `for (int i = 0; i < num_threads; i++)`. A latency is kept as the number of
clock ticks between `t0` and `t1`. -/
def run_init (n : Nat) (num_threads : Int) (latencies processed_ids stats : List Nat) :
    RunState where
  counter := 0
  pcs := List.replicate num_threads.toNat WorkerPC.fetch
  latencies := resize latencies n
  processed_ids := resize processed_ids n
  stats := resize stats (toSize num_threads)
  log := []

/-- One atomic step of worker `tid`; `ticks` is the duration its clock measures if the step is
the timed search. Scheduling a thread that has exited, or a thread id that does not exist,
does nothing. -/
def worker_step (n : Nat) (query_ids : List Nat) (s : RunState) (ev : Nat × Nat) : RunState :=
  let tid := ev.1
  match s.pcs[tid]? with
  | none => s
  | some .fetch =>
    let i := s.counter
    { s with
      counter := addSize s.counter 1
      pcs := s.pcs.set tid (if i ≥ n then .exited else .claimed i) }
  | some (.claimed i) =>
    { s with latencies := s.latencies.set i ev.2, pcs := s.pcs.set tid (.storeId i) }
  | some (.storeId i) =>
    { s with
      processed_ids := s.processed_ids.set i (query_ids.getD i 0)
      pcs := s.pcs.set tid (.bump i) }
  | some (.bump i) =>
    { s with
      stats := s.stats.set tid (s.stats.getD tid 0 + 1)
      log := s.log ++ [(tid, i)]
      pcs := s.pcs.set tid .fetch }
  | some .exited => s

/-- An interleaving: the sequence of (thread id, measured ticks) in which steps happen. -/
abbrev Schedule := List (Nat × Nat)

/-- State reached from `s` by the interleaving `sched`. -/
def exec (n : Nat) (query_ids : List Nat) (sched : Schedule) (s : RunState) : RunState :=
  sched.foldl (worker_step n query_ids) s

/-- Every worker has left its loop, so the `join` calls return and `run` returns. -/
def joined (s : RunState) : Prop := ∀ pc ∈ s.pcs, pc = WorkerPC.exited

instance (s : RunState) : Decidable (joined s) := by unfold joined; infer_instance

/-- Embedding of `RealQueryOptimizer::run` under the interleaving `sched`. -/
def run (queries_size : Nat) (query_ids : List Nat) (dim num_threads : Int)
    (latencies processed_ids stats : List Nat) (sched : Schedule) : RunState :=
  let n := queryCount queries_size dim query_ids.length
  exec n query_ids sched (run_init n num_threads latencies processed_ids stats)

/-- Indices that some worker has claimed and not finished processing. -/
def inflight (pcs : List WorkerPC) : List Nat :=
  pcs.filterMap fun pc =>
    match pc with
    | .claimed i => some i
    | .storeId i => some i
    | .bump i => some i
    | _ => none

/-- Invariant of the executor over `n` queries and `T` workers, `base` being the sum of the
per-thread counters when the workers start. -/
def Inv (n T base : Nat) (query_ids : List Nat) (s : RunState) : Prop :=
  s.pcs.length = T ∧ s.stats.length = T ∧ s.latencies.length = n ∧
  s.processed_ids.length = n ∧
  (s.log.map Prod.snd ++ inflight s.pcs).Perm (List.range (min s.counter n)) ∧
  s.counter = min s.counter n + s.pcs.count WorkerPC.exited ∧
  s.stats.sum = base + s.log.length ∧
  (∀ i, (i ∈ s.log.map Prod.snd ∨ WorkerPC.bump i ∈ s.pcs) →
    s.processed_ids[i]? = some (query_ids.getD i 0))

/-- Weight of a worker in the termination measure: the steps it needs to get back to
`fetch`, plus one for its last, unsuccessful `fetch`; 0 once it has exited. -/
def WorkerPC.rank : WorkerPC → Nat
  | .fetch => 1
  | .claimed _ => 4
  | .storeId _ => 3
  | .bump _ => 2
  | .exited => 0

/-- Number of steps that remain before every worker has exited. -/
def remaining (n : Nat) (s : RunState) : Nat :=
  4 * (n - min s.counter n) + (s.pcs.map WorkerPC.rank).sum

end query_optimized

/-! ## The insertion drivers -/

/-- What the external index observes of a build: the `addPoint` calls in call order (the `dim`
values read from the vector pointer, and the label), and, separately, the prefetch hints
(element offset into the embeddings, offset into the ids), which the index never sees. -/
structure BuildTrace (α : Type) where
  inserts : List (List α × Nat)
  hints : List (Nat × Nat)
  deriving DecidableEq, Repr

/-- The `dim` values that `addPoint` reads from the pointer `&embeddings[i * dim]`. -/
def vecAt {α : Type} (embeddings : List α) (dim : Int) (i : Nat) : List α :=
  (embeddings.drop (mulSize i (toSize dim))).take (toSize dim)

namespace build_optimized

/-- Look-ahead distance of the prefetch hints. -/
def PREFETCH_DISTANCE : Nat := 10

/-- Body of the loop of `build_with_prefetch` for index `i` (console output left out). -/
def build_with_prefetch_body {α : Type} (embeddings : List α) (ids : List Nat) (dim : Int)
    (N : Nat) (t : BuildTrace α) (i : Nat) : BuildTrace α :=
  let t1 : BuildTrace α :=
    if addSize i PREFETCH_DISTANCE < N then
      { t with hints := t.hints ++
          [(mulSize (addSize i PREFETCH_DISTANCE) (toSize dim), addSize i PREFETCH_DISTANCE)] }
    else t
  { t1 with inserts := t1.inserts ++ [(vecAt embeddings dim i, ids.getD i 0)] }

/-- Embedding of `build_with_prefetch(index, embeddings, ids, dim)` on an index that has seen
no call yet. -/
def build_with_prefetch {α : Type} (embeddings : List α) (ids : List Nat) (dim : Int) :
    BuildTrace α :=
  (List.range ids.length).foldl
    (build_with_prefetch_body embeddings ids dim ids.length) ⟨[], []⟩

end build_optimized

namespace hnswn_build_basic

/-- Embedding of the insertion loop of the basic build's `main`, which runs up to
`N = embeddings.size() / dim` (progress output left out). -/
def insert_loop {α : Type} (embeddings : List α) (ids : List Nat) (dim : Int) : BuildTrace α :=
  (List.range (embeddings.length / toSize dim)).foldl
    (fun t i => { t with inserts := t.inserts ++ [(vecAt embeddings dim i, ids.getD i 0)] })
    ⟨[], []⟩

end hnswn_build_basic

/-! ## IEEE-754 binary32 arithmetic (round to nearest, ties to even)

The normalizer computes in `float`. A finite float is kept as sign, integer significand and
exponent of the last place; every operation computes the exact result and rounds it once. -/

/-- A binary32 value. `fin neg m e` is `(-1)^neg * m * 2^e` with `m < 2^24`,
`-149 ≤ e ≤ 104`, and `2^23 ≤ m` unless `e = -149` (subnormal numbers and the two zeros). -/
inductive F32 where
  | fin (neg : Bool) (m : Nat) (e : Int)
  | inf (neg : Bool)
  | nan
  deriving DecidableEq, Repr

namespace F32

/-- Number of binary digits of `n`, with `fuel ≥` that number. -/
def bitLenAux : Nat → Nat → Nat
  | 0, _ => 0
  | fuel + 1, n => if n = 0 then 0 else bitLenAux fuel (n / 2) + 1

/-- Number of binary digits of `n` (0 for 0). -/
def bitLen (n : Nat) : Nat := bitLenAux n n

/-- Largest `s` with `s * s ≤ n`, found bit by bit from bit `bits - 1` downward starting at `acc`. -/
def isqrtAux (n : Nat) : Nat → Nat → Nat
  | 0, acc => acc
  | bits + 1, acc =>
    if (acc + 2 ^ bits) * (acc + 2 ^ bits) ≤ n then isqrtAux n bits (acc + 2 ^ bits)
    else isqrtAux n bits acc

/-- Integer square root. -/
def isqrt (n : Nat) : Nat := isqrtAux n (bitLen n) 0

/-- Pack a rounded significand `m ≤ 2^24` at exponent `t`: renormalise a carry out of the
significand, and overflow to infinity beyond the largest finite float. -/
def pack (neg : Bool) (m : Nat) (t : Int) : F32 :=
  let m1 := if m = 2 ^ 24 then 2 ^ 23 else m
  let t1 := if m = 2 ^ 24 then t + 1 else t
  if t1 > 104 then inf neg else fin neg m1 t1

/-- Round the exact value `(-1)^neg * (M + σ) * 2^E` to binary32, where `σ = 0` when `sticky`
is false and `0 < σ < 1` when it is true (callers that pass `sticky = true` pass `M ≥ 2^25`). -/
def round (neg : Bool) (M : Nat) (E : Int) (sticky : Bool) : F32 :=
  if M = 0 then fin neg 0 (-149)
  else
    let t : Int := max (E + (bitLen M : Int) - 24) (-149)
    if t ≤ E then pack neg (M * 2 ^ (E - t).toNat) t
    else
      let d := (t - E).toNat
      let q := M / 2 ^ d
      let r := M % 2 ^ d
      let half := 2 ^ (d - 1)
      let up : Bool := decide (r > half) || (decide (r = half) && (sticky || decide (q % 2 = 1)))
      pack neg (if up then q + 1 else q) t

/-- The float `+0.0f`. -/
def zero : F32 := fin false 0 (-149)

/-- The float `1.0f`. -/
def one : F32 := fin false (2 ^ 23) (-23)

/-- The correctly rounded quotient of two natural numbers (`b ≠ 0`), as a decimal literal
`a / b` or a division of significands produces it. -/
def ofNatDiv (neg : Bool) (a b : Nat) (E : Int) : F32 :=
  if a = 0 then fin neg 0 (-149)
  else
    let k := 26 + bitLen b
    round neg (a * 2 ^ k / b) (E - k) (decide (a * 2 ^ k % b ≠ 0))

/-- Float multiplication. -/
def mul : F32 → F32 → F32
  | nan, _ => nan
  | _, nan => nan
  | inf n1, inf n2 => inf (xor n1 n2)
  | inf n1, fin n2 m _ => if m = 0 then nan else inf (xor n1 n2)
  | fin n1 m _, inf n2 => if m = 0 then nan else inf (xor n1 n2)
  | fin n1 m1 e1, fin n2 m2 e2 => round (xor n1 n2) (m1 * m2) (e1 + e2) false

/-- The integer `(-1)^neg * m * 2^(e - E)` for `E ≤ e`. -/
def scaled (neg : Bool) (m : Nat) (e E : Int) : Int :=
  (if neg then -1 else 1) * ((m * 2 ^ (e - E).toNat : Nat) : Int)

/-- Float addition. -/
def add : F32 → F32 → F32
  | nan, _ => nan
  | _, nan => nan
  | inf n1, inf n2 => if n1 = n2 then inf n1 else nan
  | inf n1, fin _ _ _ => inf n1
  | fin _ _ _, inf n2 => inf n2
  | fin n1 m1 e1, fin n2 m2 e2 =>
    let E := min e1 e2
    let s := scaled n1 m1 e1 E + scaled n2 m2 e2 E
    if s = 0 then fin (n1 && n2) 0 (-149)
    else round (decide (s < 0)) s.natAbs E false

/-- Float division. -/
def div : F32 → F32 → F32
  | nan, _ => nan
  | _, nan => nan
  | inf _, inf _ => nan
  | inf n1, fin n2 _ _ => inf (xor n1 n2)
  | fin n1 _ _, inf n2 => fin (xor n1 n2) 0 (-149)
  | fin n1 m1 e1, fin n2 m2 e2 =>
    if m2 = 0 then (if m1 = 0 then nan else inf (xor n1 n2))
    else ofNatDiv (xor n1 n2) m1 m2 (e1 - e2)

/-- Float square root (`sqrtf`). -/
def sqrt : F32 → F32
  | nan => nan
  | inf neg => if neg then nan else inf false
  | fin neg m e =>
    if m = 0 then fin neg 0 (-149)
    else if neg then nan
    else
      -- scale to `M * 2^(2 * h)` with `M ≥ 2^52`, so that the root has at least 26 digits
      let sh : Nat := if e % 2 = 0 then 52 else 53
      let M := m * 2 ^ sh
      let h : Int := (e - sh) / 2
      round false (isqrt M) h (decide (isqrt M * isqrt M ≠ M))

/-- The comparison `a > b` of floats (false when either is a NaN). -/
def gt : F32 → F32 → Bool
  | nan, _ => false
  | _, nan => false
  | inf n1, inf n2 => !n1 && n2
  | inf n1, fin _ _ _ => !n1
  | fin _ _ _, inf n2 => n2
  | fin n1 m1 e1, fin n2 m2 e2 =>
    decide (scaled n1 m1 e1 (min e1 e2) > scaled n2 m2 e2 (min e1 e2))

/-- The float of a small natural number (exact below `2^24`). -/
def ofNat (n : Nat) : F32 := round false n 0 false

/-- The exact rational value of a finite float (0 for the others). -/
def toRat : F32 → ℚ
  | fin neg m e => (if neg then -1 else 1) * (m : ℚ) * (2 : ℚ) ^ e
  | _ => 0

end F32

/-- The literal `1e-12f`: the float nearest to `10^-12`. -/
def EPSILON : F32 := F32.ofNatDiv false 1 (10 ^ 12) 0

/-! ## `build_optimized.cpp`: the normalizer -/

namespace build_optimized

/-- Memory the normalizer works on: the input buffer `emb` (a `const` reference), the output
buffer `normalized`, and a ghost list of the vector indices for which the division
`1.0f / norm` was evaluated. -/
structure NormState where
  emb : List F32
  normalized : List F32
  divisions : List Nat
  deriving DecidableEq, Repr

/-- The value `src[d]` read by iteration `i`, with `src = &emb[i * dim]`. -/
def srcAt (emb : List F32) (dim : Int) (i d : Nat) : F32 :=
  emb.getD (mulSize i (toSize dim) + d) F32.zero

/-- The value of `norm_sq` after the first loop over `d` of iteration `i`. -/
def normSq (emb : List F32) (dim : Int) (i : Nat) : F32 :=
  (List.range dim.toNat).foldl
    (fun acc d => F32.add acc (F32.mul (srcAt emb dim i d) (srcAt emb dim i d))) F32.zero

/-- The value of `norm = sqrtf(norm_sq)` in iteration `i`. -/
def normOf (emb : List F32) (dim : Int) (i : Nat) : F32 := F32.sqrt (normSq emb dim i)

/-- A loop `for (d = 0; d < count; d++) dst[d] = f(d)` with `dst = &buf[base]`. -/
def storeLoop (base : Nat) (f : Nat → F32) (count : Nat) (buf : List F32) : List F32 :=
  (List.range count).foldl (fun b d => b.set (base + d) (f d)) buf

/-- Body of the loop over `i` of `normalize_embeddings_aligned`. -/
def normalize_body (dim : Int) (st : NormState) (i : Nat) : NormState :=
  let norm := normOf st.emb dim i
  if F32.gt norm EPSILON then
    let inv_norm := F32.div F32.one norm
    { st with
      divisions := st.divisions ++ [i]
      normalized := storeLoop (mulSize i (toSize dim))
        (fun d => F32.mul (srcAt st.emb dim i d) inv_norm) dim.toNat st.normalized }
  else
    { st with
      normalized := storeLoop (mulSize i (toSize dim))
        (fun d => srcAt st.emb dim i d) dim.toNat st.normalized }

/-- Embedding of `normalize_embeddings_aligned(emb, dim, num_threads)` for `dim ≠ 0`. The
iterations over `i` touch disjoint parts of `normalized`, so the static OpenMP partition
gives the result of the sequential loop; `num_threads` has no other effect. -/
def normalize_embeddings_aligned (emb : List F32) (dim : Int) : NormState :=
  let n := emb.length / toSize dim
  (List.range n).foldl (normalize_body dim)
    ⟨emb, List.replicate (mulSize n (toSize dim)) F32.zero, []⟩

/-- The value the loop over `i` leaves in `dst[d]` of vector `i`. -/
def component (emb : List F32) (dim : Int) (i d : Nat) : F32 :=
  if F32.gt (normOf emb dim i) EPSILON then
    F32.mul (srcAt emb dim i d) (F32.div F32.one (normOf emb dim i))
  else srcAt emb dim i d

end build_optimized

/-- Sum of the squares of the exact values of a list of floats. -/
def sumSq (v : List F32) : ℚ := (v.map (fun x => x.toRat ^ 2)).sum

/-- A float is a finite number. -/
def F32.isFinite : F32 → Bool
  | .fin _ _ _ => true
  | _ => false

/-- The vector `v` consists of finite floats and its Euclidean norm is within `10^-5` of 1. -/
def unitWithinTolerance (v : List F32) : Prop :=
  (∀ x ∈ v, x.isFinite = true) ∧
  (1 - 1 / 10 ^ 5 : ℚ) ^ 2 ≤ sumSq v ∧ sumSq v ≤ (1 + 1 / 10 ^ 5 : ℚ) ^ 2

/-! ## `metrics_collector.hpp` and the percentile computations -/

/-- The nearest `double` (ties to even) to the natural number `P`; it is itself a natural
number. Numbers of at most 53 binary digits are doubles. -/
def F64.roundNat (P : Nat) : Nat :=
  if F32.bitLen P ≤ 53 then P
  else
    let d := F32.bitLen P - 53
    let q := P / 2 ^ d
    let r := P % 2 ^ d
    let half := 2 ^ (d - 1)
    if r > half ∨ (r = half ∧ q % 2 = 1) then (q + 1) * 2 ^ d else q * 2 ^ d

/-- For a decimal literal `a / b` with `1/2 ≤ a / b < 1`: the integer `m` such that the
`double` the literal denotes is `m * 2^-53` (nearest, ties to even). -/
def F64.fraction (a b : Nat) : Nat :=
  let q := a * 2 ^ 53 / b
  let r := a * 2 ^ 53 % b
  if 2 * r > b ∨ (2 * r = b ∧ q % 2 = 1) then q + 1 else q

/-- The literal `0.5` (also written `0.50`). -/
def P50 : Nat := F64.fraction 1 2

/-- The literal `0.95`. -/
def P95 : Nat := F64.fraction 95 100

/-- The literal `0.99`. -/
def P99 : Nat := F64.fraction 99 100

/-- The index expression `v[v.size() * p]` for the literal `p = m * 2^-53`: the size is
converted to `double`, multiplied in `double`, and the product is truncated to `size_t`. -/
def pctIndex (size m : Nat) : Nat := F64.roundNat (F64.roundNat size * m) / 2 ^ 53

namespace MetricsCollector

/-- The numbers printed for one stream by `print_summary` that depend only on the order of
the samples. (The mean, a floating-point sum divided by the count, is not modelled.) -/
structure Summary (α : Type) where
  n : Nat
  min : α
  max : α
  p50 : α
  p95 : α
  p99 : α
  deriving DecidableEq, Repr

/-- The copy of the stream sorted ascending (`std::sort` on `sorted`). -/
def sortedCopy {α : Type} [LinearOrder α] (values : List α) : List α :=
  values.insertionSort (· ≤ ·)

/-- Embedding of the body of the loop of `print_summary` for one stream: `none` when the
stream is skipped because it is empty (or if an element read were out of range). -/
def print_summary_entry {α : Type} [LinearOrder α] (values : List α) : Option (Summary α) :=
  if values.isEmpty then none
  else do
    let max ← values.max?
    let min ← values.min?
    let sorted := sortedCopy values
    let p50 ← sorted[pctIndex sorted.length P50]?
    let p95 ← sorted[pctIndex sorted.length P95]?
    let p99 ← sorted[pctIndex sorted.length P99]?
    pure ⟨values.length, min, max, p50, p95, p99⟩

end MetricsCollector

namespace query_optimized

/-- Embedding of the percentile lines of `main`: `latencies` is sorted in place and read at
the three index expressions; `none` stands for a read out of range. -/
def main_percentiles {α : Type} [LinearOrder α] (latencies : List α) : Option (α × α × α) := do
  let sorted := MetricsCollector.sortedCopy latencies
  let p50 ← sorted[pctIndex sorted.length P50]?
  let p95 ← sorted[pctIndex sorted.length P95]?
  let p99 ← sorted[pctIndex sorted.length P99]?
  pure (p50, p95, p99)

end query_optimized

namespace F32

/-- Magnitude of a finite float (0 for the others). -/
def mag : F32 → ℚ
  | fin _ m e => (m : ℚ) * 2 ^ e
  | _ => 0

/-- A finite float that is zero or of magnitude between `2^-40` and `2^40`. -/
def wellScaled (x : F32) : Prop :=
  x.isFinite = true ∧ (x.mag = 0 ∨ ((2 : ℚ) ^ (-40 : Int) ≤ x.mag ∧ x.mag ≤ 2 ^ (40 : Int)))

/-- Invariant of the accumulation of `norm_sq`: after `k - 1` additions the accumulator is a
non-negative finite float within the factors `(1 ± 2^-23)^k` of the exact sum `T`, which is
zero or at least `2^-80`. -/
def SumInv (acc : F32) (T : ℚ) (k : Nat) : Prop :=
  ∃ m e, acc = fin false m e ∧ (T = 0 ∨ (2 : ℚ) ^ (-80 : Int) ≤ T) ∧
    T * (1 - 1 / 2 ^ 23) ^ k ≤ (m : ℚ) * 2 ^ e ∧ (m : ℚ) * 2 ^ e ≤ T * (1 + 1 / 2 ^ 23) ^ k

/-- Sum of the squared magnitudes of a list of floats. -/
def sumSqMag (v : List F32) : ℚ := (v.map (fun c => c.mag ^ 2)).sum

end F32

namespace hnsw_query_basic

/-- Embedding of the percentile lines of `main` of the basic query program: `latencies` (a
vector of `Q` samples) is sorted in place and read at `Q * 0.50`, `Q * 0.95`, `Q * 0.99`;
`none` stands for a read out of range. -/
def main_percentiles {α : Type} [LinearOrder α] (latencies : List α) : Option (α × α × α) := do
  let Q := latencies.length
  let sorted := MetricsCollector.sortedCopy latencies
  let p50 ← sorted[pctIndex Q P50]?
  let p95 ← sorted[pctIndex Q P95]?
  let p99 ← sorted[pctIndex Q P99]?
  pure (p50, p95, p99)

end hnsw_query_basic

namespace MetricsCollector

/-- A `std::string`: its characters, compared lexicographically as `std::string::compare`
does. -/
abbrev Str := List Char

/-- The member `metrics`, a `std::map<std::string, std::vector<double>>`: its entries in
iteration order, which for a `std::map` is the ascending order of the keys. -/
abbrev Metrics (α : Type) := List (Str × List α)

/-- Embedding of `record`, `metrics[metric].push_back(value)`: the entry of `metric` is
located by key comparison, created empty at its place in the key order when absent, and
`value` is appended to its vector. -/
def record {α : Type} : Metrics α → Str → α → Metrics α
  | [], metric, value => [(metric, [value])]
  | (k, vs) :: rest, metric, value =>
    if metric < k then (metric, [value]) :: (k, vs) :: rest
    else if metric = k then (k, vs ++ [value]) :: rest
    else (k, vs) :: record rest metric value

/-- The collector after a sequence of `record` calls on a fresh collector. -/
def recordAll {α : Type} (calls : List (Str × α)) : Metrics α :=
  calls.foldl (fun m c => record m c.1 c.2) []

/-- Embedding of `get_metric`: the vector of the entry found for `metric`, or the empty
vector when `find` reaches `end()`. -/
def get_metric {α : Type} : Metrics α → Str → List α
  | [], _ => []
  | (k, vs) :: rest, metric => if k = metric then vs else get_metric rest metric

/-- Invariant of a `std::map`: the keys of its entries are strictly ascending. -/
def KeysSorted {α : Type} (m : Metrics α) : Prop := (m.map Prod.fst).Sorted (· < ·)

/-- One field written to the CSV file (fields of a row are separated by `","`). -/
inductive Cell (α : Type) where
  | text (s : Str)
  | index (i : Nat)
  | value (x : α)
  deriving DecidableEq, Repr

/-- The header row of `save_to_csv`: `"timestamp"`, then `"," << metric` for each map entry. -/
def header {α : Type} (m : Metrics α) : List (Cell α) :=
  Cell.text "timestamp".toList :: m.map (fun e => Cell.text e.1)

/-- The loop of `save_to_csv` computing `max_points`. -/
def max_points {α : Type} (m : Metrics α) : Nat :=
  m.foldl (fun mp e => if e.2.length > mp then e.2.length else mp) 0

/-- Data row `i` of `save_to_csv`: `file << i`, then for each map entry
`"," << (i < values.size() ? values[i] : 0.0)`. -/
def data_row {α : Type} [Zero α] (m : Metrics α) (i : Nat) : List (Cell α) :=
  Cell.index i :: m.map (fun e => Cell.value (if i < e.2.length then e.2.getD i 0 else 0))

/-- Embedding of `save_to_csv`: the rows written to the file (each ended by a newline), or
`none` when the file could not be opened and nothing is written. -/
def save_to_csv {α : Type} [Zero α] (is_open : Bool) (m : Metrics α) :
    Option (List (List (Cell α))) :=
  if !is_open then none
  else some (header m :: (List.range (max_points m)).map (data_row m))

/-- The text of a row: its fields joined by commas and ended by a newline; `fmt` is the
stream formatting of a `double`, row indices are written in decimal. -/
def renderRow {α : Type} (fmt : α → Str) (row : List (Cell α)) : Str :=
  (row.map (fun c => match c with
    | Cell.text s => s
    | Cell.index i => (Nat.repr i).toList
    | Cell.value x => fmt x)).intersperse [','] |>.flatten |>.append ['\n']

/-- Spec-side order of C13: the stream names in the order in which each was first
recorded. -/
def firstRecorded {α : Type} (calls : List (Str × α)) : List Str :=
  calls.foldl (fun acc c => if c.1 ∈ acc then acc else acc ++ [c.1]) []

end MetricsCollector

/-! ## The `main` functions: counts, pre-processing and metrics -/

namespace hnsw_query_basic

/-- The two undefined behaviours `main` of the basic query program can run into after the
buffers are loaded. -/
inductive MainFault where
  /-- The division `queries.size() / dim` with `dim` zero. -/
  | divisionByZero
  /-- A percentile line reads `latencies` at or past its end. -/
  | outOfBoundsRead
  deriving DecidableEq, Repr

/-- The count adjustment of `main`: `Q = queries.size() / dim`, lowered to `q_ids.size()`
when there are fewer identifiers (both mismatches only print a warning). The division is by
`dim` converted to `size_t`; a zero divisor is a fault. -/
def main_count (queries_size : Nat) (dim : Int) (q_ids_size : Nat) : Except MainFault Nat :=
  if toSize dim = 0 then .error .divisionByZero
  else
    let Q := queries_size / toSize dim
    if q_ids_size < Q then .ok q_ids_size
    else .ok Q

/-- The positions of the sorted `latencies` read by the percentile lines of `main`. -/
def main_reads (Q : Nat) : List Nat := [pctIndex Q P50, pctIndex Q P95, pctIndex Q P99]

/-- The divisor of `avg_latency = accumulate(...) / Q`. -/
def mean_divisor (Q : Nat) : Nat := Q

end hnsw_query_basic

namespace query_optimized

/-- The positions of the sorted `latencies` read by the percentile lines of `main`. -/
def main_reads {α : Type} (latencies : List α) : List Nat :=
  [pctIndex latencies.length P50, pctIndex latencies.length P95, pctIndex latencies.length P99]

/-- The divisor of `avg = accumulate(...) / latencies.size()`. -/
def mean_divisor {α : Type} (latencies : List α) : Nat := latencies.length

end query_optimized

namespace MetricsCollector

/-- The positions of `sorted` read by `print_summary` for one stream: none for an empty
stream, which the loop skips with `continue`. -/
def print_summary_reads {α : Type} (values : List α) : List Nat :=
  if values.isEmpty then []
  else [pctIndex values.length P50, pctIndex values.length P95, pctIndex values.length P99]

/-- The divisor of `avg = sum / values.size()` in `print_summary`, when the stream is not
skipped. -/
def print_summary_divisor {α : Type} (values : List α) : Option Nat :=
  if values.isEmpty then none else some values.length

end MetricsCollector

/-- Why a build program stops with an error. -/
inductive MainError where
  /-- A loader threw (or ran into undefined behaviour). -/
  | loader (f : Fault)
  /-- The basic build found `embeddings.size() % dim != 0`. -/
  | dimMismatch
  /-- The number of vectors and the number of identifiers differ. -/
  | countMismatch
  /-- The basic build computed `embeddings.size() % dim` with `dim` zero. -/
  | divisionByZero
  deriving DecidableEq, Repr

/-- The distance space the index is created with. -/
inductive Space where
  | L2
  | InnerProduct
  deriving DecidableEq, Repr

/-- What a build program has done when it ends: how `main` ended, the space of the index if
one was created, the vectors handed to the insertion driver if it was called, the `addPoint`
calls made, and whether `saveIndex` was called. -/
structure BuildOutcome where
  result : Except MainError Unit
  space : Option Space
  handed : Option (List F32)
  inserts : List (List F32 × Nat)
  saved : Bool

/-- Outcome of a build that throws before an index exists. -/
def BuildOutcome.failed (e : MainError) : BuildOutcome := ⟨.error e, none, none, [], false⟩

namespace build_optimized

/-- The pre-processing step of `main`: the vectors are normalized when the selector is
`"ip"`, and moved unchanged otherwise. -/
def main_preprocess (space_type : String) (embeddings : List F32) (dim : Int) : List F32 :=
  if space_type = "ip" then (normalize_embeddings_aligned embeddings dim).normalized
  else embeddings

/-- The space selection of `main`: `L2Space` when the selector is `"l2"`, and
`InnerProductSpace` otherwise. -/
def main_space (space_type : String) : Space :=
  if space_type = "l2" then Space.L2 else Space.InnerProduct

/-- Embedding of `main` of the optimized build from the loading step on. `n_emb0`, `n_ids0`
are the indeterminate initial values of `n_emb`, `n_ids`; `floatVal` and `idVal` give the
value of a `float` and of a `uint64_t` from its object representation. -/
def main (emb_env ids_env : FileEnv) (n_emb0 n_ids0 : Nat) (dim : Int) (space_type : String)
    (floatVal : Word → F32) (idVal : Word → Nat) : BuildOutcome :=
  let e := load_embeddings_mmap emb_env n_emb0 dim
  match e.out with
  | .error f => BuildOutcome.failed (.loader f)
  | .ok embeddings =>
    let i := load_ids_mmap ids_env n_ids0
    match i.out with
    | .error f => BuildOutcome.failed (.loader f)
    | .ok ids =>
      if e.n ≠ i.n then BuildOutcome.failed .countMismatch
      else
        let processed := main_preprocess space_type (embeddings.map floatVal) dim
        let t := build_with_prefetch processed (ids.map idVal) dim
        ⟨.ok (), some (main_space space_type), some processed, t.inserts, true⟩

end build_optimized

namespace hnswn_build_basic

/-- The dimension check of `main` and the vector count `N` it computes. -/
def main_count (embeddings_size : Nat) (dim : Int) : Except MainError Nat :=
  if toSize dim = 0 then .error .divisionByZero
  else if embeddings_size % toSize dim ≠ 0 then .error .dimMismatch
  else .ok (embeddings_size / toSize dim)

/-- Embedding of `main` of the basic build from the loading step on. -/
def main (emb_env ids_env : FileEnv) (dim : Int) (floatVal : Word → F32) (idVal : Word → Nat) :
    BuildOutcome :=
  match load_fvec emb_env with
  | .error f => BuildOutcome.failed (.loader f)
  | .ok embeddings =>
    match load_u64 ids_env with
    | .error f => BuildOutcome.failed (.loader f)
    | .ok ids =>
      match main_count embeddings.length dim with
      | .error e => BuildOutcome.failed e
      | .ok N =>
        if ids.length ≠ N then BuildOutcome.failed .countMismatch
        else
          let t := insert_loop (embeddings.map floatVal) (ids.map idVal) dim
          ⟨.ok (), some Space.L2, some (embeddings.map floatVal), t.inserts, true⟩

end hnswn_build_basic

/-! # Theorems -/

/-! ## Raw storage lemmas -/

theorem words_length (w : Nat) : ∀ (count : Nat) (storage : List Byte),
    (words w count storage).length = count
  | 0, _ => rfl
  | count + 1, storage => by simp [words, words_length w count]

theorem words_join (w : Nat) : ∀ (count : Nat) (storage : List Byte),
    storage.length = w * count → (words w count storage).flatten = storage
  | 0, storage, h => by
    have : storage = [] := List.length_eq_zero.mp (by simpa using h)
    simp [words, this]
  | count + 1, storage, h => by
    have h2 : (storage.drop w).length = w * count := by
      rw [List.length_drop, h, Nat.mul_succ]; omega
    simp [words, words_join w count _ h2]

theorem words_width (w : Nat) : ∀ (count : Nat) (storage : List Byte),
    storage.length = w * count → ∀ x ∈ words w count storage, x.length = w
  | 0, _, _, x, hx => by simp [words] at hx
  | count + 1, storage, h, x, hx => by
    have h2 : (storage.drop w).length = w * count := by
      rw [List.length_drop, h, Nat.mul_succ]; omega
    simp only [words, List.mem_cons] at hx
    rcases hx with rfl | hx
    · rw [List.length_take, h, Nat.mul_succ]; omega
    · exact words_width w count _ h2 x hx

theorem copyInto_exact (w count : Nat) (src : List Byte) (h : src.length = w * count) :
    copyInto (zeroStorage w count) src src.length = .ok src := by
  unfold copyInto zeroStorage
  rw [if_pos (by simp [h])]
  simp [h]

theorem toSize_of_int_range (dim : Int) (h1 : 1 ≤ dim) (h2 : dim < 2 ^ 31) :
    toSize dim = dim.toNat := by
  unfold toSize SIZE_MOD
  rw [Int.emod_eq_of_lt (by omega) (by norm_num; omega)]

theorem mulSize_of_lt (a b : Nat) (h : a * b < 2 ^ 64) : mulSize a b = a * b := by
  unfold mulSize SIZE_MOD
  exact Nat.mod_eq_of_lt h

/-! ## C1, C2: the memory-mapped loaders -/

theorem load_embeddings_mmap_ok (env : FileEnv) (n0 : Nat) (dim : Int)
    (hopen : env.openOk = true) (hstat : env.statOk = true)
    (hmap : env.mmapSucceeds env.bytes.length = true)
    (hdim : 1 ≤ dim) (hint : dim < 2 ^ 31) (hoff : env.bytes.length < 2 ^ 63)
    (hmult : env.bytes.length % (4 * dim.toNat) = 0) :
    (build_optimized.load_embeddings_mmap env n0 dim).n = env.bytes.length / (4 * dim.toNat) ∧
    (build_optimized.load_embeddings_mmap env n0 dim).out =
      .ok (words 4 (env.bytes.length / (4 * dim.toNat) * dim.toNat) env.bytes) := by
  have hd : 1 ≤ dim.toNat := by omega
  have hd2 : dim.toNat < 2 ^ 31 := by omega
  have hw : mulSize 4 (toSize dim) = 4 * dim.toNat := by
    rw [toSize_of_int_range dim hdim hint, mulSize_of_lt _ _ (by omega)]
  have hdvd : 4 * dim.toNat * (env.bytes.length / (4 * dim.toNat)) = env.bytes.length :=
    Nat.mul_div_cancel' (Nat.dvd_of_mod_eq_zero hmult)
  have hlen : env.bytes.length = 4 * (env.bytes.length / (4 * dim.toNat) * dim.toNat) := by
    rw [← hdvd] at *
    rw [Nat.mul_div_cancel_left _ (by omega)]
    ring
  have hc : mulSize (env.bytes.length / (4 * dim.toNat)) (toSize dim)
      = env.bytes.length / (4 * dim.toNat) * dim.toNat := by
    rw [toSize_of_int_range dim hdim hint, mulSize_of_lt _ _ (by omega)]
  unfold build_optimized.load_embeddings_mmap
  simp only [hopen, hstat, hmap, hw, hc, Bool.not_true, Bool.false_eq_true, if_false]
  rw [if_neg (by omega), if_neg (by simp [hmult]), copyInto_exact 4 _ env.bytes hlen]
  exact ⟨rfl, rfl⟩

theorem load_ids_mmap_ok (env : FileEnv) (n0 : Nat)
    (hopen : env.openOk = true) (hstat : env.statOk = true)
    (hmap : env.mmapSucceeds env.bytes.length = true)
    (hmult : env.bytes.length % 8 = 0) :
    (build_optimized.load_ids_mmap env n0).n = env.bytes.length / 8 ∧
    (build_optimized.load_ids_mmap env n0).out = .ok (words 8 (env.bytes.length / 8) env.bytes) := by
  have hlen : env.bytes.length = 8 * (env.bytes.length / 8) := by omega
  unfold build_optimized.load_ids_mmap
  simp only [hopen, hstat, hmap, Bool.not_true, Bool.false_eq_true, if_false]
  rw [if_neg (by simp [hmult]), copyInto_exact 8 _ env.bytes hlen]
  exact ⟨rfl, rfl⟩

/-- C1: for a file that can be opened, stat'ed and mapped, `load_embeddings_mmap` (when the
byte size is a multiple of `4 * dim`, `dim ≥ 1`) sets `n = size / (4 * dim)` and returns exactly
`n * dim` four-byte floats whose bytes, in order, are the bytes of the file; `load_ids_mmap`
(when the byte size is a multiple of 8) sets `n = size / 8` and returns `n` eight-byte
identifiers whose bytes, in order, are the bytes of the file. -/
theorem C1_mmap_loaders_exact (env : FileEnv) (n0 : Nat) (dim : Int)
    (hopen : env.openOk = true) (hstat : env.statOk = true)
    (hmap : env.mmapSucceeds env.bytes.length = true)
    (hdim : 1 ≤ dim) (hint : dim < 2 ^ 31) (hoff : env.bytes.length < 2 ^ 63) :
    (env.bytes.length % (4 * dim.toNat) = 0 →
      (build_optimized.load_embeddings_mmap env n0 dim).n = env.bytes.length / (4 * dim.toNat) ∧
      ∃ data, (build_optimized.load_embeddings_mmap env n0 dim).out = .ok data ∧
        data.length = env.bytes.length / (4 * dim.toNat) * dim.toNat ∧
        (∀ x ∈ data, x.length = 4) ∧ data.flatten = env.bytes) ∧
    (env.bytes.length % 8 = 0 →
      (build_optimized.load_ids_mmap env n0).n = env.bytes.length / 8 ∧
      ∃ data, (build_optimized.load_ids_mmap env n0).out = .ok data ∧
        data.length = env.bytes.length / 8 ∧
        (∀ x ∈ data, x.length = 8) ∧ data.flatten = env.bytes) := by
  constructor
  · intro hmult
    obtain ⟨h1, h2⟩ := load_embeddings_mmap_ok env n0 dim hopen hstat hmap hdim hint hoff hmult
    have hd : 1 ≤ dim.toNat := by omega
    have hlen : env.bytes.length = 4 * (env.bytes.length / (4 * dim.toNat) * dim.toNat) := by
      have := Nat.mul_div_cancel' (Nat.dvd_of_mod_eq_zero hmult)
      rw [← this, Nat.mul_div_cancel_left _ (by omega)]
      ring
    exact ⟨h1, _, h2, words_length _ _ _, words_width _ _ _ hlen, words_join _ _ _ hlen⟩
  · intro hmult
    obtain ⟨h1, h2⟩ := load_ids_mmap_ok env n0 hopen hstat hmap hmult
    have hlen : env.bytes.length = 8 * (env.bytes.length / 8) := by omega
    exact ⟨h1, _, h2, words_length _ _ _, words_width _ _ _ hlen, words_join _ _ _ hlen⟩

/-- Witness for C1: a 16-byte file with `dim = 2` gives `n = 2` and the four floats of the
file; read as identifiers it gives `n = 2` and the two identifiers. -/
theorem C1_mmap_loaders_exact_witness :
    (build_optimized.load_embeddings_mmap
        ⟨true, true, true, [1, 2, 3, 4, 5, 6, 7, 8, 9, 10, 11, 12, 13, 14, 15, 16]⟩ 99 2).n = 2 ∧
    (∃ data, (build_optimized.load_embeddings_mmap
        ⟨true, true, true, [1, 2, 3, 4, 5, 6, 7, 8, 9, 10, 11, 12, 13, 14, 15, 16]⟩ 99 2).out
          = .ok data ∧ data.length = 4 ∧ (∀ x ∈ data, x.length = 4) ∧
          data.flatten = [1, 2, 3, 4, 5, 6, 7, 8, 9, 10, 11, 12, 13, 14, 15, 16]) ∧
    (build_optimized.load_ids_mmap
        ⟨true, true, true, [1, 2, 3, 4, 5, 6, 7, 8, 9, 10, 11, 12, 13, 14, 15, 16]⟩ 99).n = 2 := by
  have h := C1_mmap_loaders_exact
    ⟨true, true, true, [1, 2, 3, 4, 5, 6, 7, 8, 9, 10, 11, 12, 13, 14, 15, 16]⟩ 99 2
    (by decide) (by decide) (by decide) (by decide) (by decide) (by decide)
  exact ⟨(h.1 (by decide)).1, (h.1 (by decide)).2, (h.2 (by decide)).1⟩

/-- C2: for an openable file whose byte size is not a multiple of the record width
(`4 * dim` for `load_embeddings_mmap` with `dim ≥ 1`, 8 for `load_ids_mmap`) the loader ends
with an error (the size-mismatch error whenever `fstat` succeeded, the stat error otherwise),
returns no records and leaves the caller's `n` at its previous value. -/
theorem C2_mmap_loaders_reject (env : FileEnv) (n0 : Nat) (dim : Int)
    (hopen : env.openOk = true) (hdim : 1 ≤ dim) (hint : dim < 2 ^ 31) :
    (env.bytes.length % (4 * dim.toNat) ≠ 0 →
      (build_optimized.load_embeddings_mmap env n0 dim).n = n0 ∧
      (build_optimized.load_embeddings_mmap env n0 dim).out =
        .error (if env.statOk then Fault.sizeMismatch else Fault.statError)) ∧
    (env.bytes.length % 8 ≠ 0 →
      (build_optimized.load_ids_mmap env n0).n = n0 ∧
      (build_optimized.load_ids_mmap env n0).out =
        .error (if env.statOk then Fault.sizeMismatch else Fault.statError)) := by
  have hw : mulSize 4 (toSize dim) = 4 * dim.toNat := by
    rw [toSize_of_int_range dim hdim hint, mulSize_of_lt _ _ (by omega)]
  constructor
  · intro hmult
    unfold build_optimized.load_embeddings_mmap
    cases hs : env.statOk
    · simp [hopen]
    · simp only [hopen, hw, Bool.not_true, Bool.false_eq_true, if_false]
      rw [if_neg (by omega), if_pos hmult]
      simp
  · intro hmult
    unfold build_optimized.load_ids_mmap
    cases hs : env.statOk
    · simp [hopen]
    · simp only [hopen, Bool.not_true, Bool.false_eq_true, if_false]
      rw [if_pos hmult]
      simp

/-- Witness for C2: a 7-byte file is rejected by both loaders (`dim = 1`), `n` stays 99. -/
theorem C2_mmap_loaders_reject_witness :
    ((build_optimized.load_embeddings_mmap ⟨true, true, true, [1, 2, 3, 4, 5, 6, 7]⟩ 99 1).n = 99 ∧
     (build_optimized.load_embeddings_mmap ⟨true, true, true, [1, 2, 3, 4, 5, 6, 7]⟩ 99 1).out =
        .error Fault.sizeMismatch) ∧
    ((build_optimized.load_ids_mmap ⟨true, true, true, [1, 2, 3, 4, 5, 6, 7]⟩ 99).n = 99 ∧
     (build_optimized.load_ids_mmap ⟨true, true, true, [1, 2, 3, 4, 5, 6, 7]⟩ 99).out =
        .error Fault.sizeMismatch) := by
  have h := C2_mmap_loaders_reject ⟨true, true, true, [1, 2, 3, 4, 5, 6, 7]⟩ 99 1
    (by decide) (by decide) (by decide)
  exact ⟨h.1 (by decide), h.2 (by decide)⟩

/-! ## C3: the copying-read loaders of the query programs -/

/-- C3 (code defect): on a 5-byte file the loaders of the query programs do not fail with a
size mismatch. `RealQueryOptimizer::load_queries` asks `read` for 5 bytes into a 4-byte buffer
(a write past the end); `load_fvec` of the basic query program silently returns the one float
made of the first 4 bytes. On a 9-byte file the identifier loaders behave the same way. The
loader of the basic build program with the same name rejects the same file. -/
theorem C3_query_loaders_unchecked :
    query_optimized.load_queries ⟨true, true, true, [1, 2, 3, 4, 5]⟩
      = .error Fault.outOfBoundsWrite ∧
    query_optimized.load_query_ids ⟨true, true, true, [1, 2, 3, 4, 5, 6, 7, 8, 9]⟩
      = .error Fault.outOfBoundsWrite ∧
    hnsw_query_basic.load_fvec ⟨true, true, true, [1, 2, 3, 4, 5]⟩ = .ok [[1, 2, 3, 4]] ∧
    hnsw_query_basic.load_u64vec ⟨true, true, true, [1, 2, 3, 4, 5, 6, 7, 8, 9]⟩
      = .ok [[1, 2, 3, 4, 5, 6, 7, 8]] ∧
    hnswn_build_basic.load_fvec ⟨true, true, true, [1, 2, 3, 4, 5]⟩ = .error Fault.sizeMismatch ∧
    hnswn_build_basic.load_u64 ⟨true, true, true, [1, 2, 3, 4, 5, 6, 7, 8, 9]⟩
      = .error Fault.sizeMismatch := by
  decide

/-! ## C4, C5: the concurrent query executor -/

theorem getElem?_split {α : Type} (l : List α) (i : Nat) (x : α) (h : l[i]? = some x) :
    ∃ A B, l = A ++ x :: B ∧ A.length = i := by
  obtain ⟨hi, hx⟩ := List.getElem?_eq_some.mp h
  refine ⟨l.take i, l.drop (i + 1), ?_, ?_⟩
  · rw [← hx, ← List.drop_eq_getElem_cons hi, List.take_append_drop]
  · rw [List.length_take]; omega

theorem set_split {α : Type} (A B : List α) (x a : α) :
    (A ++ x :: B).set A.length a = A ++ a :: B := by
  induction A with
  | nil => rfl
  | cons y A ih => simp [ih]

theorem getD_split (A B : List Nat) (x d : Nat) : (A ++ x :: B).getD A.length d = x := by
  induction A with
  | nil => rfl
  | cons y A ih => simpa using ih

namespace query_optimized

theorem resize_length (v : List Nat) (n : Nat) : (resize v n).length = n := by
  unfold resize
  rw [List.length_append, List.length_take, List.length_replicate]
  omega

theorem resize_sum_zero (v : List Nat) (n : Nat) (h : ∀ x ∈ v, x = 0) : (resize v n).sum = 0 := by
  unfold resize
  rw [List.sum_append, List.sum_replicate]
  have : (v.take n).sum = 0 := by
    apply List.sum_eq_zero
    intro x hx
    exact h x (List.mem_of_mem_take hx)
  simp [this]

theorem inv_init (n : Nat) (num_threads : Int) (query_ids latencies processed_ids stats : List Nat)
    (hT : toSize num_threads = num_threads.toNat) :
    Inv n num_threads.toNat (resize stats (toSize num_threads)).sum query_ids
      (run_init n num_threads latencies processed_ids stats) := by
  refine ⟨by simp [run_init], by simp [run_init, resize_length, hT],
    by simp [run_init, resize_length], by simp [run_init, resize_length], ?_, ?_,
    by simp [run_init], ?_⟩
  · have : inflight (List.replicate num_threads.toNat WorkerPC.fetch) = [] := by
      unfold inflight
      rw [List.filterMap_eq_nil_iff]
      intro a ha
      rw [List.eq_of_mem_replicate ha]
    simp [run_init, this]
  · have : (List.replicate num_threads.toNat WorkerPC.fetch).count WorkerPC.exited = 0 := by
      rw [List.count_eq_zero]
      intro h
      have := List.eq_of_mem_replicate h
      cases this
    simp [run_init, this]
  · intro i hi
    rcases hi with hi | hi
    · simp [run_init] at hi
    · have := List.eq_of_mem_replicate hi
      cases this


theorem inflight_split (A B : List WorkerPC) (pc : WorkerPC) :
    inflight (A ++ pc :: B) = inflight A ++ (inflight [pc] ++ inflight B) := by
  unfold inflight
  rw [List.filterMap_append, List.filterMap_cons]
  cases pc <;> simp

theorem count_exited_split (A B : List WorkerPC) (pc : WorkerPC) :
    (A ++ pc :: B).count WorkerPC.exited
      = A.count WorkerPC.exited + ([pc].count WorkerPC.exited + B.count WorkerPC.exited) := by
  rw [List.count_append, List.count_cons, List.count_cons]
  simp
  omega

theorem inv_step (n T base : Nat) (query_ids : List Nat) (hbound : n + T < 2 ^ 64)
    (s : RunState) (ev : Nat × Nat) (h : Inv n T base query_ids s) :
    Inv n T base query_ids (worker_step n query_ids s ev) := by
  obtain ⟨counter, pcs, lat, pids, stats, log⟩ := s
  obtain ⟨tid, ticks⟩ := ev
  obtain ⟨hp, hs, hl, hpi, hperm, hcnt, hsum, hids⟩ := h
  simp only at hp hs hl hpi hperm hcnt hsum hids
  cases hpc : pcs[tid]? with
  | none => simpa only [worker_step, hpc] using ⟨hp, hs, hl, hpi, hperm, hcnt, hsum, hids⟩
  | some pc =>
    obtain ⟨A, B, hAB, hA⟩ := getElem?_split _ _ _ hpc
    subst hAB
    subst hA
    simp only [worker_step, hpc]
    rw [inflight_split] at hperm
    rw [count_exited_split] at hcnt
    have hcA := List.count_le_length (a := WorkerPC.exited) (l := A)
    have hcB := List.count_le_length (a := WorkerPC.exited) (l := B)
    simp only [List.length_append, List.length_cons] at hp
    cases pc with
    | exited => exact ⟨by simpa using hp, hs, hl, hpi, by rwa [inflight_split], by rwa [count_exited_split], hsum, hids⟩
    | fetch =>
      have hc1 : addSize counter 1 = counter + 1 := by
        unfold addSize SIZE_MOD
        apply Nat.mod_eq_of_lt
        simp at hcnt
        omega
      simp only [set_split, hc1]
      by_cases hge : counter ≥ n
      · rw [if_pos hge]
        refine ⟨by simpa using hp, hs, hl, hpi, ?_, ?_, hsum, ?_⟩
        · rw [inflight_split]
          have : min (counter + 1) n = min counter n := by omega
          rw [this]
          simpa [inflight] using hperm
        · rw [count_exited_split]
          simp at hcnt ⊢
          omega
        · intro i hi
          apply hids i
          rcases hi with hi | hi
          · exact Or.inl hi
          · right
            simp at hi ⊢
            tauto
      · rw [if_neg hge]
        refine ⟨by simpa using hp, hs, hl, hpi, ?_, ?_, hsum, ?_⟩
        · rw [inflight_split]
          have hm : min (counter + 1) n = counter + 1 := by omega
          have hm2 : min counter n = counter := by omega
          rw [hm, List.range_succ]
          rw [hm2] at hperm
          have e1 : inflight [WorkerPC.fetch] = [] := rfl
          have e2 : inflight [WorkerPC.claimed counter] = [counter] := rfl
          rw [e1, List.nil_append] at hperm
          rw [e2, List.singleton_append, ← List.append_assoc]
          refine List.perm_middle.trans ?_
          rw [List.append_assoc]
          refine (List.Perm.cons counter hperm).trans ?_
          exact (List.perm_append_singleton counter (List.range counter)).symm
        · rw [count_exited_split]
          simp at hcnt ⊢
          omega
        · intro i hi
          apply hids i
          rcases hi with hi | hi
          · exact Or.inl hi
          · right
            simp at hi ⊢
            tauto
    | claimed i =>
      simp only [set_split]
      refine ⟨by simpa using hp, hs, by simpa using hl, hpi, ?_, ?_, hsum, ?_⟩
      · rw [inflight_split]
        exact hperm
      · rw [count_exited_split]
        simpa using hcnt
      · intro j hj
        apply hids j
        rcases hj with hj | hj
        · exact Or.inl hj
        · right
          simp at hj ⊢
          tauto
    | storeId i =>
      simp only [set_split]
      have hin : i < n := by
        have hmem : i ∈ List.range (min counter n) := by
          apply hperm.subset
          simp [inflight]
        rw [List.mem_range] at hmem
        omega
      refine ⟨by simpa using hp, hs, hl, by simpa using hpi, ?_, ?_, hsum, ?_⟩
      · rw [inflight_split]
        exact hperm
      · rw [count_exited_split]
        simpa using hcnt
      · intro j hj
        by_cases hji : j = i
        · subst hji
          rw [List.getElem?_set_self (by omega)]
        · rw [List.getElem?_set_ne (fun e => hji e.symm)]
          apply hids j
          rcases hj with hj | hj
          · exact Or.inl hj
          · right
            simp at hj ⊢
            rcases hj with hj | hj | hj
            · exact Or.inl hj
            · exact absurd hj hji
            · exact Or.inr hj
    | bump i =>
      simp only [set_split]
      have hsA : A.length < stats.length := by omega
      obtain ⟨x, hx⟩ : ∃ x, stats[A.length]? = some x := ⟨_, List.getElem?_eq_getElem hsA⟩
      obtain ⟨S1, S2, hS, hS1⟩ := getElem?_split _ _ _ hx
      subst hS
      rw [← hS1, set_split, getD_split]
      refine ⟨by simpa using hp, by simpa using hs, hl, hpi, ?_, ?_, ?_, ?_⟩
      · rw [inflight_split]
        have e1 : inflight [WorkerPC.fetch] = [] := rfl
        have e2 : inflight [WorkerPC.bump i] = [i] := rfl
        rw [e2, List.singleton_append, ← List.append_assoc] at hperm
        rw [e1, List.nil_append, List.map_append, List.map_cons, List.map_nil, List.append_assoc,
          List.singleton_append]
        refine List.perm_middle.trans ?_
        rw [← List.append_assoc]
        exact List.perm_middle.symm.trans hperm
      · rw [count_exited_split]
        simpa using hcnt
      · simp only [List.sum_append, List.sum_cons, List.length_append, List.length_cons,
          List.length_nil] at hsum ⊢
        omega
      · intro j hj
        apply hids j
        rcases hj with hj | hj
        · simp at hj ⊢
          rcases hj with hj | hj
          · exact Or.inl hj
          · right; right; left; exact hj
        · right
          simp at hj ⊢
          tauto


theorem inv_exec (n T base : Nat) (query_ids : List Nat) (hbound : n + T < 2 ^ 64)
    (sched : Schedule) : ∀ s : RunState, Inv n T base query_ids s →
      Inv n T base query_ids (exec n query_ids sched s) := by
  induction sched with
  | nil => intro s h; exact h
  | cons ev rest ih =>
    intro s h
    exact ih _ (inv_step n T base query_ids hbound s ev h)

theorem inflight_of_joined (pcs : List WorkerPC) (h : ∀ pc ∈ pcs, pc = WorkerPC.exited) :
    inflight pcs = [] := by
  unfold inflight
  rw [List.filterMap_eq_nil_iff]
  intro a ha
  rw [h a ha]

theorem count_of_joined (pcs : List WorkerPC) (h : ∀ pc ∈ pcs, pc = WorkerPC.exited) :
    pcs.count WorkerPC.exited = pcs.length := by
  rw [List.count_eq_length]
  intro a ha
  exact (h a ha).symm

/-- What the invariant gives once every worker has exited. -/
theorem inv_final (n T base : Nat) (query_ids : List Nat) (s : RunState) (hT : 1 ≤ T)
    (h : Inv n T base query_ids s) (hj : joined s) :
    (s.log.map Prod.snd).Perm (List.range n) ∧ s.stats.sum = base + n ∧
    s.latencies.length = n ∧ s.processed_ids.length = n ∧
    (∀ i, i < n → s.processed_ids[i]? = some (query_ids.getD i 0)) ∧
    s.counter = n + T := by
  obtain ⟨hp, hs, hl, hpi, hperm, hcnt, hsum, hids⟩ := h
  rw [inflight_of_joined _ hj, List.append_nil] at hperm
  rw [count_of_joined _ hj, hp] at hcnt
  have hm : min s.counter n = n := by omega
  rw [hm] at hperm hcnt
  have hlen : s.log.length = n := by
    have := hperm.length_eq
    simpa using this
  refine ⟨hperm, by omega, hl, hpi, ?_, hcnt⟩
  intro i hi
  apply hids i
  left
  exact hperm.symm.subset (List.mem_range.mpr hi)


theorem rank_sum_split (A B : List WorkerPC) (pc : WorkerPC) :
    ((A ++ pc :: B).map WorkerPC.rank).sum
      = (A.map WorkerPC.rank).sum + (pc.rank + (B.map WorkerPC.rank).sum) := by
  simp [List.sum_append]

/-- Every step of a worker that has not exited brings the run one step closer to its end. -/
theorem step_decreases (n T base : Nat) (query_ids : List Nat) (hbound : n + T < 2 ^ 64)
    (s : RunState) (tid ticks : Nat) (pc : WorkerPC) (h : Inv n T base query_ids s)
    (hpc : s.pcs[tid]? = some pc) (hne : pc ≠ WorkerPC.exited) :
    remaining n (worker_step n query_ids s (tid, ticks)) + 1 = remaining n s := by
  obtain ⟨counter, pcs, lat, pids, stats, log⟩ := s
  obtain ⟨hp, -, -, -, -, hcnt, -, -⟩ := h
  simp only at hp hcnt hpc
  obtain ⟨A, B, hAB, hA⟩ := getElem?_split _ _ _ hpc
  subst hAB
  subst hA
  simp only [worker_step, hpc, remaining]
  rw [count_exited_split] at hcnt
  have hcA := List.count_le_length (a := WorkerPC.exited) (l := A)
  have hcB := List.count_le_length (a := WorkerPC.exited) (l := B)
  simp only [List.length_append, List.length_cons] at hp
  cases pc with
  | exited => exact absurd rfl hne
  | fetch =>
    have hc1 : addSize counter 1 = counter + 1 := by
      unfold addSize SIZE_MOD
      apply Nat.mod_eq_of_lt
      simp at hcnt
      omega
    simp only [set_split, hc1, rank_sum_split]
    by_cases hge : counter ≥ n
    · rw [if_pos hge]
      simp only [WorkerPC.rank]
      omega
    · rw [if_neg hge]
      simp only [WorkerPC.rank]
      omega
  | claimed i => simp only [set_split, rank_sum_split, WorkerPC.rank]; omega
  | storeId i => simp only [set_split, rank_sum_split, WorkerPC.rank]; omega
  | bump i => simp only [set_split, rank_sum_split, WorkerPC.rank]; omega

/-- From every state the invariant allows, some interleaving lets all workers exit. -/
theorem can_finish (n T base : Nat) (query_ids : List Nat) (hbound : n + T < 2 ^ 64) :
    ∀ (k : Nat) (s : RunState), remaining n s = k → Inv n T base query_ids s →
      ∃ sched : Schedule, joined (exec n query_ids sched s) := by
  intro k
  induction k with
  | zero =>
    intro s hk _
    refine ⟨[], ?_⟩
    intro pc hpc
    have hsum : (s.pcs.map WorkerPC.rank).sum = 0 := by
      unfold remaining at hk
      omega
    have hz := List.sum_eq_zero_iff.mp hsum pc.rank (List.mem_map_of_mem _ hpc)
    cases pc <;> simp [WorkerPC.rank] at hz ⊢
  | succ k ih =>
    intro s hk hinv
    by_cases hj : joined s
    · exact ⟨[], hj⟩
    · unfold joined at hj
      push_neg at hj
      obtain ⟨pc, hmem, hne⟩ := hj
      obtain ⟨tid, htid⟩ := List.getElem?_of_mem hmem
      have hdec := step_decreases n T base query_ids hbound s tid 0 pc hinv htid hne
      obtain ⟨sched, hs⟩ := ih (worker_step n query_ids s (tid, 0)) (by omega)
        (inv_step n T base query_ids hbound s (tid, 0) hinv)
      exact ⟨(tid, 0) :: sched, hs⟩


/-- C4: for `n` queries and `T ≥ 1` worker threads, some interleaving lets all workers exit,
and for every interleaving of the workers' steps after which all workers have exited, the
indices of the completed loop bodies are exactly `0, …, n-1` (a permutation of them), every
index below `n` was processed exactly once, no index `≥ n` was processed, and the per-thread
counters sum to `n`. The counters are those of a `stats` vector passed in with zero counts,
as `main` does. -/
theorem C4_exactly_once (n : Nat) (num_threads : Int) (query_ids lat0 pid0 stats0 : List Nat)
    (hT : 1 ≤ num_threads) (hTint : num_threads < 2 ^ 31) (hn : n < 2 ^ 63)
    (hfresh : ∀ x ∈ stats0, x = 0) :
    (∃ sched : Schedule,
      joined (exec n query_ids sched (run_init n num_threads lat0 pid0 stats0))) ∧
    ∀ sched : Schedule,
      joined (exec n query_ids sched (run_init n num_threads lat0 pid0 stats0)) →
      ((exec n query_ids sched (run_init n num_threads lat0 pid0 stats0)).log.map Prod.snd).Perm
        (List.range n) ∧
      (∀ i, i < n →
        ((exec n query_ids sched (run_init n num_threads lat0 pid0 stats0)).log.map
          Prod.snd).count i = 1) ∧
      (∀ i, n ≤ i →
        i ∉ (exec n query_ids sched (run_init n num_threads lat0 pid0 stats0)).log.map
          Prod.snd) ∧
      (exec n query_ids sched (run_init n num_threads lat0 pid0 stats0)).stats.sum = n := by
  have hTs : toSize num_threads = num_threads.toNat := toSize_of_int_range _ hT hTint
  have hT1 : 1 ≤ num_threads.toNat := by omega
  have hbound : n + num_threads.toNat < 2 ^ 64 := by omega
  have h0 := inv_init n num_threads query_ids lat0 pid0 stats0 hTs
  rw [resize_sum_zero _ _ hfresh] at h0
  refine ⟨can_finish n _ 0 query_ids hbound _ _ rfl h0, ?_⟩
  intro sched hj
  obtain ⟨hperm, hsum, -, -, -, -⟩ :=
    inv_final n _ 0 query_ids _ hT1 (inv_exec n _ 0 query_ids hbound sched _ h0) hj
  refine ⟨hperm, ?_, ?_, by omega⟩
  · intro i hi
    rw [hperm.count_eq]
    exact List.count_eq_one_of_mem (List.nodup_range n) (List.mem_range.mpr hi)
  · intro i hi hmem
    have := List.mem_range.mp (hperm.subset hmem)
    omega

/-- Witness for C4: 4 queries, 2 threads, one interleaving in which thread 1 finishes query 1
before thread 0 finishes query 0. -/
theorem C4_exactly_once_witness :
    joined (exec 4 [10, 11, 12, 13]
      [(0, 5), (1, 7), (1, 3), (0, 4), (0, 0), (1, 0), (1, 0), (0, 0), (0, 0), (0, 0), (0, 0),
       (0, 0), (1, 0), (1, 0), (1, 0), (1, 0), (1, 0), (0, 0)] (run_init 4 2 [] [] [])) ∧
    (exec 4 [10, 11, 12, 13]
      [(0, 5), (1, 7), (1, 3), (0, 4), (0, 0), (1, 0), (1, 0), (0, 0), (0, 0), (0, 0), (0, 0),
       (0, 0), (1, 0), (1, 0), (1, 0), (1, 0), (1, 0), (0, 0)] (run_init 4 2 [] [] [])).stats.sum
      = 4 :=
  ⟨by decide,
   ((C4_exactly_once 4 2 [10, 11, 12, 13] [] [] [] (by decide) (by decide) (by decide)
      (by decide)).2 _ (by decide)).2.2.2⟩

/-- C5: for every query set and `T ≥ 1` threads, when `run` returns (all workers joined),
`latencies` and `processed_ids` both have length `n = min(queries.size() / dim, query_ids.size())`
and `processed_ids[i] = query_ids[i]` for every `i < n`: `processed_ids` is the list of the
first `n` query identifiers. -/
theorem C5_outputs_by_position (queries_size : Nat) (query_ids : List Nat) (dim num_threads : Int)
    (lat0 pid0 stats0 : List Nat) (sched : Schedule)
    (_hdim : 1 ≤ dim) (hT : 1 ≤ num_threads) (hTint : num_threads < 2 ^ 31)
    (hids : query_ids.length < 2 ^ 63)
    (hj : joined (run queries_size query_ids dim num_threads lat0 pid0 stats0 sched)) :
    (run queries_size query_ids dim num_threads lat0 pid0 stats0 sched).latencies.length
      = queryCount queries_size dim query_ids.length ∧
    (run queries_size query_ids dim num_threads lat0 pid0 stats0 sched).processed_ids.length
      = queryCount queries_size dim query_ids.length ∧
    (∀ i, i < queryCount queries_size dim query_ids.length →
      (run queries_size query_ids dim num_threads lat0 pid0 stats0 sched).processed_ids[i]?
        = query_ids[i]?) ∧
    (run queries_size query_ids dim num_threads lat0 pid0 stats0 sched).processed_ids
      = query_ids.take (queryCount queries_size dim query_ids.length) := by
  have hTs : toSize num_threads = num_threads.toNat := toSize_of_int_range _ hT hTint
  have hT1 : 1 ≤ num_threads.toNat := by omega
  have hnle : queryCount queries_size dim query_ids.length ≤ query_ids.length := by
    unfold queryCount; omega
  have hbound : queryCount queries_size dim query_ids.length + num_threads.toNat < 2 ^ 64 := by
    omega
  unfold run at hj ⊢
  simp only at hj ⊢
  have h0 := inv_init (queryCount queries_size dim query_ids.length) num_threads query_ids
    lat0 pid0 stats0 hTs
  obtain ⟨-, -, hl, hp, hv, -⟩ :=
    inv_final _ _ _ query_ids _ hT1 (inv_exec _ _ _ query_ids hbound sched _ h0) hj
  have hval : ∀ i, i < queryCount queries_size dim query_ids.length →
      (exec (queryCount queries_size dim query_ids.length) query_ids sched
        (run_init (queryCount queries_size dim query_ids.length) num_threads lat0 pid0
          stats0)).processed_ids[i]? = query_ids[i]? := by
    intro i hi
    rw [hv i hi, List.getD_eq_getElem?_getD, List.getElem?_eq_getElem (by omega)]
    rfl
  refine ⟨hl, hp, hval, ?_⟩
  apply List.ext_getElem?
  intro i
  by_cases hi : i < queryCount queries_size dim query_ids.length
  · rw [hval i hi, List.getElem?_take_of_lt hi]
  · rw [List.getElem?_eq_none (by omega), List.getElem?_eq_none]
    rw [List.length_take]
    omega

/-- Witness for C5: 4 queries of dimension 2 (8 floats) with identifiers 10, 11, 12, 13 and
two threads give 4 latency samples and the 4 identifiers, each at its own position. -/
theorem C5_outputs_by_position_witness :
    (run 8 [10, 11, 12, 13] 2 2 [] [] []
      [(0, 5), (1, 7), (1, 3), (0, 4), (0, 0), (1, 0), (1, 0), (0, 0), (0, 0), (0, 0), (0, 0),
       (0, 0), (1, 0), (1, 0), (1, 0), (1, 0), (1, 0), (0, 0)]).latencies.length = 4 ∧
    (run 8 [10, 11, 12, 13] 2 2 [] [] []
      [(0, 5), (1, 7), (1, 3), (0, 4), (0, 0), (1, 0), (1, 0), (0, 0), (0, 0), (0, 0), (0, 0),
       (0, 0), (1, 0), (1, 0), (1, 0), (1, 0), (1, 0), (0, 0)]).processed_ids
      = [10, 11, 12, 13] := by
  have h := C5_outputs_by_position 8 [10, 11, 12, 13] 2 2 [] [] []
    [(0, 5), (1, 7), (1, 3), (0, 4), (0, 0), (1, 0), (1, 0), (0, 0), (0, 0), (0, 0), (0, 0),
     (0, 0), (1, 0), (1, 0), (1, 0), (1, 0), (1, 0), (0, 0)]
    (by decide) (by decide) (by decide) (by decide) (by decide)
  exact ⟨h.1, h.2.2.2⟩

end query_optimized

/-! ## C6: the insertion driver -/

theorem foldl_inserts {α : Type} (f : Nat → List α × Nat)
    (body : BuildTrace α → Nat → BuildTrace α)
    (hbody : ∀ t i, (body t i).inserts = t.inserts ++ [f i]) :
    ∀ (l : List Nat) (t : BuildTrace α),
      (l.foldl body t).inserts = t.inserts ++ l.map f := by
  intro l
  induction l with
  | nil => intro t; simp
  | cons i l ih =>
    intro t
    rw [List.foldl_cons, ih, hbody]
    simp

theorem build_with_prefetch_inserts {α : Type} (embeddings : List α) (ids : List Nat)
    (dim : Int) :
    (build_optimized.build_with_prefetch embeddings ids dim).inserts
      = (List.range ids.length).map (fun i => (vecAt embeddings dim i, ids.getD i 0)) := by
  unfold build_optimized.build_with_prefetch
  rw [foldl_inserts (fun i => (vecAt embeddings dim i, ids.getD i 0))]
  · simp
  · intro t i
    unfold build_optimized.build_with_prefetch_body
    by_cases h : addSize i build_optimized.PREFETCH_DISTANCE < ids.length <;> simp [h]

theorem insert_loop_inserts {α : Type} (embeddings : List α) (ids : List Nat) (dim : Int) :
    (hnswn_build_basic.insert_loop embeddings ids dim).inserts
      = (List.range (embeddings.length / toSize dim)).map
          (fun i => (vecAt embeddings dim i, ids.getD i 0)) := by
  unfold hnswn_build_basic.insert_loop
  rw [foldl_inserts (fun i => (vecAt embeddings dim i, ids.getD i 0))]
  · simp
  · intro t i
    rfl

theorem vecAt_eq {α : Type} (embeddings : List α) (dim : Int) (i : Nat)
    (hdim : 1 ≤ dim) (hint : dim < 2 ^ 31) (hi : i * dim.toNat < 2 ^ 64) :
    vecAt embeddings dim i = (embeddings.drop (i * dim.toNat)).take dim.toNat := by
  unfold vecAt
  rw [toSize_of_int_range dim hdim hint, mulSize_of_lt _ _ hi]

theorem foldl_hints {α : Type} (P : Nat × Nat → Prop)
    (body : BuildTrace α → Nat → BuildTrace α)
    (hbody : ∀ t i, (∀ h ∈ t.hints, P h) → ∀ h ∈ (body t i).hints, P h) :
    ∀ (l : List Nat) (t : BuildTrace α), (∀ h ∈ t.hints, P h) →
      ∀ h ∈ (l.foldl body t).hints, P h := by
  intro l
  induction l with
  | nil => intro t ht; exact ht
  | cons i l ih =>
    intro t ht
    exact ih _ (hbody t i ht)

theorem slices_flatten {α : Type} (embeddings : List α) (d : Nat) : ∀ N : Nat,
    ((List.range N).map (fun i => (embeddings.drop (i * d)).take d)).flatten
      = embeddings.take (N * d)
  | 0 => by simp
  | N + 1 => by
    rw [List.range_succ, List.map_append, List.flatten_append, slices_flatten embeddings d N,
      Nat.succ_mul, List.take_add]
    simp

/-- C6: for `N` identifiers and at least `N * dim` floats (`dim ≥ 1`), `build_with_prefetch`
makes exactly `N` insert calls; call `i` receives the `dim` floats
`embeddings[i*dim .. i*dim+dim)` and the identifier `ids[i]`, in increasing `i`, so the labels
passed are `ids` itself and the vectors passed, concatenated, are the first `N * dim` floats.
Every prefetch hint names an existing identifier position, and the hints leave the insert
sequence as the loop of the basic build (no hints) issues it. -/
theorem C6_insert_order {α : Type} (embeddings : List α) (ids : List Nat) (dim : Int)
    (hdim : 1 ≤ dim) (hint : dim < 2 ^ 31)
    (hlen : ids.length * dim.toNat ≤ embeddings.length) (hmax : embeddings.length < 2 ^ 62) :
    (build_optimized.build_with_prefetch embeddings ids dim).inserts.length = ids.length ∧
    (∀ i, i < ids.length →
      (build_optimized.build_with_prefetch embeddings ids dim).inserts[i]?
        = some ((embeddings.drop (i * dim.toNat)).take dim.toNat, ids.getD i 0) ∧
      ((embeddings.drop (i * dim.toNat)).take dim.toNat).length = dim.toNat ∧
      ids[i]? = some (ids.getD i 0)) ∧
    (build_optimized.build_with_prefetch embeddings ids dim).inserts.map Prod.snd = ids ∧
    ((build_optimized.build_with_prefetch embeddings ids dim).inserts.map Prod.fst).flatten
      = embeddings.take (ids.length * dim.toNat) ∧
    (∀ h ∈ (build_optimized.build_with_prefetch embeddings ids dim).hints, h.2 < ids.length) ∧
    (ids.length = embeddings.length / dim.toNat →
      (build_optimized.build_with_prefetch embeddings ids dim).inserts
        = (hnswn_build_basic.insert_loop embeddings ids dim).inserts) := by
  have hd : 1 ≤ dim.toNat := by omega
  have hile : ∀ i, i < ids.length → i * dim.toNat + dim.toNat ≤ embeddings.length := by
    intro i hi
    calc i * dim.toNat + dim.toNat = (i + 1) * dim.toNat := by ring
      _ ≤ ids.length * dim.toNat := Nat.mul_le_mul_right _ hi
      _ ≤ embeddings.length := hlen
  have hmap : (List.range ids.length).map (fun i => (vecAt embeddings dim i, ids.getD i 0))
      = (List.range ids.length).map
          (fun i => ((embeddings.drop (i * dim.toNat)).take dim.toNat, ids.getD i 0)) := by
    apply List.map_congr_left
    intro i hi
    have := hile i (List.mem_range.mp hi)
    rw [vecAt_eq embeddings dim i hdim hint (by omega)]
  have hins := build_with_prefetch_inserts embeddings ids dim
  rw [hmap] at hins
  refine ⟨by rw [hins]; simp, ?_, ?_, ?_, ?_, ?_⟩
  · intro i hi
    refine ⟨?_, ?_, ?_⟩
    · rw [hins, List.getElem?_map, List.getElem?_range hi]
      rfl
    · have := hile i hi
      rw [List.length_take, List.length_drop]
      omega
    · rw [List.getD_eq_getElem?_getD, List.getElem?_eq_getElem hi]
      rfl
  · rw [hins, List.map_map]
    apply List.ext_getElem?
    intro i
    by_cases hi : i < ids.length
    · rw [List.getElem?_map, List.getElem?_range hi, List.getElem?_eq_getElem hi]
      simp [List.getD_eq_getElem?_getD, List.getElem?_eq_getElem hi]
    · rw [List.getElem?_eq_none (by simpa using hi), List.getElem?_eq_none (by omega)]
  · rw [hins, List.map_map]
    exact slices_flatten embeddings dim.toNat ids.length
  · unfold build_optimized.build_with_prefetch
    apply foldl_hints (fun h => h.2 < ids.length)
    · intro t i ht h hh
      unfold build_optimized.build_with_prefetch_body at hh
      by_cases hc : addSize i build_optimized.PREFETCH_DISTANCE < ids.length
      · simp only [hc, if_true, List.mem_append, List.mem_singleton] at hh
        rcases hh with hh | hh
        · exact ht h hh
        · rw [hh]; exact hc
      · simp only [hc, if_false] at hh
        exact ht h hh
    · intro h hh
      simp at hh
  · intro hN
    rw [build_with_prefetch_inserts, insert_loop_inserts, toSize_of_int_range dim hdim hint, hN]

/-- Witness for C6: three identifiers, six floats, `dim = 2`. -/
theorem C6_insert_order_witness :
    (build_optimized.build_with_prefetch [1, 2, 3, 4, 5, 6] [7, 8, 9] 2).inserts
      = [([1, 2], 7), ([3, 4], 8), ([5, 6], 9)] ∧
    (build_optimized.build_with_prefetch [1, 2, 3, 4, 5, 6] [7, 8, 9] 2).inserts.map Prod.snd
      = [7, 8, 9] :=
  ⟨by decide,
   (C6_insert_order [1, 2, 3, 4, 5, 6] [7, 8, 9] 2 (by decide) (by decide) (by decide)
      (by decide)).2.2.1⟩

/-! ## C8, C9: the normalizer -/

namespace build_optimized

theorem storeLoop_succ (base : Nat) (f : Nat → F32) (count : Nat) (buf : List F32) :
    storeLoop base f (count + 1) buf
      = (storeLoop base f count buf).set (base + count) (f count) := by
  unfold storeLoop
  rw [List.range_succ, List.foldl_append]
  rfl

theorem storeLoop_length (base : Nat) (f : Nat → F32) : ∀ (count : Nat) (buf : List F32),
    (storeLoop base f count buf).length = buf.length
  | 0, _ => rfl
  | count + 1, buf => by
    rw [storeLoop_succ, List.length_set, storeLoop_length base f count buf]

theorem storeLoop_getElem? (base : Nat) (f : Nat → F32) : ∀ (count : Nat) (buf : List F32) (j : Nat),
    base + count ≤ buf.length →
    (storeLoop base f count buf)[j]?
      = if base ≤ j ∧ j < base + count then some (f (j - base)) else buf[j]?
  | 0, buf, j, _ => by
    have : ¬ (base ≤ j ∧ j < base + 0) := by omega
    rw [if_neg this]
    rfl
  | count + 1, buf, j, h => by
    rw [storeLoop_succ]
    by_cases hj : j = base + count
    · subst hj
      rw [List.getElem?_set_self (by rw [storeLoop_length]; omega), if_pos (by omega)]
      congr 2
      omega
    · rw [List.getElem?_set_ne (fun e => hj e.symm), storeLoop_getElem? base f count buf j (by omega)]
      by_cases hc : base ≤ j ∧ j < base + count
      · rw [if_pos hc, if_pos (by omega)]
      · rw [if_neg hc, if_neg (by omega)]

/-- State of the loop over `i` after its first `k` iterations. -/
theorem normalize_loop_spec (emb : List F32) (dim : Int) (d n : Nat) (buf0 : List F32)
    (hd : toSize dim = d) (hdt : dim.toNat = d) (hd1 : 1 ≤ d) (hlen : buf0.length = n * d)
    (hmax : n * d < 2 ^ 64) :
    ∀ k, k ≤ n →
      ((List.range k).foldl (normalize_body dim) ⟨emb, buf0, []⟩).emb = emb ∧
      ((List.range k).foldl (normalize_body dim) ⟨emb, buf0, []⟩).normalized.length = n * d ∧
      (∀ j, ((List.range k).foldl (normalize_body dim) ⟨emb, buf0, []⟩).normalized[j]?
        = if j < k * d then some (component emb dim (j / d) (j % d)) else buf0[j]?) ∧
      ((List.range k).foldl (normalize_body dim) ⟨emb, buf0, []⟩).divisions
        = (List.range k).filter (fun i => F32.gt (normOf emb dim i) EPSILON) := by
  intro k
  induction k with
  | zero =>
    intro _
    refine ⟨rfl, hlen, ?_, rfl⟩
    intro j
    rw [if_neg (by omega)]
    rfl
  | succ k ih =>
    intro hk
    obtain ⟨h1, h2, h3, h4⟩ := ih (by omega)
    rw [List.range_succ, List.foldl_append, List.foldl_cons, List.foldl_nil]
    generalize (List.range k).foldl (normalize_body dim) ⟨emb, buf0, []⟩ = st at h1 h2 h3 h4
    have hkd : k * d + d ≤ n * d := by
      calc k * d + d = (k + 1) * d := by ring
        _ ≤ n * d := Nat.mul_le_mul_right _ hk
    have hbase : mulSize k (toSize dim) = k * d := by
      rw [hd, mulSize_of_lt _ _ (by omega)]
    have hidx : ∀ j, k * d ≤ j → j < k * d + d → j / d = k ∧ j % d = j - k * d := by
      intro j hj1 hj2
      have hq : j / d = k :=
        Nat.div_eq_of_lt_le hj1 (by rw [Nat.succ_mul]; exact hj2)
      refine ⟨hq, ?_⟩
      have := Nat.div_add_mod j d
      rw [hq] at this
      rw [Nat.mul_comm] at this
      omega
    unfold normalize_body
    by_cases hgt : F32.gt (normOf st.emb dim k) EPSILON = true
    · rw [if_pos hgt]
      simp only [hbase, hdt]
      refine ⟨h1, by rw [storeLoop_length, h2], ?_, ?_⟩
      · intro j
        rw [storeLoop_getElem? _ _ _ _ _ (by omega), h3 j]
        by_cases hj : k * d ≤ j ∧ j < k * d + d
        · obtain ⟨hq, hr⟩ := hidx j hj.1 hj.2
          rw [if_pos hj, if_pos (by rw [Nat.succ_mul]; omega), hq, hr]
          unfold component
          rw [h1] at hgt ⊢
          rw [if_pos hgt]
        · rw [if_neg hj]
          by_cases hj2 : j < k * d
          · rw [if_pos hj2, if_pos (by rw [Nat.succ_mul]; omega)]
          · rw [if_neg hj2, if_neg (by rw [Nat.succ_mul]; omega)]
      · rw [h4, List.filter_append, h1] at *
        simp [hgt]
    · rw [if_neg hgt]
      simp only [hbase, hdt]
      refine ⟨h1, by rw [storeLoop_length, h2], ?_, ?_⟩
      · intro j
        rw [storeLoop_getElem? _ _ _ _ _ (by omega), h3 j]
        by_cases hj : k * d ≤ j ∧ j < k * d + d
        · obtain ⟨hq, hr⟩ := hidx j hj.1 hj.2
          rw [if_pos hj, if_pos (by rw [Nat.succ_mul]; omega), hq, hr]
          unfold component
          rw [h1] at hgt ⊢
          rw [if_neg hgt]
        · rw [if_neg hj]
          by_cases hj2 : j < k * d
          · rw [if_pos hj2, if_pos (by rw [Nat.succ_mul]; omega)]
          · rw [if_neg hj2, if_neg (by rw [Nat.succ_mul]; omega)]
      · rw [h4, List.filter_append, h1] at *
        simp [hgt]


/-- Result of the normalizer: the input is left as it was, the output has
`(L / dim) * dim` elements, element `d` of vector `i` is `component emb dim i d`, and the
division was evaluated exactly for the vectors whose norm exceeds `1e-12f`. -/
theorem normalize_spec (emb : List F32) (dim : Int)
    (hdim : 1 ≤ dim) (hint : dim < 2 ^ 31) (hmax : emb.length < 2 ^ 62) :
    (normalize_embeddings_aligned emb dim).emb = emb ∧
    (normalize_embeddings_aligned emb dim).normalized.length
      = emb.length / dim.toNat * dim.toNat ∧
    (∀ i d, i < emb.length / dim.toNat → d < dim.toNat →
      (normalize_embeddings_aligned emb dim).normalized[i * dim.toNat + d]?
        = some (component emb dim i d)) ∧
    (normalize_embeddings_aligned emb dim).divisions
      = (List.range (emb.length / dim.toNat)).filter
          (fun i => F32.gt (normOf emb dim i) EPSILON) := by
  have hd : toSize dim = dim.toNat := toSize_of_int_range dim hdim hint
  have hd1 : 1 ≤ dim.toNat := by omega
  have hle : emb.length / dim.toNat * dim.toNat ≤ emb.length := Nat.div_mul_le_self _ _
  have hn : mulSize (emb.length / dim.toNat) dim.toNat = emb.length / dim.toNat * dim.toNat :=
    mulSize_of_lt _ _ (by omega)
  unfold normalize_embeddings_aligned
  simp only [hd, hn]
  obtain ⟨h1, h2, h3, h4⟩ := normalize_loop_spec emb dim dim.toNat (emb.length / dim.toNat)
    (List.replicate (emb.length / dim.toNat * dim.toNat) F32.zero) hd rfl hd1
    (by simp) (by omega) (emb.length / dim.toNat) (Nat.le_refl _)
  refine ⟨h1, h2, ?_, h4⟩
  intro i d hi hdd
  have hlt : i * dim.toNat + d < emb.length / dim.toNat * dim.toNat := by
    calc i * dim.toNat + d < i * dim.toNat + dim.toNat := by omega
      _ = (i + 1) * dim.toNat := by ring
      _ ≤ emb.length / dim.toNat * dim.toNat := Nat.mul_le_mul_right _ hi
  have hq : (i * dim.toNat + d) / dim.toNat = i :=
    Nat.div_eq_of_lt_le (by omega) (by rw [Nat.succ_mul]; omega)
  have hr : (i * dim.toNat + d) % dim.toNat = d := by
    rw [Nat.add_comm, Nat.add_mul_mod_self_right, Nat.mod_eq_of_lt hdd]
  rw [h3, if_pos hlt, hq, hr]

theorem srcAt_eq (emb : List F32) (dim : Int) (i d : Nat)
    (hdim : 1 ≤ dim) (hint : dim < 2 ^ 31) (hmax : emb.length < 2 ^ 62)
    (hi : i < emb.length / dim.toNat) (hd : d < dim.toNat) :
    emb[i * dim.toNat + d]? = some (srcAt emb dim i d) := by
  have hle : emb.length / dim.toNat * dim.toNat ≤ emb.length := Nat.div_mul_le_self _ _
  have hlt : i * dim.toNat + d < emb.length / dim.toNat * dim.toNat := by
    calc i * dim.toNat + d < i * dim.toNat + dim.toNat := by omega
      _ = (i + 1) * dim.toNat := by ring
      _ ≤ emb.length / dim.toNat * dim.toNat := Nat.mul_le_mul_right _ hi
  unfold srcAt
  rw [toSize_of_int_range dim hdim hint, mulSize_of_lt _ _ (by omega),
    List.getD_eq_getElem?_getD, List.getElem?_eq_getElem (by omega)]
  rfl

/-- The sum of squares of a vector of zeros (of either sign) is `+0.0f`. -/
theorem sumSq_loop_zero (f : Nat → F32) : ∀ l : List Nat,
    (∀ d ∈ l, f d = F32.fin false 0 (-149) ∨ f d = F32.fin true 0 (-149)) →
    l.foldl (fun acc d => F32.add acc (F32.mul (f d) (f d))) F32.zero = F32.zero := by
  intro l
  induction l using List.reverseRecOn with
  | nil => intro _; rfl
  | append_singleton l d ih =>
    intro h
    rw [List.foldl_append, ih (fun x hx => h x (List.mem_append_left _ hx))]
    rcases h d (by simp) with hz | hz <;> simp only [List.foldl_cons, List.foldl_nil, hz] <;> decide


/-- C8 (as the code has it): for every `dim ≥ 1` and every input vector whose norm as the
code computes it in `float` (`sqrtf` of the float-accumulated sum of squares) is not greater
than `1e-12f`, the output vector equals the input vector component for component and the
division by the norm is not evaluated for it; every vector of zeros (of either sign) is such
a vector, its computed norm being `+0.0f`. -/
theorem C8_small_norm_unchanged (emb : List F32) (dim : Int) (i : Nat)
    (hdim : 1 ≤ dim) (hint : dim < 2 ^ 31) (hmax : emb.length < 2 ^ 62)
    (hi : i < emb.length / dim.toNat) :
    (F32.gt (normOf emb dim i) EPSILON = false →
      (∀ d, d < dim.toNat →
        (normalize_embeddings_aligned emb dim).normalized[i * dim.toNat + d]?
          = emb[i * dim.toNat + d]?) ∧
      i ∉ (normalize_embeddings_aligned emb dim).divisions) ∧
    ((∀ d, d < dim.toNat → emb[i * dim.toNat + d]? = some (F32.fin false 0 (-149)) ∨
        emb[i * dim.toNat + d]? = some (F32.fin true 0 (-149))) →
      normOf emb dim i = F32.zero ∧ F32.gt (normOf emb dim i) EPSILON = false) := by
  obtain ⟨-, -, h3, h4⟩ := normalize_spec emb dim hdim hint hmax
  constructor
  · intro hnorm
    constructor
    · intro d hd
      rw [h3 i d hi hd, srcAt_eq emb dim i d hdim hint hmax hi hd]
      unfold component
      rw [if_neg (by simp [hnorm])]
    · rw [h4, List.mem_filter]
      intro h
      rw [hnorm] at h
      exact absurd h.2 (by decide)
  · intro hz
    have hsq : normSq emb dim i = F32.zero := by
      unfold normSq
      apply sumSq_loop_zero (fun d => srcAt emb dim i d)
      intro d hd
      have hd2 := List.mem_range.mp hd
      have hs := srcAt_eq emb dim i d hdim hint hmax hi hd2
      rcases hz d hd2 with h | h
      · left; rw [hs] at h; exact Option.some.inj h
      · right; rw [hs] at h; exact Option.some.inj h
    have hn : normOf emb dim i = F32.zero := by
      unfold normOf
      rw [hsq]
      decide
    refine ⟨hn, ?_⟩
    rw [hn]
    decide

/-- Witness for C8: the zero vector `[0.0, 0.0]` with `dim = 2` comes back unchanged. -/
theorem C8_small_norm_unchanged_witness :
    (normalize_embeddings_aligned [F32.zero, F32.zero] 2).normalized = [F32.zero, F32.zero] ∧
    (normalize_embeddings_aligned [F32.zero, F32.zero] 2).divisions = [] ∧
    0 ∉ (normalize_embeddings_aligned [F32.zero, F32.zero] 2).divisions :=
  ⟨by decide, by decide,
   ((C8_small_norm_unchanged [F32.zero, F32.zero] 2 0 (by decide) (by decide) (by decide)
      (by decide)).1 (by decide)).2⟩

set_option maxRecDepth 100000 in
/-- C8, counterexample to the claim as worded: the vector of the four floats with bit
patterns `2b0cbcd5 2b0cbcd2 2b0cbcae 2b0cbcdb` (each about `5e-13`), `dim = 4`, has an exact
sum of squares not greater than `(1e-12)^2`, so its norm is not greater than `1e-12`; yet the
norm computed in `float` is `0x2b8cbccd`, one unit in the last place above `1e-12f`, so the
division is evaluated for it and the output differs from the input. -/
theorem C8_exact_norm_counterexample :
    sumSq [F32.fin false 9223381 (-64), F32.fin false 9223378 (-64),
      F32.fin false 9223342 (-64), F32.fin false 9223387 (-64)] ≤ (1 / 10 ^ 12 : ℚ) ^ 2 ∧
    normOf [F32.fin false 9223381 (-64), F32.fin false 9223378 (-64),
      F32.fin false 9223342 (-64), F32.fin false 9223387 (-64)] 4 0
      = F32.fin false 9223373 (-63) ∧
    EPSILON = F32.fin false 9223372 (-63) ∧
    F32.gt (normOf [F32.fin false 9223381 (-64), F32.fin false 9223378 (-64),
      F32.fin false 9223342 (-64), F32.fin false 9223387 (-64)] 4 0) EPSILON = true ∧
    (normalize_embeddings_aligned [F32.fin false 9223381 (-64), F32.fin false 9223378 (-64),
      F32.fin false 9223342 (-64), F32.fin false 9223387 (-64)] 4).divisions = [0] ∧
    (normalize_embeddings_aligned [F32.fin false 9223381 (-64), F32.fin false 9223378 (-64),
      F32.fin false 9223342 (-64), F32.fin false 9223387 (-64)] 4).normalized ≠
      [F32.fin false 9223381 (-64), F32.fin false 9223378 (-64),
       F32.fin false 9223342 (-64), F32.fin false 9223387 (-64)] := by
  refine ⟨?_, by decide, by decide, by decide, by decide, by decide⟩
  simp only [sumSq, F32.toRat, List.map_cons, List.map_nil, List.sum_cons, List.sum_nil]
  norm_num

/-- C9: for an input buffer of `L` floats and `dim ≥ 1`, the normalizer returns an output
buffer of `(L / dim) * dim` floats and leaves the input buffer as it was; the output has the
length `L` of the input exactly when `L` is a multiple of `dim`. -/
theorem C9_output_shape (emb : List F32) (dim : Int)
    (hdim : 1 ≤ dim) (hint : dim < 2 ^ 31) (hmax : emb.length < 2 ^ 62) :
    (normalize_embeddings_aligned emb dim).normalized.length
      = emb.length / dim.toNat * dim.toNat ∧
    (normalize_embeddings_aligned emb dim).emb = emb ∧
    ((normalize_embeddings_aligned emb dim).normalized.length = emb.length ↔
      emb.length % dim.toNat = 0) := by
  obtain ⟨h1, h2, -, -⟩ := normalize_spec emb dim hdim hint hmax
  refine ⟨h2, h1, ?_⟩
  rw [h2]
  have := Nat.div_add_mod emb.length dim.toNat
  rw [Nat.mul_comm] at this
  omega

/-- Witness for C9: five floats with `dim = 2` give an output of four floats. -/
theorem C9_output_shape_witness :
    (normalize_embeddings_aligned
      [F32.ofNat 3, F32.ofNat 4, F32.zero, F32.zero, F32.one] 2).normalized.length = 4 ∧
    (normalize_embeddings_aligned
      [F32.ofNat 3, F32.ofNat 4, F32.zero, F32.zero, F32.one] 2).emb
      = [F32.ofNat 3, F32.ofNat 4, F32.zero, F32.zero, F32.one] :=
  ⟨(C9_output_shape [F32.ofNat 3, F32.ofNat 4, F32.zero, F32.zero, F32.one] 2 (by decide)
      (by decide) (by decide)).1,
   (C9_output_shape [F32.ofNat 3, F32.ofNat 4, F32.zero, F32.zero, F32.one] 2 (by decide)
      (by decide) (by decide)).2.1⟩

end build_optimized

/-! ## Rounding error of the binary32 operations -/

theorem bitLenAux_spec : ∀ (fuel n : Nat), n < 2 ^ fuel → n ≠ 0 →
    1 ≤ F32.bitLenAux fuel n ∧ 2 ^ (F32.bitLenAux fuel n - 1) ≤ n ∧
    n < 2 ^ F32.bitLenAux fuel n
  | 0, n, h, h0 => by
    simp at h
    exact absurd h h0
  | fuel + 1, n, h, h0 => by
    have hlt : n / 2 < 2 ^ fuel := by
      rw [pow_succ] at h
      omega
    simp only [F32.bitLenAux, if_neg h0]
    by_cases h2 : n / 2 = 0
    · have h1 : n = 1 := by omega
      have hz : F32.bitLenAux fuel 0 = 0 := by cases fuel <;> simp [F32.bitLenAux]
      rw [h2, hz, h1]
      simp
    · obtain ⟨a, b, c⟩ := bitLenAux_spec fuel (n / 2) hlt h2
      refine ⟨by omega, ?_, ?_⟩
      · have e : F32.bitLenAux fuel (n / 2) + 1 - 1 = (F32.bitLenAux fuel (n / 2) - 1) + 1 := by
          omega
        rw [e, pow_succ]
        omega
      · rw [pow_succ]
        omega

theorem bitLen_spec (n : Nat) (h0 : n ≠ 0) :
    1 ≤ F32.bitLen n ∧ 2 ^ (F32.bitLen n - 1) ≤ n ∧ n < 2 ^ F32.bitLen n :=
  bitLenAux_spec n n (Nat.lt_two_pow n) h0

theorem bitLen_le_of_lt (n k : Nat) (h : n < 2 ^ k) : F32.bitLen n ≤ k := by
  by_cases h0 : n = 0
  · subst h0
    have : F32.bitLen 0 = 0 := rfl
    omega
  · obtain ⟨h1, h2, -⟩ := bitLen_spec n h0
    by_contra hc
    have : 2 ^ k ≤ 2 ^ (F32.bitLen n - 1) := Nat.pow_le_pow_right (by norm_num) (by omega)
    omega

namespace F32

theorem pack_value (neg : Bool) (m : Nat) (t : Int) (ht : t ≤ 103) :
    ∃ m1 e1, pack neg m t = fin neg m1 e1 ∧ (m1 : ℚ) * 2 ^ e1 = (m : ℚ) * 2 ^ t := by
  unfold pack
  by_cases h : m = 2 ^ 24
  · simp only [h, if_true]
    rw [if_neg (by omega)]
    refine ⟨_, _, rfl, ?_⟩
    rw [zpow_add₀ (by norm_num)]
    norm_num
    ring
  · simp only [h, if_false]
    rw [if_neg (by omega)]
    exact ⟨_, _, rfl, rfl⟩

/-- Value of a rounded result in the normal range: it is `Y * 2^E` for a natural number `Y`
within `D` of `M`, where `D` is at most `M / 2^23`. -/
theorem round_value (neg : Bool) (M : Nat) (E : Int) (sticky : Bool) (hM : M ≠ 0)
    (hlo : -149 ≤ E + (bitLen M : Int) - 24) (hhi : E + (bitLen M : Int) ≤ 127)
    (hst : sticky = true → 25 ≤ bitLen M) :
    ∃ m e, round neg M E sticky = fin neg m e ∧
      ∃ Y D : Nat, (m : ℚ) * 2 ^ e = (Y : ℚ) * 2 ^ E ∧ D * 2 ^ 23 ≤ M ∧ Y ≤ M + D ∧
        M ≤ Y + D ∧ (sticky = true → M + 1 ≤ Y + D) := by
  obtain ⟨hL1, hLlo, hLhi⟩ := bitLen_spec M hM
  unfold round
  rw [if_neg hM]
  have ht : max (E + (bitLen M : Int) - 24) (-149) = E + (bitLen M : Int) - 24 := max_eq_left hlo
  simp only [ht]
  by_cases hc : E + (bitLen M : Int) - 24 ≤ E
  · rw [if_pos hc]
    have hL24 : bitLen M ≤ 24 := by omega
    have hs : sticky = false := by
      cases sticky
      · rfl
      · have := hst rfl; omega
    have e1 : (E - (E + (bitLen M : Int) - 24)).toNat = 24 - bitLen M := by omega
    rw [e1]
    have hm24 : M * 2 ^ (24 - bitLen M) < 2 ^ 24 := by
      calc M * 2 ^ (24 - bitLen M) < 2 ^ bitLen M * 2 ^ (24 - bitLen M) :=
            Nat.mul_lt_mul_of_pos_right hLhi (by positivity)
        _ = 2 ^ 24 := by rw [← pow_add]; congr 1; omega
    obtain ⟨m1, e1', hp, hv⟩ := pack_value neg (M * 2 ^ (24 - bitLen M))
      (E + (bitLen M : Int) - 24) (by omega)
    refine ⟨m1, e1', hp, M, 0, ?_, by omega, by omega, by omega, by simp [hs]⟩
    rw [hv]
    push_cast
    have : (E : Int) = (E + (bitLen M : Int) - 24) + ((24 - bitLen M : Nat) : Int) := by omega
    conv_rhs => rw [this, zpow_add₀ (by norm_num : (2 : ℚ) ≠ 0), zpow_natCast]
    ring
  · rw [if_neg hc]
    have ed : (E + (bitLen M : Int) - 24 - E).toNat = bitLen M - 24 := by omega
    simp only [ed]
    obtain ⟨d, hd⟩ : ∃ d, bitLen M = d + 24 := ⟨bitLen M - 24, by omega⟩
    have ed2 : bitLen M - 24 = d := by omega
    have ed3 : bitLen M - 1 = d + 23 := by omega
    rw [ed2]
    rw [ed3, pow_add] at hLlo
    rw [hd, pow_add] at hLhi
    have hDpos : 0 < 2 ^ d := by positivity
    have hq1 : M / 2 ^ d < 2 ^ 24 := by
      rw [Nat.div_lt_iff_lt_mul hDpos, Nat.mul_comm]
      exact hLhi
    have hq2 : M / 2 ^ d * 2 ^ d ≤ M := Nat.div_mul_le_self _ _
    have hq3 : M < 2 ^ d * (M / 2 ^ d + 1) := Nat.lt_mul_div_succ M hDpos
    have hq4 : 2 ^ d * (M / 2 ^ d + 1) = M / 2 ^ d * 2 ^ d + 2 ^ d := by ring
    generalize hup : (decide (M % 2 ^ d > 2 ^ (d - 1)) ||
      (decide (M % 2 ^ d = 2 ^ (d - 1)) && (sticky || decide (M / 2 ^ d % 2 = 1)))) = up
    obtain ⟨m1, e1', hp, hv⟩ := pack_value neg (if up = true then M / 2 ^ d + 1 else M / 2 ^ d)
      (E + (bitLen M : Int) - 24) (by omega)
    refine ⟨m1, e1', hp, (if up = true then M / 2 ^ d + 1 else M / 2 ^ d) * 2 ^ d, 2 ^ d, ?_,
      by omega, ?_, ?_, ?_⟩
    · rw [hv]
      have : E + (bitLen M : Int) - 24 = E + (d : Int) := by omega
      rw [this, zpow_add₀ (by norm_num : (2 : ℚ) ≠ 0), zpow_natCast]
      push_cast
      ring
    · split
      · rw [Nat.add_mul]; omega
      · omega
    · split
      · rw [Nat.add_mul]; omega
      · omega
    · intro _
      split
      · rw [Nat.add_mul]; omega
      · omega



theorem bits_of_range (M : Nat) (E : Int) (hM : M ≠ 0)
    (hlo : (2 : ℚ) ^ (-120 : Int) ≤ (M : ℚ) * 2 ^ E) (hhi : (M : ℚ) * 2 ^ E ≤ 2 ^ (120 : Int)) :
    -149 ≤ E + (bitLen M : Int) - 24 ∧ E + (bitLen M : Int) ≤ 127 := by
  obtain ⟨hL1, hLlo, hLhi⟩ := bitLen_spec M hM
  have hp : (0 : ℚ) < 2 ^ E := by positivity
  have h1 : (M : ℚ) < 2 ^ (bitLen M : Int) := by
    rw [zpow_natCast]
    exact_mod_cast hLhi
  have h2 : (2 : ℚ) ^ ((bitLen M : Int) - 1) ≤ M := by
    have : ((bitLen M : Int) - 1) = ((bitLen M - 1 : Nat) : Int) := by omega
    rw [this, zpow_natCast]
    exact_mod_cast hLlo
  have h3 : (2 : ℚ) ^ (-120 : Int) < 2 ^ ((bitLen M : Int) + E) := by
    rw [zpow_add₀ (by norm_num : (2 : ℚ) ≠ 0)]
    calc (2 : ℚ) ^ (-120 : Int) ≤ (M : ℚ) * 2 ^ E := hlo
      _ < 2 ^ (bitLen M : Int) * 2 ^ E := mul_lt_mul_of_pos_right h1 hp
  have h4 : (2 : ℚ) ^ ((bitLen M : Int) - 1 + E) ≤ 2 ^ (120 : Int) := by
    rw [zpow_add₀ (by norm_num : (2 : ℚ) ≠ 0)]
    calc (2 : ℚ) ^ ((bitLen M : Int) - 1) * 2 ^ E ≤ (M : ℚ) * 2 ^ E :=
          mul_le_mul_of_nonneg_right h2 hp.le
      _ ≤ 2 ^ (120 : Int) := hhi
  have h5 := (zpow_lt_zpow_iff_right₀ (by norm_num : (1 : ℚ) < 2)).mp h3
  have h6 := (zpow_le_zpow_iff_right₀ (by norm_num : (1 : ℚ) < 2)).mp h4
  omega

/-- Rounding an exact value `v * 2^E` with `M ≤ v < M + 1` (and `v = M` when nothing was cut
off) gives a finite float whose magnitude is within a factor `1 ± 2^-23` of it. -/
theorem round_approx (neg : Bool) (M : Nat) (E : Int) (sticky : Bool) (v : ℚ) (hM : M ≠ 0)
    (hv1 : (M : ℚ) ≤ v) (hv2 : v < M + 1) (hv3 : sticky = false → v = M)
    (hst : sticky = true → 25 ≤ bitLen M)
    (hlo : (2 : ℚ) ^ (-120 : Int) ≤ (M : ℚ) * 2 ^ E) (hhi : (M : ℚ) * 2 ^ E ≤ 2 ^ (120 : Int)) :
    ∃ m e, round neg M E sticky = fin neg m e ∧
      v * 2 ^ E * (1 - 1 / 2 ^ 23) ≤ (m : ℚ) * 2 ^ e ∧
      (m : ℚ) * 2 ^ e ≤ v * 2 ^ E * (1 + 1 / 2 ^ 23) := by
  obtain ⟨hb1, hb2⟩ := bits_of_range M E hM hlo hhi
  obtain ⟨m, e, hr, Y, D, hval, hD, hY1, hY2, hY3⟩ := round_value neg M E sticky hM hb1 hb2 hst
  have hp : (0 : ℚ) < 2 ^ E := by positivity
  have hDq : (D : ℚ) * 2 ^ 23 ≤ M := by exact_mod_cast hD
  have hY1q : (Y : ℚ) ≤ M + D := by exact_mod_cast hY1
  have hY2q : (M : ℚ) ≤ Y + D := by exact_mod_cast hY2
  refine ⟨m, e, hr, ?_, ?_⟩
  · rw [hval]
    have : v * (1 - 1 / 2 ^ 23) ≤ Y := by
      cases sticky with
      | false =>
        rw [hv3 rfl]
        linarith
      | true =>
        have h := hY3 rfl
        have hq : (M : ℚ) + 1 ≤ Y + D := by exact_mod_cast h
        linarith
    calc v * 2 ^ E * (1 - 1 / 2 ^ 23) = v * (1 - 1 / 2 ^ 23) * 2 ^ E := by ring
      _ ≤ (Y : ℚ) * 2 ^ E := mul_le_mul_of_nonneg_right this hp.le
  · rw [hval]
    have : (Y : ℚ) ≤ v * (1 + 1 / 2 ^ 23) := by linarith
    calc (Y : ℚ) * 2 ^ E ≤ v * (1 + 1 / 2 ^ 23) * 2 ^ E := mul_le_mul_of_nonneg_right this hp.le
      _ = v * 2 ^ E * (1 + 1 / 2 ^ 23) := by ring

theorem toRat_sq (x : F32) : x.toRat ^ 2 = x.mag ^ 2 := by
  cases x with
  | fin neg m e =>
    cases neg <;> simp [toRat, mag, mul_pow]
  | inf neg => rfl
  | nan => rfl

theorem mul_fin_zero_left (n1 n2 : Bool) (e1 : Int) (m2 : Nat) (e2 : Int) :
    mul (fin n1 0 e1) (fin n2 m2 e2) = fin (xor n1 n2) 0 (-149) := by
  simp [mul, round]

theorem mul_approx (n1 n2 : Bool) (m1 m2 : Nat) (e1 e2 : Int) (h1 : m1 ≠ 0) (h2 : m2 ≠ 0)
    (hlo : (2 : ℚ) ^ (-120 : Int) ≤ ((m1 : ℚ) * 2 ^ e1) * ((m2 : ℚ) * 2 ^ e2))
    (hhi : ((m1 : ℚ) * 2 ^ e1) * ((m2 : ℚ) * 2 ^ e2) ≤ 2 ^ (120 : Int)) :
    ∃ m e, mul (fin n1 m1 e1) (fin n2 m2 e2) = fin (xor n1 n2) m e ∧
      ((m1 : ℚ) * 2 ^ e1) * ((m2 : ℚ) * 2 ^ e2) * (1 - 1 / 2 ^ 23) ≤ (m : ℚ) * 2 ^ e ∧
      (m : ℚ) * 2 ^ e ≤ ((m1 : ℚ) * 2 ^ e1) * ((m2 : ℚ) * 2 ^ e2) * (1 + 1 / 2 ^ 23) := by
  have hx : ((m1 : ℚ) * 2 ^ e1) * ((m2 : ℚ) * 2 ^ e2) = ((m1 * m2 : Nat) : ℚ) * 2 ^ (e1 + e2) := by
    rw [zpow_add₀ (by norm_num : (2 : ℚ) ≠ 0)]
    push_cast
    ring
  rw [hx] at hlo hhi ⊢
  have hM : m1 * m2 ≠ 0 := Nat.mul_ne_zero h1 h2
  exact round_approx (xor n1 n2) (m1 * m2) (e1 + e2) false _ hM (le_refl _) (by linarith)
    (fun _ => rfl) (by simp) hlo hhi

theorem add_fin_zero (e1 e2 : Int) :
    add (fin false 0 e1) (fin false 0 e2) = fin false 0 (-149) := by
  simp [add, scaled]

theorem add_approx (m1 m2 : Nat) (e1 e2 : Int) (h : m1 ≠ 0 ∨ m2 ≠ 0)
    (hlo : (2 : ℚ) ^ (-120 : Int) ≤ (m1 : ℚ) * 2 ^ e1 + (m2 : ℚ) * 2 ^ e2)
    (hhi : (m1 : ℚ) * 2 ^ e1 + (m2 : ℚ) * 2 ^ e2 ≤ 2 ^ (120 : Int)) :
    ∃ m e, add (fin false m1 e1) (fin false m2 e2) = fin false m e ∧
      ((m1 : ℚ) * 2 ^ e1 + (m2 : ℚ) * 2 ^ e2) * (1 - 1 / 2 ^ 23) ≤ (m : ℚ) * 2 ^ e ∧
      (m : ℚ) * 2 ^ e ≤ ((m1 : ℚ) * 2 ^ e1 + (m2 : ℚ) * 2 ^ e2) * (1 + 1 / 2 ^ 23) := by
  obtain ⟨E, hE⟩ : ∃ E, E = min e1 e2 := ⟨_, rfl⟩
  obtain ⟨k1, hk1⟩ : ∃ k1 : Nat, (e1 - E).toNat = k1 := ⟨_, rfl⟩
  obtain ⟨k2, hk2⟩ : ∃ k2 : Nat, (e2 - E).toNat = k2 := ⟨_, rfl⟩
  have a1 : e1 = E + (k1 : Int) := by omega
  have a2 : e2 = E + (k2 : Int) := by omega
  have hN : m1 * 2 ^ k1 + m2 * 2 ^ k2 ≠ 0 := by
    have p1 : 0 < 2 ^ k1 := by positivity
    have p2 : 0 < 2 ^ k2 := by positivity
    rcases h with h | h
    · have := Nat.mul_pos (Nat.pos_of_ne_zero h) p1
      omega
    · have := Nat.mul_pos (Nat.pos_of_ne_zero h) p2
      omega
  have hs : scaled false m1 e1 E + scaled false m2 e2 E
      = ((m1 * 2 ^ k1 + m2 * 2 ^ k2 : Nat) : Int) := by
    simp [scaled, hk1, hk2]
  have p1 : (2 : ℚ) ^ e1 = 2 ^ E * 2 ^ k1 := by
    rw [a1, zpow_add₀ (by norm_num : (2 : ℚ) ≠ 0), zpow_natCast]
  have p2 : (2 : ℚ) ^ e2 = 2 ^ E * 2 ^ k2 := by
    rw [a2, zpow_add₀ (by norm_num : (2 : ℚ) ≠ 0), zpow_natCast]
  have hx : (m1 : ℚ) * 2 ^ e1 + (m2 : ℚ) * 2 ^ e2
      = ((m1 * 2 ^ k1 + m2 * 2 ^ k2 : Nat) : ℚ) * 2 ^ E := by
    rw [p1, p2]
    push_cast
    ring
  rw [hx] at hlo hhi ⊢
  have hadd : add (fin false m1 e1) (fin false m2 e2)
      = round false (m1 * 2 ^ k1 + m2 * 2 ^ k2) E false := by
    simp only [add, ← hE, hs]
    rw [if_neg (by exact_mod_cast hN)]
    have hd : decide (((m1 * 2 ^ k1 + m2 * 2 ^ k2 : Nat) : Int) < 0) = false := by
      rw [decide_eq_false_iff_not]
      omega
    rw [hd, Int.natAbs_ofNat]
  rw [hadd]
  exact round_approx false _ E false _ hN (le_refl _) (by linarith)
    (fun _ => rfl) (by simp) hlo hhi

theorem isqrtAux_spec (n : Nat) : ∀ (bits acc : Nat), acc * acc ≤ n →
    n < (acc + 2 ^ bits) * (acc + 2 ^ bits) →
    isqrtAux n bits acc * isqrtAux n bits acc ≤ n ∧
      n < (isqrtAux n bits acc + 1) * (isqrtAux n bits acc + 1)
  | 0, acc, h1, h2 => by simpa [isqrtAux] using ⟨h1, h2⟩
  | bits + 1, acc, h1, h2 => by
    unfold isqrtAux
    have e : acc + 2 ^ (bits + 1) = acc + 2 ^ bits + 2 ^ bits := by rw [pow_succ]; ring
    by_cases hc : (acc + 2 ^ bits) * (acc + 2 ^ bits) ≤ n
    · rw [if_pos hc]
      exact isqrtAux_spec n bits _ hc (by rw [← e]; exact h2)
    · rw [if_neg hc]
      exact isqrtAux_spec n bits _ h1 (by omega)

theorem isqrt_spec (n : Nat) : isqrt n * isqrt n ≤ n ∧ n < (isqrt n + 1) * (isqrt n + 1) := by
  unfold isqrt
  apply isqrtAux_spec n _ 0 (by simp)
  by_cases h0 : n = 0
  · subst h0
    simp
  · obtain ⟨-, -, h⟩ := bitLen_spec n h0
    have : 1 ≤ 2 ^ bitLen n := Nat.one_le_two_pow
    calc n < 2 ^ bitLen n := h
      _ = 2 ^ bitLen n * 1 := by ring
      _ ≤ 2 ^ bitLen n * 2 ^ bitLen n := Nat.mul_le_mul_left _ this
      _ = (0 + 2 ^ bitLen n) * (0 + 2 ^ bitLen n) := by ring

theorem lt_bitLen_of_le (n k : Nat) (h : 2 ^ k ≤ n) : k < bitLen n := by
  have h0 : n ≠ 0 := by
    have : 0 < 2 ^ k := by positivity
    omega
  obtain ⟨-, -, hhi⟩ := bitLen_spec n h0
  by_contra hc
  have : 2 ^ bitLen n ≤ 2 ^ k := Nat.pow_le_pow_right (by norm_num) (by omega)
  omega

theorem le_of_sq_le_sq {a b : ℚ} (hb : 0 ≤ b) (h : a ^ 2 ≤ b ^ 2) : a ≤ b := by
  by_contra hc
  push_neg at hc
  nlinarith

theorem lt_of_sq_lt_sq {a b : ℚ} (hb : 0 ≤ b) (h : a ^ 2 < b ^ 2) : a < b := by
  by_contra hc
  push_neg at hc
  nlinarith

theorem sqrt_approx (m : Nat) (e : Int) (hm : m ≠ 0)
    (hlo : (2 : ℚ) ^ (-100 : Int) ≤ (m : ℚ) * 2 ^ e) (hhi : (m : ℚ) * 2 ^ e ≤ 2 ^ (100 : Int)) :
    ∃ m1 e1, sqrt (fin false m e) = fin false m1 e1 ∧
      (m : ℚ) * 2 ^ e * (1 - 1 / 2 ^ 23) ^ 2 ≤ ((m1 : ℚ) * 2 ^ e1) ^ 2 ∧
      ((m1 : ℚ) * 2 ^ e1) ^ 2 ≤ (m : ℚ) * 2 ^ e * (1 + 1 / 2 ^ 23) ^ 2 := by
  obtain ⟨sh, hsh⟩ : ∃ sh : Nat, (if e % 2 = 0 then 52 else 53) = sh := ⟨_, rfl⟩
  obtain ⟨h, hh⟩ : ∃ h : Int, (e - (sh : Int)) / 2 = h := ⟨_, rfl⟩
  have hsh52 : 52 ≤ sh := by split at hsh <;> omega
  have h2h : e = (sh : Int) * (-1) + (h + h + 2 * (sh : Int)) := by
    split at hsh <;> omega
  have heq : sqrt (fin false m e)
      = round false (isqrt (m * 2 ^ sh)) h (decide (isqrt (m * 2 ^ sh) * isqrt (m * 2 ^ sh)
          ≠ m * 2 ^ sh)) := by
    simp only [sqrt, if_neg hm, hsh, hh]
    simp
  rw [heq]
  obtain ⟨hS1, hS2⟩ := isqrt_spec (m * 2 ^ sh)
  generalize isqrt (m * 2 ^ sh) = S at hS1 hS2 ⊢
  have hM52 : 2 ^ 52 ≤ m * 2 ^ sh := by
    calc 2 ^ 52 ≤ 2 ^ sh := Nat.pow_le_pow_right (by norm_num) hsh52
      _ = 1 * 2 ^ sh := by ring
      _ ≤ m * 2 ^ sh := Nat.mul_le_mul_right _ (by omega)
  have hS26 : 2 ^ 26 ≤ S := by
    by_contra hc
    have : (S + 1) * (S + 1) ≤ 2 ^ 26 * 2 ^ 26 := Nat.mul_le_mul (by omega) (by omega)
    omega
  have hS0 : S ≠ 0 := by omega
  have hbl : 25 ≤ bitLen S := by
    have := lt_bitLen_of_le S 26 hS26
    omega
  have hp : (0 : ℚ) < 2 ^ h := by positivity
  have hx : (m : ℚ) * 2 ^ e = ((m * 2 ^ sh : Nat) : ℚ) * (2 ^ h) ^ 2 := by
    have e1 : (2 : ℚ) ^ e = 2 ^ ((sh : Int) * (-1)) * (2 ^ h * 2 ^ h * 2 ^ (2 * (sh : Int))) := by
      conv_lhs => rw [h2h]
      rw [zpow_add₀ (by norm_num : (2 : ℚ) ≠ 0), zpow_add₀ (by norm_num : (2 : ℚ) ≠ 0),
        zpow_add₀ (by norm_num : (2 : ℚ) ≠ 0)]
    have e2 : (2 : ℚ) ^ ((sh : Int) * (-1)) * 2 ^ (2 * (sh : Int)) = 2 ^ sh := by
      rw [← zpow_add₀ (by norm_num : (2 : ℚ) ≠ 0), ← zpow_natCast]
      congr 1
      ring
    rw [e1]
    push_cast
    rw [← e2]
    ring
  have hS1q : ((S : ℚ) * 2 ^ h) ^ 2 ≤ (m : ℚ) * 2 ^ e := by
    rw [hx, mul_pow]
    apply mul_le_mul_of_nonneg_right _ (by positivity)
    have : ((S * S : Nat) : ℚ) ≤ ((m * 2 ^ sh : Nat) : ℚ) := by exact_mod_cast hS1
    calc (S : ℚ) ^ 2 = ((S * S : Nat) : ℚ) := by push_cast; ring
      _ ≤ _ := this
  have hS2q : (m : ℚ) * 2 ^ e < (((S : ℚ) + 1) * 2 ^ h) ^ 2 := by
    rw [hx, mul_pow]
    apply mul_lt_mul_of_pos_right _ (by positivity)
    have : ((m * 2 ^ sh : Nat) : ℚ) < (((S + 1) * (S + 1) : Nat) : ℚ) := by exact_mod_cast hS2
    calc ((m * 2 ^ sh : Nat) : ℚ) < (((S + 1) * (S + 1) : Nat) : ℚ) := this
      _ = ((S : ℚ) + 1) ^ 2 := by push_cast; ring
  have hup : (S : ℚ) * 2 ^ h ≤ 2 ^ (120 : Int) := by
    apply le_of_sq_le_sq (by positivity)
    calc ((S : ℚ) * 2 ^ h) ^ 2 ≤ (m : ℚ) * 2 ^ e := hS1q
      _ ≤ 2 ^ (100 : Int) := hhi
      _ ≤ (2 ^ (120 : Int)) ^ 2 := by norm_num
  have hdn : (2 : ℚ) ^ (-120 : Int) ≤ (S : ℚ) * 2 ^ h := by
    have h1 : (2 : ℚ) ^ (-50 : Int) < ((S : ℚ) + 1) * 2 ^ h := by
      apply lt_of_sq_lt_sq (by positivity)
      calc ((2 : ℚ) ^ (-50 : Int)) ^ 2 = 2 ^ (-100 : Int) := by norm_num
        _ ≤ (m : ℚ) * 2 ^ e := hlo
        _ < _ := hS2q
    have h2 : ((S : ℚ) + 1) * 2 ^ h ≤ 2 * ((S : ℚ) * 2 ^ h) := by
      have : (1 : ℚ) ≤ S := by exact_mod_cast Nat.pos_of_ne_zero hS0
      nlinarith
    have h3 : (2 : ℚ) ^ (-120 : Int) ≤ 2 ^ (-50 : Int) / 2 := by norm_num
    generalize (2 : ℚ) ^ (-120 : Int) = A at h3 ⊢
    generalize (2 : ℚ) ^ (-50 : Int) = B at h1 h3
    generalize (2 : ℚ) ^ h = p at h1 h2 ⊢
    generalize (S : ℚ) = s at h1 h2 ⊢
    have h4 : (s + 1) * p = s * p + p := by ring
    rw [h4] at h1 h2
    linarith
  obtain ⟨hb1, hb2⟩ := bits_of_range S h hS0 hdn hup
  obtain ⟨m1, e1, hr, Y, D, hval, hD, hY1, hY2, hY3⟩ :=
    round_value false S h (decide (S * S ≠ m * 2 ^ sh)) hS0 hb1 hb2 (fun _ => hbl)
  refine ⟨m1, e1, hr, ?_, ?_⟩
  · rw [hval, hx, mul_pow]
    have hDq : (D : ℚ) * 2 ^ 23 ≤ S := by exact_mod_cast hD
    have hY2q : (S : ℚ) ≤ Y + D := by exact_mod_cast hY2
    have hA : ((Y : ℚ) + D) * (1 - 1 / 2 ^ 23) ≤ Y := by linarith
    have hB : m * 2 ^ sh ≤ (Y + D) * (Y + D) := by
      by_cases hs : S * S = m * 2 ^ sh
      · rw [← hs]
        exact Nat.mul_le_mul hY2 hY2
      · have h3 := hY3 (by simp [hs])
        have : (S + 1) * (S + 1) ≤ (Y + D) * (Y + D) := Nat.mul_le_mul h3 h3
        omega
    have hBq : ((m * 2 ^ sh : Nat) : ℚ) ≤ ((Y : ℚ) + D) ^ 2 := by
      have : ((m * 2 ^ sh : Nat) : ℚ) ≤ (((Y + D) * (Y + D) : Nat) : ℚ) := by exact_mod_cast hB
      calc ((m * 2 ^ sh : Nat) : ℚ) ≤ (((Y + D) * (Y + D) : Nat) : ℚ) := this
        _ = ((Y : ℚ) + D) ^ 2 := by push_cast; ring
    have hC : ((m * 2 ^ sh : Nat) : ℚ) * (1 - 1 / 2 ^ 23) ^ 2 ≤ (Y : ℚ) ^ 2 := by
      calc ((m * 2 ^ sh : Nat) : ℚ) * (1 - 1 / 2 ^ 23) ^ 2
          ≤ ((Y : ℚ) + D) ^ 2 * (1 - 1 / 2 ^ 23) ^ 2 :=
            mul_le_mul_of_nonneg_right hBq (by positivity)
        _ = (((Y : ℚ) + D) * (1 - 1 / 2 ^ 23)) ^ 2 := by ring
        _ ≤ (Y : ℚ) ^ 2 := pow_le_pow_left₀ (by norm_num; positivity) hA 2
    calc ((m * 2 ^ sh : Nat) : ℚ) * (2 ^ h) ^ 2 * (1 - 1 / 2 ^ 23) ^ 2
        = ((m * 2 ^ sh : Nat) : ℚ) * (1 - 1 / 2 ^ 23) ^ 2 * (2 ^ h) ^ 2 := by ring
      _ ≤ (Y : ℚ) ^ 2 * (2 ^ h) ^ 2 := mul_le_mul_of_nonneg_right hC (by positivity)
  · rw [hval]
    have hDq : (D : ℚ) * 2 ^ 23 ≤ S := by exact_mod_cast hD
    have hY1q : (Y : ℚ) ≤ S + D := by exact_mod_cast hY1
    have hA : (Y : ℚ) ≤ S * (1 + 1 / 2 ^ 23) := by linarith
    calc ((Y : ℚ) * 2 ^ h) ^ 2 ≤ ((S : ℚ) * (1 + 1 / 2 ^ 23) * 2 ^ h) ^ 2 :=
          pow_le_pow_left₀ (by positivity) (mul_le_mul_of_nonneg_right hA hp.le) 2
      _ = ((S : ℚ) * 2 ^ h) ^ 2 * (1 + 1 / 2 ^ 23) ^ 2 := by ring
      _ ≤ (m : ℚ) * 2 ^ e * (1 + 1 / 2 ^ 23) ^ 2 :=
          mul_le_mul_of_nonneg_right hS1q (by positivity)

theorem recip_approx (m : Nat) (e : Int) (hm : m ≠ 0)
    (hlo : (2 : ℚ) ^ (-100 : Int) ≤ 1 / ((m : ℚ) * 2 ^ e))
    (hhi : 1 / ((m : ℚ) * 2 ^ e) ≤ 2 ^ (100 : Int)) :
    ∃ m1 e1, div one (fin false m e) = fin false m1 e1 ∧
      1 / ((m : ℚ) * 2 ^ e) * (1 - 1 / 2 ^ 23) ≤ (m1 : ℚ) * 2 ^ e1 ∧
      (m1 : ℚ) * 2 ^ e1 ≤ 1 / ((m : ℚ) * 2 ^ e) * (1 + 1 / 2 ^ 23) := by
  obtain ⟨k, hk⟩ : ∃ k, 26 + bitLen m = k := ⟨_, rfl⟩
  obtain ⟨-, -, hLhi⟩ := bitLen_spec m hm
  have hmq : (0 : ℚ) < m := by exact_mod_cast Nat.pos_of_ne_zero hm
  have heq : div one (fin false m e)
      = round false (2 ^ 23 * 2 ^ k / m) (-23 - e - k) (decide (2 ^ 23 * 2 ^ k % m ≠ 0)) := by
    simp only [div, one, if_neg hm, ofNatDiv, hk]
    simp
  rw [heq]
  have hA : 2 ^ 49 * m ≤ 2 ^ 23 * 2 ^ k := by
    rw [← hk, pow_add]
    have : m ≤ 2 ^ bitLen m := by omega
    calc 2 ^ 49 * m ≤ 2 ^ 49 * 2 ^ bitLen m := Nat.mul_le_mul_left _ this
      _ = 2 ^ 23 * (2 ^ 26 * 2 ^ bitLen m) := by ring
  have hQ49 : 2 ^ 49 ≤ 2 ^ 23 * 2 ^ k / m :=
    (Nat.le_div_iff_mul_le (Nat.pos_of_ne_zero hm)).mpr hA
  have hdm := Nat.div_add_mod (2 ^ 23 * 2 ^ k) m
  have hml := Nat.mod_lt (2 ^ 23 * 2 ^ k) (Nat.pos_of_ne_zero hm)
  generalize hQ : 2 ^ 23 * 2 ^ k / m = Q at hQ49 hdm ⊢
  generalize hR : 2 ^ 23 * 2 ^ k % m = R at hdm hml ⊢
  have hQ0 : Q ≠ 0 := by omega
  have hbl : 25 ≤ bitLen Q := by
    have := lt_bitLen_of_le Q 49 hQ49
    omega
  have hv : ((2 : ℚ) ^ 23 * 2 ^ k) / m = Q + (R : ℚ) / m := by
    have h' : (m : ℚ) * Q + R = 2 ^ 23 * 2 ^ k := by exact_mod_cast hdm
    rw [← h']
    field_simp
    ring
  have hRq : (R : ℚ) / m < 1 := by
    rw [div_lt_one hmq]
    exact_mod_cast hml
  have hRq0 : (0 : ℚ) ≤ (R : ℚ) / m := by positivity
  have hx : 1 / ((m : ℚ) * 2 ^ e) = ((2 : ℚ) ^ 23 * 2 ^ k) / m * 2 ^ (-23 - e - (k : Int)) := by
    have e1 : (2 : ℚ) ^ (-23 - e - (k : Int)) = (2 ^ e)⁻¹ * (2 ^ 23 * 2 ^ k)⁻¹ := by
      have : (-23 - e - (k : Int)) = -e + -((23 + k : Nat) : Int) := by push_cast; ring
      rw [this, zpow_add₀ (by norm_num : (2 : ℚ) ≠ 0), zpow_neg, zpow_neg, zpow_natCast, pow_add]
    rw [e1]
    have : (2 : ℚ) ^ e ≠ 0 := by positivity
    field_simp
    ring
  have hp : (0 : ℚ) < 2 ^ (-23 - e - (k : Int)) := by positivity
  rw [hx] at hlo hhi ⊢
  rw [hv] at hlo hhi ⊢
  apply round_approx false Q (-23 - e - k) (decide (R ≠ 0)) _ hQ0 (by linarith) (by linarith)
  · intro hs
    have : R = 0 := by simpa using hs
    rw [this]
    simp
  · intro _
    exact hbl
  · have h1 : ((Q : ℚ) + (R : ℚ) / m) ≤ 2 * Q := by
      have : (1 : ℚ) ≤ Q := by exact_mod_cast Nat.pos_of_ne_zero hQ0
      linarith
    have h2 : ((Q : ℚ) + (R : ℚ) / m) * 2 ^ (-23 - e - (k : Int))
        ≤ 2 * ((Q : ℚ) * 2 ^ (-23 - e - (k : Int))) := by
      calc ((Q : ℚ) + (R : ℚ) / m) * 2 ^ (-23 - e - (k : Int))
          ≤ 2 * Q * 2 ^ (-23 - e - (k : Int)) := mul_le_mul_of_nonneg_right h1 hp.le
        _ = _ := by ring
    have h3 : (2 : ℚ) ^ (-120 : Int) ≤ 2 ^ (-100 : Int) / 2 := by norm_num
    generalize (2 : ℚ) ^ (-120 : Int) = A at h3 ⊢
    generalize (2 : ℚ) ^ (-100 : Int) = B at hlo h3
    linarith
  · have h1 : (Q : ℚ) * 2 ^ (-23 - e - (k : Int))
        ≤ ((Q : ℚ) + (R : ℚ) / m) * 2 ^ (-23 - e - (k : Int)) :=
      mul_le_mul_of_nonneg_right (by linarith) hp.le
    have h3 : (2 : ℚ) ^ (100 : Int) ≤ 2 ^ (120 : Int) := by norm_num
    linarith

theorem mag_eq_zero_iff (neg : Bool) (m : Nat) (e : Int) : (fin neg m e).mag = 0 ↔ m = 0 := by
  have hp : (0 : ℚ) < 2 ^ e := by positivity
  simp only [mag]
  constructor
  · intro h
    rcases mul_eq_zero.mp h with h | h
    · exact_mod_cast h
    · exact absurd h hp.ne'
  · intro h
    rw [h]
    simp

theorem pow_bounds (k : Nat) (hk : k ≤ 132) :
    (1 + 1 / 2 ^ 23 : ℚ) ^ k ≤ 2 ∧ (1 / 2 : ℚ) ≤ (1 - 1 / 2 ^ 23) ^ k := by
  constructor
  · calc (1 + 1 / 2 ^ 23 : ℚ) ^ k ≤ (1 + 1 / 2 ^ 23) ^ 132 :=
          pow_le_pow_right₀ (by norm_num) hk
      _ ≤ 2 := by norm_num
  · calc (1 / 2 : ℚ) ≤ (1 - 1 / 2 ^ 23) ^ 132 := by norm_num
      _ ≤ (1 - 1 / 2 ^ 23) ^ k := pow_le_pow_of_le_one (by norm_num) (by norm_num) hk

theorem sq_approx (c : F32) (hc : wellScaled c) :
    ∃ ms es, mul c c = fin false ms es ∧
      (c.mag ^ 2 = 0 ∨ ((2 : ℚ) ^ (-80 : Int) ≤ c.mag ^ 2 ∧ c.mag ^ 2 ≤ 2 ^ (80 : Int))) ∧
      c.mag ^ 2 * (1 - 1 / 2 ^ 23) ≤ (ms : ℚ) * 2 ^ es ∧
      (ms : ℚ) * 2 ^ es ≤ c.mag ^ 2 * (1 + 1 / 2 ^ 23) := by
  obtain ⟨hf, hr⟩ := hc
  cases c with
  | nan => simp [isFinite] at hf
  | inf n => simp [isFinite] at hf
  | fin n m e =>
    by_cases hm : m = 0
    · subst hm
      refine ⟨0, -149, by rw [mul_fin_zero_left]; simp, Or.inl (by simp [mag]), ?_, ?_⟩ <;>
        simp [mag]
    · have hmag : (fin n m e).mag ≠ 0 := fun h => hm ((mag_eq_zero_iff n m e).mp h)
      rcases hr with hr | ⟨h1, h2⟩
      · exact absurd hr hmag
      · simp only [mag] at h1 h2 ⊢
        have hpos : (0 : ℚ) < (m : ℚ) * 2 ^ e := lt_of_lt_of_le (by positivity) h1
        have hlo : (2 : ℚ) ^ (-80 : Int) ≤ ((m : ℚ) * 2 ^ e) ^ 2 := by
          calc (2 : ℚ) ^ (-80 : Int) = (2 ^ (-40 : Int)) ^ 2 := by norm_num
            _ ≤ ((m : ℚ) * 2 ^ e) ^ 2 := pow_le_pow_left₀ (by positivity) h1 2
        have hhi : ((m : ℚ) * 2 ^ e) ^ 2 ≤ 2 ^ (80 : Int) := by
          calc ((m : ℚ) * 2 ^ e) ^ 2 ≤ (2 ^ (40 : Int)) ^ 2 := pow_le_pow_left₀ hpos.le h2 2
            _ = 2 ^ (80 : Int) := by norm_num
        obtain ⟨ms, es, hmul, hb1, hb2⟩ := mul_approx n n m m e e hm hm
          (by rw [← pow_two]; exact le_trans (by norm_num) hlo)
          (by rw [← pow_two]; exact le_trans hhi (by norm_num))
        rw [← pow_two] at hb1 hb2
        refine ⟨ms, es, by rw [hmul]; simp, Or.inr ⟨hlo, hhi⟩, hb1, hb2⟩

theorem sumInv_step (acc c : F32) (T : ℚ) (k : Nat) (hinv : SumInv acc T k) (hk1 : 1 ≤ k)
    (hk2 : k ≤ 131) (hc : wellScaled c) (hT : T + c.mag ^ 2 ≤ 2 ^ (87 : Int)) :
    SumInv (add acc (mul c c)) (T + c.mag ^ 2) (k + 1) := by
  obtain ⟨ma, ea, hacc, hT0, ha1, ha2⟩ := hinv
  obtain ⟨ms, es, hsq, hq0, hs1, hs2⟩ := sq_approx c hc
  obtain ⟨pb1, pb2⟩ := pow_bounds k (by omega)
  have hε1 : (0 : ℚ) ≤ 1 - 1 / 2 ^ 23 := by norm_num
  have hε2 : (1 : ℚ) ≤ 1 + 1 / 2 ^ 23 := by norm_num
  have hq : (0 : ℚ) ≤ c.mag ^ 2 := by positivity
  have hTn : 0 ≤ T := by
    rcases hT0 with h | h
    · rw [h]
    · exact le_trans (by positivity) h
  have hup1 : (1 + 1 / 2 ^ 23 : ℚ) ≤ (1 + 1 / 2 ^ 23) ^ k := by
    calc (1 + 1 / 2 ^ 23 : ℚ) = (1 + 1 / 2 ^ 23) ^ 1 := by ring
      _ ≤ (1 + 1 / 2 ^ 23) ^ k := pow_le_pow_right₀ hε2 hk1
  have hdn1 : (1 - 1 / 2 ^ 23 : ℚ) ^ k ≤ 1 - 1 / 2 ^ 23 := by
    calc (1 - 1 / 2 ^ 23 : ℚ) ^ k ≤ (1 - 1 / 2 ^ 23) ^ 1 :=
          pow_le_pow_of_le_one hε1 (by norm_num) hk1
      _ = 1 - 1 / 2 ^ 23 := by ring
  -- the exact sum of the two operands lies within the factors of step `k`
  have hx1 : (T + c.mag ^ 2) * (1 - 1 / 2 ^ 23) ^ k ≤ (ma : ℚ) * 2 ^ ea + (ms : ℚ) * 2 ^ es := by
    have : c.mag ^ 2 * (1 - 1 / 2 ^ 23) ^ k ≤ c.mag ^ 2 * (1 - 1 / 2 ^ 23) :=
      mul_le_mul_of_nonneg_left hdn1 hq
    linarith
  have hx2 : (ma : ℚ) * 2 ^ ea + (ms : ℚ) * 2 ^ es ≤ (T + c.mag ^ 2) * (1 + 1 / 2 ^ 23) ^ k := by
    have : c.mag ^ 2 * (1 + 1 / 2 ^ 23) ≤ c.mag ^ 2 * (1 + 1 / 2 ^ 23) ^ k :=
      mul_le_mul_of_nonneg_left hup1 hq
    linarith
  have hT0' : T + c.mag ^ 2 = 0 ∨ (2 : ℚ) ^ (-80 : Int) ≤ T + c.mag ^ 2 := by
    rcases hT0 with h | h
    · rcases hq0 with h' | h'
      · left; rw [h, h']; ring
      · right; linarith [h'.1]
    · right; linarith
  rw [hacc, hsq]
  by_cases hz : ma = 0 ∧ ms = 0
  · obtain ⟨hz1, hz2⟩ := hz
    subst hz1
    subst hz2
    simp only [Nat.cast_zero, zero_mul, add_zero] at hx1 hx2
    have hpk : (0 : ℚ) < (1 - 1 / 2 ^ 23) ^ k := lt_of_lt_of_le (by norm_num) pb2
    have hzero : T + c.mag ^ 2 = 0 := by
      have h0 : 0 ≤ T + c.mag ^ 2 := by linarith
      by_contra hne
      have : 0 < (T + c.mag ^ 2) * (1 - 1 / 2 ^ 23) ^ k :=
        mul_pos (lt_of_le_of_ne h0 (Ne.symm hne)) hpk
      linarith
    refine ⟨0, -149, add_fin_zero _ _, Or.inl hzero, ?_, ?_⟩ <;> rw [hzero] <;> simp
  · have hnz : ma ≠ 0 ∨ ms ≠ 0 := by
      by_contra hcon
      push_neg at hcon
      exact hz hcon
    have hpos : 0 < (ma : ℚ) * 2 ^ ea + (ms : ℚ) * 2 ^ es := by
      have p1 : (0 : ℚ) < 2 ^ ea := by positivity
      have p2 : (0 : ℚ) < 2 ^ es := by positivity
      rcases hnz with h | h
      · have : (0 : ℚ) < ma := by exact_mod_cast Nat.pos_of_ne_zero h
        have := mul_pos this p1
        have : (0 : ℚ) ≤ (ms : ℚ) * 2 ^ es := by positivity
        linarith
      · have : (0 : ℚ) < ms := by exact_mod_cast Nat.pos_of_ne_zero h
        have := mul_pos this p2
        have : (0 : ℚ) ≤ (ma : ℚ) * 2 ^ ea := by positivity
        linarith
    have hTpos : (2 : ℚ) ^ (-80 : Int) ≤ T + c.mag ^ 2 := by
      rcases hT0' with h | h
      · rw [h] at hx2
        simp only [zero_mul] at hx2
        linarith
      · exact h
    have hsum0 : (0 : ℚ) ≤ T + c.mag ^ 2 := by linarith
    have hlo : (2 : ℚ) ^ (-120 : Int) ≤ (ma : ℚ) * 2 ^ ea + (ms : ℚ) * 2 ^ es := by
      have h1 : (T + c.mag ^ 2) * (1 / 2) ≤ (T + c.mag ^ 2) * (1 - 1 / 2 ^ 23) ^ k :=
        mul_le_mul_of_nonneg_left pb2 hsum0
      have h2 : (2 : ℚ) ^ (-120 : Int) ≤ 2 ^ (-80 : Int) * (1 / 2) := by norm_num
      generalize (2 : ℚ) ^ (-120 : Int) = A at h2 ⊢
      generalize (2 : ℚ) ^ (-80 : Int) = B at hTpos h2
      linarith
    have hhi : (ma : ℚ) * 2 ^ ea + (ms : ℚ) * 2 ^ es ≤ 2 ^ (120 : Int) := by
      have h1 : (T + c.mag ^ 2) * (1 + 1 / 2 ^ 23) ^ k ≤ (T + c.mag ^ 2) * 2 :=
        mul_le_mul_of_nonneg_left pb1 hsum0
      have h2 : (2 : ℚ) ^ (87 : Int) * 2 ≤ 2 ^ (120 : Int) := by norm_num
      generalize (2 : ℚ) ^ (120 : Int) = A at h2 ⊢
      generalize (2 : ℚ) ^ (87 : Int) = B at hT h2
      linarith
    obtain ⟨m, e, hadd, hb1, hb2⟩ := add_approx ma ms ea es hnz hlo hhi
    refine ⟨m, e, hadd, Or.inr hTpos, ?_, ?_⟩
    · calc (T + c.mag ^ 2) * (1 - 1 / 2 ^ 23) ^ (k + 1)
          = (T + c.mag ^ 2) * (1 - 1 / 2 ^ 23) ^ k * (1 - 1 / 2 ^ 23) := by ring
        _ ≤ ((ma : ℚ) * 2 ^ ea + (ms : ℚ) * 2 ^ es) * (1 - 1 / 2 ^ 23) :=
            mul_le_mul_of_nonneg_right hx1 hε1
        _ ≤ _ := hb1
    · calc (m : ℚ) * 2 ^ e ≤ ((ma : ℚ) * 2 ^ ea + (ms : ℚ) * 2 ^ es) * (1 + 1 / 2 ^ 23) := hb2
        _ ≤ (T + c.mag ^ 2) * (1 + 1 / 2 ^ 23) ^ k * (1 + 1 / 2 ^ 23) :=
            mul_le_mul_of_nonneg_right hx2 (by norm_num)
        _ = _ := by ring

theorem sumInv_fold : ∀ (v : List F32) (acc : F32) (T : ℚ) (k : Nat), SumInv acc T k → 1 ≤ k →
    k + v.length ≤ 132 → (∀ c ∈ v, wellScaled c) → T + sumSqMag v ≤ 2 ^ (87 : Int) →
    SumInv (v.foldl (fun acc c => add acc (mul c c)) acc) (T + sumSqMag v) (k + v.length)
  | [], acc, T, k, hinv, _, _, _, _ => by
    simpa [sumSqMag] using hinv
  | c :: v, acc, T, k, hinv, hk1, hk2, hv, hT => by
    have hq : (0 : ℚ) ≤ sumSqMag v := by
      unfold sumSqMag
      apply List.sum_nonneg
      intro x hx
      obtain ⟨c', -, rfl⟩ := List.mem_map.mp hx
      positivity
    have hsplit : sumSqMag (c :: v) = c.mag ^ 2 + sumSqMag v := by
      simp [sumSqMag]
    rw [hsplit] at hT ⊢
    simp only [List.length_cons] at hk2 ⊢
    have hstep := sumInv_step acc c T k hinv hk1 (by omega) (hv c (by simp)) (by linarith)
    have := sumInv_fold v _ (T + c.mag ^ 2) (k + 1) hstep (by omega) (by omega)
      (fun x hx => hv x (List.mem_cons_of_mem _ hx)) (by linarith)
    rw [List.foldl_cons]
    have e1 : T + (c.mag ^ 2 + sumSqMag v) = T + c.mag ^ 2 + sumSqMag v := by ring
    have e2 : k + (v.length + 1) = k + 1 + v.length := by omega
    rw [e1, e2]
    exact this

theorem sumSqMag_le (v : List F32) (hv : ∀ c ∈ v, wellScaled c) :
    sumSqMag v ≤ (v.length : ℚ) * 2 ^ (80 : Int) := by
  induction v with
  | nil => simp [sumSqMag]
  | cons c v ih =>
    have hsplit : sumSqMag (c :: v) = c.mag ^ 2 + sumSqMag v := by simp [sumSqMag]
    obtain ⟨ms, es, -, hq, -, -⟩ := sq_approx c (hv c (by simp))
    have hc : c.mag ^ 2 ≤ 2 ^ (80 : Int) := by
      rcases hq with h | h
      · rw [h]; positivity
      · exact h.2
    have := ih (fun x hx => hv x (List.mem_cons_of_mem _ hx))
    rw [hsplit, List.length_cons]
    push_cast
    linarith

theorem sumSq_eq_sumSqMag (v : List F32) : sumSq v = sumSqMag v := by
  unfold sumSq sumSqMag
  congr 1
  apply List.map_congr_left
  intro x _
  exact toRat_sq x

/-- The accumulated `norm_sq` of a vector of at most 128 well-scaled floats. -/
theorem normSq_approx (v : List F32) (hlen : v.length ≤ 128) (hv : ∀ c ∈ v, wellScaled c) :
    SumInv (v.foldl (fun acc c => add acc (mul c c)) zero) (sumSqMag v) (1 + v.length) := by
  have h0 : SumInv zero 0 1 := ⟨0, -149, rfl, Or.inl rfl, by simp, by simp⟩
  have hle := sumSqMag_le v hv
  have hT : (0 : ℚ) + sumSqMag v ≤ 2 ^ (87 : Int) := by
    have : (v.length : ℚ) ≤ 128 := by exact_mod_cast hlen
    have h2 : (128 : ℚ) * 2 ^ (80 : Int) = 2 ^ (87 : Int) := by norm_num
    have h3 : (v.length : ℚ) * 2 ^ (80 : Int) ≤ 128 * 2 ^ (80 : Int) :=
      mul_le_mul_of_nonneg_right this (by positivity)
    linarith
  have := sumInv_fold v zero 0 1 h0 (le_refl 1) (by omega) hv hT
  simpa using this

theorem scale_approx (c : F32) (hc : wellScaled c) (mi : Nat) (ei : Int)
    (hz1 : (2 : ℚ) ^ (-60 : Int) ≤ (mi : ℚ) * 2 ^ ei) (hz2 : (mi : ℚ) * 2 ^ ei ≤ 2 ^ (60 : Int)) :
    (mul c (fin false mi ei)).isFinite = true ∧
      (c.mag * ((mi : ℚ) * 2 ^ ei) * (1 - 1 / 2 ^ 23)) ^ 2 ≤ (mul c (fin false mi ei)).mag ^ 2 ∧
      (mul c (fin false mi ei)).mag ^ 2 ≤ (c.mag * ((mi : ℚ) * 2 ^ ei) * (1 + 1 / 2 ^ 23)) ^ 2 := by
  obtain ⟨hf, hr⟩ := hc
  have hzpos : (0 : ℚ) < (mi : ℚ) * 2 ^ ei := lt_of_lt_of_le (by positivity) hz1
  have hmi : mi ≠ 0 := by
    intro h
    rw [h] at hzpos
    simp at hzpos
  cases c with
  | nan => simp [isFinite] at hf
  | inf n => simp [isFinite] at hf
  | fin n m e =>
    by_cases hm : m = 0
    · subst hm
      rw [mul_fin_zero_left]
      simp [isFinite, mag]
    · have hmag : (fin n m e).mag ≠ 0 := fun h => hm ((mag_eq_zero_iff n m e).mp h)
      rcases hr with hr | ⟨h1, h2⟩
      · exact absurd hr hmag
      · simp only [mag] at h1 h2 ⊢
        have hcpos : (0 : ℚ) < (m : ℚ) * 2 ^ e := lt_of_lt_of_le (by positivity) h1
        have hlo : (2 : ℚ) ^ (-120 : Int) ≤ ((m : ℚ) * 2 ^ e) * ((mi : ℚ) * 2 ^ ei) := by
          calc (2 : ℚ) ^ (-120 : Int) ≤ 2 ^ (-40 : Int) * 2 ^ (-60 : Int) := by norm_num
            _ ≤ ((m : ℚ) * 2 ^ e) * ((mi : ℚ) * 2 ^ ei) :=
                mul_le_mul h1 hz1 (by positivity) hcpos.le
        have hhi : ((m : ℚ) * 2 ^ e) * ((mi : ℚ) * 2 ^ ei) ≤ 2 ^ (120 : Int) := by
          calc ((m : ℚ) * 2 ^ e) * ((mi : ℚ) * 2 ^ ei) ≤ 2 ^ (40 : Int) * 2 ^ (60 : Int) :=
                mul_le_mul h2 hz2 hzpos.le (by positivity)
            _ ≤ 2 ^ (120 : Int) := by norm_num
        obtain ⟨mo, eo, hmul, hb1, hb2⟩ := mul_approx n false m mi e ei hm hmi hlo hhi
        rw [hmul]
        simp only [mag, isFinite, true_and]
        have hprod : (0 : ℚ) ≤ ((m : ℚ) * 2 ^ e) * ((mi : ℚ) * 2 ^ ei) := by positivity
        exact ⟨pow_le_pow_left₀ (mul_nonneg hprod (by norm_num)) hb1 2,
          pow_le_pow_left₀ (by positivity) hb2 2⟩

theorem sumSqMag_map_bounds (f : F32 → F32) (lo hi : ℚ) (v : List F32)
    (h : ∀ c ∈ v, lo * c.mag ^ 2 ≤ (f c).mag ^ 2 ∧ (f c).mag ^ 2 ≤ hi * c.mag ^ 2) :
    lo * sumSqMag v ≤ sumSqMag (v.map f) ∧ sumSqMag (v.map f) ≤ hi * sumSqMag v := by
  induction v with
  | nil => simp [sumSqMag]
  | cons c v ih =>
    obtain ⟨i1, i2⟩ := ih (fun x hx => h x (List.mem_cons_of_mem _ hx))
    obtain ⟨c1, c2⟩ := h c (by simp)
    have e1 : sumSqMag (c :: v) = c.mag ^ 2 + sumSqMag v := by simp [sumSqMag]
    have e2 : sumSqMag ((c :: v).map f) = (f c).mag ^ 2 + sumSqMag (v.map f) := by
      simp [sumSqMag]
    rw [e1, e2]
    constructor <;> linarith

theorem tolerance_consts :
    (1 + 1 / 2 ^ 23 : ℚ) ^ 4 ≤ (1 + 1 / 10 ^ 5) ^ 2 * (1 - 1 / 2 ^ 23) ^ 131 ∧
    (1 - 1 / 10 ^ 5 : ℚ) ^ 2 * (1 + 1 / 2 ^ 23) ^ 131 ≤ (1 - 1 / 2 ^ 23) ^ 4 := by
  constructor <;> norm_num

theorem sqrt_fin_zero (e : Int) : sqrt (fin false 0 e) = fin false 0 (-149) := by
  simp [sqrt]

/-- Error analysis of one vector: at most 128 well-scaled components whose computed norm
exceeds `1e-12f` give an output of Euclidean norm within `10^-5` of 1. -/
theorem normalized_unit (v : List F32) (hlen : v.length ≤ 128) (hv : ∀ c ∈ v, wellScaled c)
    (hgt : gt (sqrt (v.foldl (fun acc c => add acc (mul c c)) zero)) EPSILON = true) :
    unitWithinTolerance
      (v.map (fun c => mul c (div one (sqrt (v.foldl (fun acc c => add acc (mul c c)) zero))))) := by
  obtain ⟨m, e, hacc, hT0, h1, h2⟩ := normSq_approx v hlen hv
  rw [hacc] at hgt ⊢
  obtain ⟨pb1, pb2⟩ := pow_bounds (1 + v.length) (by omega)
  have hm : m ≠ 0 := by
    intro h
    subst h
    rw [sqrt_fin_zero] at hgt
    exact absurd hgt (by decide)
  have hxpos : (0 : ℚ) < (m : ℚ) * 2 ^ e := by
    have : (0 : ℚ) < m := by exact_mod_cast Nat.pos_of_ne_zero hm
    positivity
  have hT : (2 : ℚ) ^ (-80 : Int) ≤ sumSqMag v := by
    rcases hT0 with h | h
    · rw [h] at h2
      simp only [zero_mul] at h2
      linarith
    · exact h
  have hTpos : (0 : ℚ) < sumSqMag v := lt_of_lt_of_le (by positivity) hT
  have hTle : sumSqMag v ≤ 2 ^ (87 : Int) := by
    have hle := sumSqMag_le v hv
    have : (v.length : ℚ) ≤ 128 := by exact_mod_cast hlen
    have h3 : (v.length : ℚ) * 2 ^ (80 : Int) ≤ 128 * 2 ^ (80 : Int) :=
      mul_le_mul_of_nonneg_right this (by positivity)
    have h4 : (128 : ℚ) * 2 ^ (80 : Int) = 2 ^ (87 : Int) := by norm_num
    linarith
  have hx1 : (2 : ℚ) ^ (-81 : Int) ≤ (m : ℚ) * 2 ^ e := by
    have a1 : sumSqMag v * (1 / 2) ≤ sumSqMag v * (1 - 1 / 2 ^ 23) ^ (1 + v.length) :=
      mul_le_mul_of_nonneg_left pb2 hTpos.le
    have a2 : (2 : ℚ) ^ (-81 : Int) = 2 ^ (-80 : Int) * (1 / 2) := by norm_num
    rw [a2]
    generalize (2 : ℚ) ^ (-80 : Int) = B at hT
    linarith
  have hx2 : (m : ℚ) * 2 ^ e ≤ 2 ^ (88 : Int) := by
    have a1 : sumSqMag v * (1 + 1 / 2 ^ 23) ^ (1 + v.length) ≤ sumSqMag v * 2 :=
      mul_le_mul_of_nonneg_left pb1 hTpos.le
    have a2 : (2 : ℚ) ^ (88 : Int) = 2 ^ (87 : Int) * 2 := by norm_num
    rw [a2]
    generalize (2 : ℚ) ^ (87 : Int) = B at hTle
    linarith
  obtain ⟨mn, en, hsqrt, hs1, hs2⟩ := sqrt_approx m e hm
    (le_trans (by norm_num) hx1) (le_trans hx2 (by norm_num))
  rw [hsqrt]
  have hy0 : (0 : ℚ) ≤ (mn : ℚ) * 2 ^ en := by positivity
  have hy1 : (2 : ℚ) ^ (-50 : Int) ≤ (mn : ℚ) * 2 ^ en := by
    apply le_of_sq_le_sq hy0
    calc ((2 : ℚ) ^ (-50 : Int)) ^ 2 ≤ 2 ^ (-81 : Int) * (1 - 1 / 2 ^ 23) ^ 2 := by norm_num
      _ ≤ (m : ℚ) * 2 ^ e * (1 - 1 / 2 ^ 23) ^ 2 :=
          mul_le_mul_of_nonneg_right hx1 (by positivity)
      _ ≤ _ := hs1
  have hy2 : (mn : ℚ) * 2 ^ en ≤ 2 ^ (50 : Int) := by
    apply le_of_sq_le_sq (by positivity)
    calc ((mn : ℚ) * 2 ^ en) ^ 2 ≤ (m : ℚ) * 2 ^ e * (1 + 1 / 2 ^ 23) ^ 2 := hs2
      _ ≤ 2 ^ (88 : Int) * (1 + 1 / 2 ^ 23) ^ 2 :=
          mul_le_mul_of_nonneg_right hx2 (by positivity)
      _ ≤ (2 ^ (50 : Int)) ^ 2 := by norm_num
  have hypos : (0 : ℚ) < (mn : ℚ) * 2 ^ en := lt_of_lt_of_le (by positivity) hy1
  have hmn : mn ≠ 0 := by
    intro h
    rw [h] at hypos
    simp at hypos
  have hr1 : (2 : ℚ) ^ (-50 : Int) ≤ 1 / ((mn : ℚ) * 2 ^ en) := by
    rw [le_div_iff₀ hypos]
    calc (2 : ℚ) ^ (-50 : Int) * ((mn : ℚ) * 2 ^ en) ≤ 2 ^ (-50 : Int) * 2 ^ (50 : Int) :=
          mul_le_mul_of_nonneg_left hy2 (by positivity)
      _ = 1 := by norm_num
  have hr2 : 1 / ((mn : ℚ) * 2 ^ en) ≤ 2 ^ (50 : Int) := by
    rw [div_le_iff₀ hypos]
    calc (1 : ℚ) = 2 ^ (50 : Int) * 2 ^ (-50 : Int) := by norm_num
      _ ≤ 2 ^ (50 : Int) * ((mn : ℚ) * 2 ^ en) := mul_le_mul_of_nonneg_left hy1 (by positivity)
  obtain ⟨mi, ei, hdiv, hd1, hd2⟩ := recip_approx mn en hmn
    (le_trans (by norm_num) hr1) (le_trans hr2 (by norm_num))
  rw [hdiv]
  -- z * y lies in [1 - ε, 1 + ε]
  have hzy1 : (1 - 1 / 2 ^ 23 : ℚ) ≤ (mi : ℚ) * 2 ^ ei * ((mn : ℚ) * 2 ^ en) := by
    have := mul_le_mul_of_nonneg_right hd1 hypos.le
    have e1 : 1 / ((mn : ℚ) * 2 ^ en) * (1 - 1 / 2 ^ 23) * ((mn : ℚ) * 2 ^ en)
        = 1 - 1 / 2 ^ 23 := by
      field_simp
      ring
    linarith
  have hzy2 : (mi : ℚ) * 2 ^ ei * ((mn : ℚ) * 2 ^ en) ≤ 1 + 1 / 2 ^ 23 := by
    have := mul_le_mul_of_nonneg_right hd2 hypos.le
    have e1 : 1 / ((mn : ℚ) * 2 ^ en) * (1 + 1 / 2 ^ 23) * ((mn : ℚ) * 2 ^ en)
        = 1 + 1 / 2 ^ 23 := by
      field_simp
      ring
    linarith
  have hz1 : (2 : ℚ) ^ (-60 : Int) ≤ (mi : ℚ) * 2 ^ ei := by
    calc (2 : ℚ) ^ (-60 : Int) ≤ 2 ^ (-50 : Int) * (1 - 1 / 2 ^ 23) := by norm_num
      _ ≤ 1 / ((mn : ℚ) * 2 ^ en) * (1 - 1 / 2 ^ 23) :=
          mul_le_mul_of_nonneg_right hr1 (by norm_num)
      _ ≤ _ := hd1
  have hz2 : (mi : ℚ) * 2 ^ ei ≤ 2 ^ (60 : Int) := by
    calc (mi : ℚ) * 2 ^ ei ≤ 1 / ((mn : ℚ) * 2 ^ en) * (1 + 1 / 2 ^ 23) := hd2
      _ ≤ 2 ^ (50 : Int) * (1 + 1 / 2 ^ 23) := mul_le_mul_of_nonneg_right hr2 (by norm_num)
      _ ≤ 2 ^ (60 : Int) := by norm_num
  have hzpos : (0 : ℚ) < (mi : ℚ) * 2 ^ ei := lt_of_lt_of_le (by positivity) hz1
  have hbounds := sumSqMag_map_bounds (fun c => mul c (fin false mi ei))
    (((mi : ℚ) * 2 ^ ei * (1 - 1 / 2 ^ 23)) ^ 2) (((mi : ℚ) * 2 ^ ei * (1 + 1 / 2 ^ 23)) ^ 2) v
    (by
      intro c hc
      obtain ⟨-, b1, b2⟩ := scale_approx c (hv c hc) mi ei hz1 hz2
      constructor
      · calc ((mi : ℚ) * 2 ^ ei * (1 - 1 / 2 ^ 23)) ^ 2 * c.mag ^ 2
            = (c.mag * ((mi : ℚ) * 2 ^ ei) * (1 - 1 / 2 ^ 23)) ^ 2 := by ring
          _ ≤ _ := b1
      · calc (mul c (fin false mi ei)).mag ^ 2
            ≤ (c.mag * ((mi : ℚ) * 2 ^ ei) * (1 + 1 / 2 ^ 23)) ^ 2 := b2
          _ = _ := by ring)
  obtain ⟨hlow, hupp⟩ := hbounds
  obtain ⟨tc1, tc2⟩ := tolerance_consts
  have hk : 1 + v.length + 2 ≤ 131 := by omega
  -- T * (1 - ε)^131 ≤ y^2 ≤ T * (1 + ε)^131
  have hTy1 : sumSqMag v * (1 - 1 / 2 ^ 23) ^ 131 ≤ ((mn : ℚ) * 2 ^ en) ^ 2 := by
    calc sumSqMag v * (1 - 1 / 2 ^ 23) ^ 131
        ≤ sumSqMag v * (1 - 1 / 2 ^ 23) ^ (1 + v.length + 2) :=
          mul_le_mul_of_nonneg_left
            (pow_le_pow_of_le_one (by norm_num) (by norm_num) hk) hTpos.le
      _ = sumSqMag v * (1 - 1 / 2 ^ 23) ^ (1 + v.length) * (1 - 1 / 2 ^ 23) ^ 2 := by ring
      _ ≤ (m : ℚ) * 2 ^ e * (1 - 1 / 2 ^ 23) ^ 2 :=
          mul_le_mul_of_nonneg_right h1 (by positivity)
      _ ≤ _ := hs1
  have hTy2 : ((mn : ℚ) * 2 ^ en) ^ 2 ≤ sumSqMag v * (1 + 1 / 2 ^ 23) ^ 131 := by
    calc ((mn : ℚ) * 2 ^ en) ^ 2 ≤ (m : ℚ) * 2 ^ e * (1 + 1 / 2 ^ 23) ^ 2 := hs2
      _ ≤ sumSqMag v * (1 + 1 / 2 ^ 23) ^ (1 + v.length) * (1 + 1 / 2 ^ 23) ^ 2 :=
          mul_le_mul_of_nonneg_right h2 (by positivity)
      _ = sumSqMag v * (1 + 1 / 2 ^ 23) ^ (1 + v.length + 2) := by ring
      _ ≤ sumSqMag v * (1 + 1 / 2 ^ 23) ^ 131 :=
          mul_le_mul_of_nonneg_left (pow_le_pow_right₀ (by norm_num) hk) hTpos.le
  have hzy0 : (0 : ℚ) ≤ (mi : ℚ) * 2 ^ ei * ((mn : ℚ) * 2 ^ en) := by positivity
  have hApos : (0 : ℚ) < (1 - 1 / 2 ^ 23) ^ 131 := by positivity
  have hBpos : (0 : ℚ) < (1 + 1 / 2 ^ 23) ^ 131 := by positivity
  generalize (1 - 1 / 2 ^ 23 : ℚ) ^ 131 = A at tc1 tc2 hTy1 hApos
  generalize (1 + 1 / 2 ^ 23 : ℚ) ^ 131 = B at tc1 tc2 hTy2 hBpos
  refine ⟨?_, ?_, ?_⟩
  · intro x hx
    obtain ⟨c, hc, rfl⟩ := List.mem_map.mp hx
    exact (scale_approx c (hv c hc) mi ei hz1 hz2).1
  · rw [sumSq_eq_sumSqMag]
    apply le_of_mul_le_mul_right _ hBpos
    calc (1 - 1 / 10 ^ 5 : ℚ) ^ 2 * B ≤ (1 - 1 / 2 ^ 23) ^ 4 := tc2
      _ = ((1 - 1 / 2 ^ 23) * (1 - 1 / 2 ^ 23)) ^ 2 := by ring
      _ ≤ ((mi : ℚ) * 2 ^ ei * ((mn : ℚ) * 2 ^ en) * (1 - 1 / 2 ^ 23)) ^ 2 :=
          pow_le_pow_left₀ (by norm_num)
            (mul_le_mul_of_nonneg_right hzy1 (by norm_num)) 2
      _ = ((mi : ℚ) * 2 ^ ei * (1 - 1 / 2 ^ 23)) ^ 2 * ((mn : ℚ) * 2 ^ en) ^ 2 := by ring
      _ ≤ ((mi : ℚ) * 2 ^ ei * (1 - 1 / 2 ^ 23)) ^ 2 * (sumSqMag v * B) :=
          mul_le_mul_of_nonneg_left hTy2 (by positivity)
      _ = ((mi : ℚ) * 2 ^ ei * (1 - 1 / 2 ^ 23)) ^ 2 * sumSqMag v * B := by ring
      _ ≤ _ := mul_le_mul_of_nonneg_right hlow hBpos.le
  · rw [sumSq_eq_sumSqMag]
    apply le_of_mul_le_mul_right _ hApos
    calc sumSqMag (v.map (fun c => mul c (fin false mi ei))) * A
        ≤ ((mi : ℚ) * 2 ^ ei * (1 + 1 / 2 ^ 23)) ^ 2 * sumSqMag v * A :=
          mul_le_mul_of_nonneg_right hupp hApos.le
      _ = ((mi : ℚ) * 2 ^ ei * (1 + 1 / 2 ^ 23)) ^ 2 * (sumSqMag v * A) := by ring
      _ ≤ ((mi : ℚ) * 2 ^ ei * (1 + 1 / 2 ^ 23)) ^ 2 * ((mn : ℚ) * 2 ^ en) ^ 2 :=
          mul_le_mul_of_nonneg_left hTy1 (by positivity)
      _ = ((mi : ℚ) * 2 ^ ei * ((mn : ℚ) * 2 ^ en) * (1 + 1 / 2 ^ 23)) ^ 2 := by ring
      _ ≤ ((1 + 1 / 2 ^ 23) * (1 + 1 / 2 ^ 23)) ^ 2 :=
          pow_le_pow_left₀ (by positivity)
            (mul_le_mul_of_nonneg_right hzy2 (by norm_num)) 2
      _ = (1 + 1 / 2 ^ 23 : ℚ) ^ 4 := by ring
      _ ≤ _ := tc1

end F32

/-! ## C7: unit norm of the normalized vectors -/

namespace build_optimized

theorem inputSlice_eq (emb : List F32) (dim : Int) (i : Nat)
    (hdim : 1 ≤ dim) (hint : dim < 2 ^ 31) (hmax : emb.length < 2 ^ 62)
    (hi : i < emb.length / dim.toNat) :
    (emb.drop (i * dim.toNat)).take dim.toNat
      = (List.range dim.toNat).map (srcAt emb dim i) := by
  apply List.ext_getElem?
  intro j
  rw [List.getElem?_take, List.getElem?_drop, List.getElem?_map]
  by_cases hj : j < dim.toNat
  · rw [if_pos hj, List.getElem?_range hj, srcAt_eq emb dim i j hdim hint hmax hi hj]
    rfl
  · rw [if_neg hj, List.getElem?_eq_none (by simpa using hj)]
    rfl

theorem outputSlice_eq (emb : List F32) (dim : Int) (i : Nat)
    (hdim : 1 ≤ dim) (hint : dim < 2 ^ 31) (hmax : emb.length < 2 ^ 62)
    (hi : i < emb.length / dim.toNat) :
    ((normalize_embeddings_aligned emb dim).normalized.drop (i * dim.toNat)).take dim.toNat
      = (List.range dim.toNat).map (component emb dim i) := by
  obtain ⟨-, -, h3, -⟩ := normalize_spec emb dim hdim hint hmax
  apply List.ext_getElem?
  intro j
  rw [List.getElem?_take, List.getElem?_drop, List.getElem?_map]
  by_cases hj : j < dim.toNat
  · rw [if_pos hj, List.getElem?_range hj, h3 i j hi hj]
    rfl
  · rw [if_neg hj, List.getElem?_eq_none (by simpa using hj)]
    rfl

theorem normSq_eq_foldl (emb : List F32) (dim : Int) (i : Nat) :
    normSq emb dim i
      = ((List.range dim.toNat).map (srcAt emb dim i)).foldl
          (fun acc c => F32.add acc (F32.mul c c)) F32.zero := by
  unfold normSq
  rw [List.foldl_map]




/-- C7 as stated fails: the one-component vector `[2^64]` (`dim = 1`) has Euclidean norm
`2^64 > 1e-12`, its square overflows `float` to `+inf`, so `norm = +inf > 1e-12f`,
`inv_norm = 0` and the output vector is `[0]`, whose norm is 0 and not within `1e-5` of 1. -/
theorem C7_overflow_counterexample :
    (1 / 10 ^ 12 : ℚ) ^ 2 < sumSq [F32.fin false (2 ^ 23) 41] ∧
    normOf [F32.fin false (2 ^ 23) 41] 1 0 = F32.inf false ∧
    (normalize_embeddings_aligned [F32.fin false (2 ^ 23) 41] 1).normalized = [F32.zero] ∧
    ¬ unitWithinTolerance [F32.zero] := by
  refine ⟨?_, by decide, by decide, ?_⟩
  · simp only [sumSq, F32.toRat, List.map_cons, List.map_nil, List.sum_cons, List.sum_nil]
    norm_num
  · intro h
    have h2 := h.2.1
    simp only [sumSq, F32.toRat, F32.zero, List.map_cons, List.map_nil, List.sum_cons,
      List.sum_nil] at h2
    norm_num at h2

theorem foldl_replicate_fixed (f : F32 → F32 → F32) (acc x : F32) (h : f acc x = acc) :
    ∀ n : Nat, (List.replicate n x).foldl f acc = acc
  | 0 => rfl
  | n + 1 => by
    rw [List.replicate_succ, List.foldl_cons, h]
    exact foldl_replicate_fixed f acc x h n

set_option maxRecDepth 8000 in
/-- A vector `[1, x, …, x]` whose squares `x * x` are lost when added to `1.0f` has computed
norm `1.0f` and is returned as it is. -/
theorem normalize_one_then_small (x : F32) (n : Nat) (dim : Int) (hdim : dim = (n : Int) + 1)
    (hn : n + 1 < 2 ^ 31)
    (hadd : F32.add F32.one (F32.mul x x) = F32.one)
    (hmul : F32.mul x (F32.div F32.one F32.one) = x) :
    normOf (F32.one :: List.replicate n x) dim 0 = F32.one ∧
    (normalize_embeddings_aligned (F32.one :: List.replicate n x) dim).normalized
      = F32.one :: List.replicate n x := by
  obtain ⟨v, hv⟩ : ∃ v, v = F32.one :: List.replicate n x := ⟨_, rfl⟩
  rw [← hv]
  have hlen : v.length = n + 1 := by rw [hv]; simp
  have hd : dim.toNat = n + 1 := by omega
  have hd1 : 1 ≤ dim := by omega
  have hd2 : dim < 2 ^ 31 := by omega
  have hmax : v.length < 2 ^ 62 := by omega
  have hi : 0 < v.length / dim.toNat := by
    rw [hlen, hd, Nat.div_self (by omega)]
    omega
  have hin : (List.range (n + 1)).map (srcAt v dim 0) = v := by
    have := inputSlice_eq v dim 0 hd1 hd2 hmax hi
    rw [hd, Nat.zero_mul, List.drop_zero, List.take_of_length_le (by omega)] at this
    exact this.symm
  have hnorm : normOf v dim 0 = F32.one := by
    unfold normOf
    rw [normSq_eq_foldl, hd, hin, hv, List.foldl_cons]
    have h1 : F32.add F32.zero (F32.mul F32.one F32.one) = F32.one := by decide
    rw [h1, foldl_replicate_fixed (fun acc c => F32.add acc (F32.mul c c)) F32.one x hadd n]
    decide
  refine ⟨hnorm, ?_⟩
  have hout := outputSlice_eq v dim 0 hd1 hd2 hmax hi
  have hl := (normalize_spec v dim hd1 hd2 hmax).2.1
  rw [hlen, hd, Nat.div_self (by omega), Nat.one_mul] at hl
  rw [hd, Nat.zero_mul, List.drop_zero, List.take_of_length_le (by omega)] at hout
  rw [hout]
  refine Eq.trans ?_ hin
  apply List.map_congr_left
  intro d hd'
  have hs : srcAt v dim 0 d ∈ v := by
    have : srcAt v dim 0 d ∈ (List.range (n + 1)).map (srcAt v dim 0) :=
      List.mem_map_of_mem _ hd'
    rw [hin] at this
    exact this
  unfold component
  rw [hnorm, if_pos (by decide)]
  generalize srcAt v dim 0 d = y at hs ⊢
  rw [hv] at hs
  rcases List.mem_cons.mp hs with h | h
  · rw [h]; decide
  · rw [List.eq_of_mem_replicate h]; exact hmul

set_option maxRecDepth 8000 in
/-- The tolerance of C7 also fails without any overflow once `dim` is large: for the vector
`[1, 2^-12, …, 2^-12]` with `dim = 337` every addition `1 + 2^-24` rounds back to `1.0f`, so
the computed norm is `1.0f`, the vector is returned as it is, and its Euclidean norm
`sqrt(1 + 336 * 2^-24)` exceeds `1 + 1e-5`. -/
theorem C7_accumulation_counterexample :
    normOf (F32.one :: List.replicate 336 (F32.fin false (2 ^ 23) (-35))) 337 0 = F32.one ∧
    (normalize_embeddings_aligned
      (F32.one :: List.replicate 336 (F32.fin false (2 ^ 23) (-35))) 337).normalized
      = F32.one :: List.replicate 336 (F32.fin false (2 ^ 23) (-35)) ∧
    ¬ unitWithinTolerance (F32.one :: List.replicate 336 (F32.fin false (2 ^ 23) (-35))) := by
  obtain ⟨h1, h2⟩ := normalize_one_then_small (F32.fin false (2 ^ 23) (-35)) 336 337
    (by norm_num) (by norm_num) (by decide) (by decide)
  refine ⟨h1, h2, ?_⟩
  intro h
  have h2 := h.2.2
  simp only [sumSq, F32.toRat, F32.one, List.map_cons, List.map_replicate, List.sum_cons,
    List.sum_replicate] at h2
  norm_num at h2

set_option maxRecDepth 8000 in
/-- C7 as amended: for every `dim` with `1 ≤ dim ≤ 128` and every input vector whose
components are finite floats that are zero or of magnitude between `2^-40` and `2^40` and whose
norm as the code computes it (`sqrtf` of the `float` sum of squares) is greater than `1e-12f`,
the corresponding output vector has Euclidean norm within `1e-5` of 1.0; each output component
is the `float` product of the input component with the `float` quotient `1.0f / norm`, which
is evaluated for that vector; for the input `[3.0, 4.0]` with `dim = 2` the computed norm is
`5.0f` and the output is `[0.6f, 0.8f]`, the floats nearest to 0.6 and 0.8. -/
theorem C7_unit_norm_within_tolerance (emb : List F32) (dim : Int) (i : Nat)
    (hdim : 1 ≤ dim) (hd128 : dim ≤ 128) (hmax : emb.length < 2 ^ 62)
    (hi : i < emb.length / dim.toNat)
    (hscaled : ∀ x ∈ (emb.drop (i * dim.toNat)).take dim.toNat, x.wellScaled)
    (hnorm : F32.gt (normOf emb dim i) EPSILON = true) :
    unitWithinTolerance
      (((normalize_embeddings_aligned emb dim).normalized.drop (i * dim.toNat)).take
        dim.toNat) ∧
    (∀ d, d < dim.toNat →
      ∃ x, emb[i * dim.toNat + d]? = some x ∧
        (normalize_embeddings_aligned emb dim).normalized[i * dim.toNat + d]?
          = some (F32.mul x (F32.div F32.one (normOf emb dim i)))) ∧
    i ∈ (normalize_embeddings_aligned emb dim).divisions ∧
    normOf [F32.ofNat 3, F32.ofNat 4] 2 0 = F32.ofNat 5 ∧
    (normalize_embeddings_aligned [F32.ofNat 3, F32.ofNat 4] 2).normalized
      = [F32.ofNatDiv false 6 10 0, F32.ofNatDiv false 8 10 0] := by
  have hint : dim < 2 ^ 31 := by omega
  obtain ⟨-, -, h3, h4⟩ := normalize_spec emb dim hdim hint hmax
  refine ⟨?_, ?_, ?_, by decide, by decide⟩
  · rw [outputSlice_eq emb dim i hdim hint hmax hi]
    have hcomp : (List.range dim.toNat).map (component emb dim i)
        = ((List.range dim.toNat).map (srcAt emb dim i)).map
            (fun c => F32.mul c (F32.div F32.one (F32.sqrt
              (((List.range dim.toNat).map (srcAt emb dim i)).foldl
                (fun acc c => F32.add acc (F32.mul c c)) F32.zero)))) := by
      rw [List.map_map, ← normSq_eq_foldl]
      apply List.map_congr_left
      intro d _
      simp only [Function.comp, component]
      rw [if_pos hnorm]
      rfl
    rw [hcomp]
    apply F32.normalized_unit
    · rw [List.length_map, List.length_range]
      omega
    · rw [← inputSlice_eq emb dim i hdim hint hmax hi]
      exact hscaled
    · rw [← normSq_eq_foldl]
      exact hnorm
  · intro d hd
    refine ⟨srcAt emb dim i d, srcAt_eq emb dim i d hdim hint hmax hi hd, ?_⟩
    rw [h3 i d hi hd]
    unfold component
    rw [if_pos hnorm]
  · rw [h4, List.mem_filter]
    exact ⟨List.mem_range.mpr hi, hnorm⟩

set_option maxRecDepth 8000 in
/-- Witness for the amended C7: the vector `[3.0, 4.0]`, `dim = 2`, is normalized to a vector
of Euclidean norm within `1e-5` of 1. -/
theorem C7_unit_norm_within_tolerance_witness :
    F32.gt (normOf [F32.ofNat 3, F32.ofNat 4] 2 0) EPSILON = true ∧
    unitWithinTolerance
      (((normalize_embeddings_aligned [F32.ofNat 3, F32.ofNat 4] 2).normalized.drop
        (0 * (2 : Int).toNat)).take (2 : Int).toNat) :=
  ⟨by decide,
   (C7_unit_norm_within_tolerance [F32.ofNat 3, F32.ofNat 4] 2 0 (by decide) (by decide)
      (by decide) (by decide)
      (by
        have e3 : F32.ofNat 3 = F32.fin false 12582912 (-22) := by decide
        have e4 : F32.ofNat 4 = F32.fin false 8388608 (-21) := by decide
        intro x hx
        have hx' : x = F32.ofNat 3 ∨ x = F32.ofNat 4 := by simpa using hx
        rcases hx' with h | h
        · rw [h, e3]
          exact ⟨rfl, Or.inr (by simp only [F32.mag]; norm_num)⟩
        · rw [h, e4]
          exact ⟨rfl, Or.inr (by simp only [F32.mag]; norm_num)⟩)
      (by decide)).1⟩

end build_optimized


/-! ## C10: percentile indices -/

/-- How `F64.roundNat` rounds a number of more than 53 digits: with `H` half a unit in the
last place, `P = T + rem` with `T` a multiple of `2 * H`, and the result is `T` or `T + 2 * H`,
whichever is nearer. -/
theorem roundNat_cases (P : Nat) (hL : ¬ F32.bitLen P ≤ 53) :
    ∃ H T rem, (∃ d, H = 2 ^ d) ∧ 1 ≤ H ∧ H * 2 ^ 53 ≤ P ∧ P < H * 2 ^ 54 ∧ P = T + rem ∧
      rem < 2 * H ∧ (2 * H ∣ T) ∧
      (P < 2 ^ 106 → 2 * H ∣ 2 ^ 53) ∧
      (F64.roundNat P = T ∨ F64.roundNat P = T + 2 * H) ∧
      (rem < H → F64.roundNat P = T) ∧ (H < rem → F64.roundNat P = T + 2 * H) ∧
      (F64.roundNat P = T + 2 * H → H ≤ rem) ∧ (F64.roundNat P = T → rem ≤ H) := by
  have h0 : P ≠ 0 := by
    intro h
    subst h
    exact hL (by decide)
  obtain ⟨-, hlo, hhi⟩ := bitLen_spec P h0
  obtain ⟨d, hd⟩ : ∃ d, F32.bitLen P = 54 + d := ⟨F32.bitLen P - 54, by omega⟩
  have e1 : F32.bitLen P - 53 = d + 1 := by omega
  have e2 : F32.bitLen P - 1 = d + 53 := by omega
  have hH : 1 ≤ 2 ^ d := Nat.one_le_two_pow
  have hdm := Nat.div_add_mod P (2 ^ (d + 1))
  have hml : P % 2 ^ (d + 1) < 2 ^ (d + 1) := Nat.mod_lt _ (by positivity)
  have hp : 2 ^ (d + 1) = 2 * 2 ^ d := by rw [pow_succ]; ring
  have hR : F64.roundNat P =
      if P % 2 ^ (d + 1) > 2 ^ d ∨ (P % 2 ^ (d + 1) = 2 ^ d ∧ P / 2 ^ (d + 1) % 2 = 1)
      then (P / 2 ^ (d + 1) + 1) * 2 ^ (d + 1) else P / 2 ^ (d + 1) * 2 ^ (d + 1) := by
    unfold F64.roundNat
    rw [if_neg hL]
    simp only [e1, Nat.add_sub_cancel]
  refine ⟨2 ^ d, 2 ^ (d + 1) * (P / 2 ^ (d + 1)), P % 2 ^ (d + 1), ⟨d, rfl⟩, hH, ?_, ?_, hdm.symm,
    by omega, ⟨P / 2 ^ (d + 1), by rw [hp]⟩, ?_, ?_, ?_, ?_, ?_, ?_⟩
  · rw [e2, pow_add] at hlo
    exact hlo
  · rw [hd, Nat.add_comm 54 d, pow_add] at hhi
    exact hhi
  · intro hP
    have hd53 : d + 1 ≤ 53 := by
      by_contra hc
      have : 2 ^ 106 ≤ 2 ^ (d + 53) := Nat.pow_le_pow_right (by norm_num) (by omega)
      rw [e2] at hlo
      omega
    rw [← hp]
    exact pow_dvd_pow 2 hd53
  · rw [hR]
    split
    · right; rw [← hp]; ring
    · left; ring
  · intro h
    rw [hR, if_neg (by omega)]
    ring
  · intro h
    rw [hR, if_pos (by omega)]
    rw [← hp]; ring
  · intro h
    rw [hR] at h
    split at h
    · omega
    · have : P / 2 ^ (d + 1) * 2 ^ (d + 1) = 2 ^ (d + 1) * (P / 2 ^ (d + 1)) := by ring
      omega
  · intro h
    rw [hR] at h
    split at h
    · have : (P / 2 ^ (d + 1) + 1) * 2 ^ (d + 1)
          = 2 ^ (d + 1) * (P / 2 ^ (d + 1)) + 2 ^ (d + 1) := by ring
      omega
    · omega

/-- Rounding to `double` moves a number below `c * 2^53` by less than `c`. -/
theorem roundNat_err (P c : Nat) (h : P < c * 2 ^ 53) :
    F64.roundNat P < P + c ∧ P < F64.roundNat P + c := by
  by_cases hL : F32.bitLen P ≤ 53
  · unfold F64.roundNat
    rw [if_pos hL]
    omega
  · obtain ⟨H, T, rem, -, h1, h2, -, h3, h4, -, -, h7, -, -, h10, h11⟩ := roundNat_cases P hL
    have hHc : H < c := by
      by_contra hc
      have : c * 2 ^ 53 ≤ H * 2 ^ 53 := Nat.mul_le_mul_right _ (by omega)
      omega
    rcases h7 with h | h
    · have := h11 h
      omega
    · have := h10 h
      omega

/-- A number just below `k * 2^53` that is nearer to it than half a unit in the last place
rounds to `k * 2^53`. -/
theorem roundNat_near (P k δ : Nat) (hP : P + δ = k * 2 ^ 53) (hδ : 0 < δ)
    (hbig : 2 ^ 53 ≤ P) (hsmall : P < 2 ^ 106) (hnear : δ * 2 ^ 54 < P) :
    F64.roundNat P = k * 2 ^ 53 := by
  have hL : ¬ F32.bitLen P ≤ 53 := by
    intro hc
    have h0 : P ≠ 0 := by omega
    obtain ⟨-, -, hhi⟩ := bitLen_spec P h0
    have : 2 ^ F32.bitLen P ≤ 2 ^ 53 := Nat.pow_le_pow_right (by norm_num) hc
    omega
  obtain ⟨H, T, rem, -, h1, -, hup, h3, h4, ⟨b, hb⟩, h6, -, -, h9, -, -⟩ := roundNat_cases P hL
  obtain ⟨a, ha⟩ := h6 hsmall
  have hδH : δ < H := by
    by_contra hc
    have : H * 2 ^ 54 ≤ δ * 2 ^ 54 := Nat.mul_le_mul_right _ (by omega)
    omega
  have hX : k * 2 ^ 53 = 2 * H * (a * k) := by rw [ha]; ring
  have hu : a * k = b + 1 := by
    rcases Nat.lt_trichotomy (a * k) (b + 1) with h | h | h
    · have : 2 * H * (a * k) ≤ 2 * H * b := Nat.mul_le_mul_left _ (by omega)
      omega
    · exact h
    · have : 2 * H * (b + 2) ≤ 2 * H * (a * k) := Nat.mul_le_mul_left _ (by omega)
      have e : 2 * H * (b + 2) = 2 * H * b + 4 * H := by ring
      omega
  have hXT : k * 2 ^ 53 = T + 2 * H := by
    rw [hX, hu, hb]; ring
  rw [h9 (by omega), hXT]

/-- A number of at most 53 digits times a power of two is a `double`. -/
theorem roundNat_exact (x j : Nat) (hx : x < 2 ^ 53) : F64.roundNat (x * 2 ^ j) = x * 2 ^ j := by
  by_cases hL : F32.bitLen (x * 2 ^ j) ≤ 53
  · unfold F64.roundNat
    rw [if_pos hL]
  · obtain ⟨H, T, rem, ⟨d, hd⟩, h1, h2, -, h3, h4, ⟨b, hb⟩, -, -, h8, -, -, -⟩ :=
      roundNat_cases _ hL
    have hlt : x * 2 ^ j < 2 ^ 53 * 2 ^ j := Nat.mul_lt_mul_of_pos_right hx (by positivity)
    have hHj : H < 2 ^ j := by
      by_contra hc
      have : 2 ^ j * 2 ^ 53 ≤ H * 2 ^ 53 := Nat.mul_le_mul_right _ (by omega)
      have e : 2 ^ 53 * 2 ^ j = 2 ^ j * 2 ^ 53 := Nat.mul_comm _ _
      omega
    have hdj : d + 1 ≤ j := by
      rw [hd] at hHj
      have := (Nat.pow_lt_pow_iff_right (by norm_num : 1 < 2)).mp hHj
      omega
    have hdvd : 2 * H ∣ x * 2 ^ j := by
      have : 2 * H = 2 ^ (d + 1) := by rw [hd, pow_succ]; ring
      rw [this]
      exact Dvd.dvd.mul_left (pow_dvd_pow 2 hdj) x
    have hrem : rem = 0 := by
      have hdr : 2 * H ∣ rem := by
        have h5 : 2 * H ∣ T := ⟨b, hb⟩
        rw [h3] at hdvd
        exact (Nat.dvd_add_right h5).mp hdvd
      exact Nat.eq_zero_of_dvd_of_lt hdr h4
    rw [h8 (by omega), h3, hrem]
    rfl

theorem fraction_values : P50 = 2 ^ 52 ∧ P95 = 8556839292003942 ∧ P99 = 8917127262193582 := by
  decide

/-- The index `size * 0.5` computed in `double` is `size / 2`. -/
theorem pctIndex_P50 (c : Nat) (hc : c < 2 ^ 53) : pctIndex c P50 = c / 2 := by
  unfold pctIndex
  have h1 : F64.roundNat c = c := by
    have := roundNat_exact c 0 hc
    simpa using this
  rw [h1, fraction_values.1, roundNat_exact c 52 hc]
  omega

/-- The index `size * 0.95` computed in `double` is `⌊size * 95 / 100⌋`. -/
theorem pctIndex_P95 (c : Nat) (hc : c < 2 ^ 45) : pctIndex c P95 = c * 95 / 100 := by
  unfold pctIndex
  have h1 : F64.roundNat c = c := by
    have := roundNat_exact c 0 (by omega)
    simpa using this
  rw [h1, fraction_values.2.1]
  by_cases hr : c * 95 % 100 = 0
  · by_cases hc0 : c = 0
    · subst hc0
      decide
    · have hn := roundNat_near (c * 8556839292003942) (c * 95 / 100) (c / 20 * 8)
        (by omega) (by omega) (by omega) (by omega) (by omega)
      rw [hn]
      omega
  · obtain ⟨ha, hb⟩ := roundNat_err (c * 8556839292003942) c (by omega)
    apply Nat.div_eq_of_lt_le <;> omega

/-- The index `size * 0.99` computed in `double` is `⌊size * 99 / 100⌋`. -/
theorem pctIndex_P99 (c : Nat) (hc : c < 2 ^ 45) : pctIndex c P99 = c * 99 / 100 := by
  unfold pctIndex
  have h1 : F64.roundNat c = c := by
    have := roundNat_exact c 0 (by omega)
    simpa using this
  rw [h1, fraction_values.2.2]
  by_cases hr : c * 99 % 100 = 0
  · by_cases hc0 : c = 0
    · subst hc0
      decide
    · have hn := roundNat_near (c * 8917127262193582) (c * 99 / 100) (c / 100 * 8)
        (by omega) (by omega) (by omega) (by omega) (by omega)
      rw [hn]
      omega
  · obtain ⟨ha, hb⟩ := roundNat_err (c * 8917127262193582) c (by omega)
    apply Nat.div_eq_of_lt_le <;> omega

namespace MetricsCollector

theorem sortedCopy_length {α : Type} [LinearOrder α] (values : List α) :
    (sortedCopy values).length = values.length :=
  List.length_insertionSort _ _

theorem sortedCopy_sorted {α : Type} [LinearOrder α] (values : List α) :
    (sortedCopy values).Sorted (· ≤ ·) :=
  List.sorted_insertionSort _ _

theorem sortedCopy_perm {α : Type} [LinearOrder α] (values : List α) :
    (sortedCopy values).Perm values :=
  List.perm_insertionSort _ _

set_option maxRecDepth 100000 in
/-- C10: for a non-empty stream of `count` samples, `print_summary` reports as `p50`, `p95`
and `p99` the elements of the ascending-sorted copy (a sorted permutation of the stream) at
the indices `⌊count / 2⌋`, `⌊count * 95 / 100⌋` and `⌊count * 99 / 100⌋`, single elements with no
interpolation, and `main` of the optimized query program reads the same three elements; for
the stream `1, 2, …, 100` these are 51 (index 50), 96 (index 95) and 100 (index 99). The count
is that of a vector held in memory (below `2^45`), for which the `double` products
`count * 0.95` and `count * 0.99` truncate to the exact quotients. -/
theorem C10_percentile_indices {α : Type} [LinearOrder α] (values : List α)
    (hne : values ≠ []) (hlen : values.length < 2 ^ 45) :
    (∃ s : Summary α, print_summary_entry values = some s ∧
      (sortedCopy values).Sorted (· ≤ ·) ∧ (sortedCopy values).Perm values ∧
      (sortedCopy values)[values.length / 2]? = some s.p50 ∧
      (sortedCopy values)[values.length * 95 / 100]? = some s.p95 ∧
      (sortedCopy values)[values.length * 99 / 100]? = some s.p99 ∧
      query_optimized.main_percentiles values = some (s.p50, s.p95, s.p99)) ∧
    print_summary_entry ((List.range 100).map (· + 1)) = some ⟨100, 1, 100, 51, 96, 100⟩ ∧
    (sortedCopy ((List.range 100).map (· + 1)))[50]? = some 51 ∧
    (sortedCopy ((List.range 100).map (· + 1)))[95]? = some 96 ∧
    (sortedCopy ((List.range 100).map (· + 1)))[99]? = some 100 := by
  have hs : sortedCopy ((List.range 100).map (· + 1)) = (List.range 100).map (· + 1) := by
    decide
  refine ⟨?_, by simp only [print_summary_entry, hs]; decide, by rw [hs]; decide,
    by rw [hs]; decide, by rw [hs]; decide⟩
  have hpos : 0 < values.length := List.length_pos.mpr hne
  have hsl := sortedCopy_length values
  have i50 : pctIndex (sortedCopy values).length P50 = values.length / 2 := by
    rw [hsl, pctIndex_P50 _ (by omega)]
  have i95 : pctIndex (sortedCopy values).length P95 = values.length * 95 / 100 := by
    rw [hsl, pctIndex_P95 _ hlen]
  have i99 : pctIndex (sortedCopy values).length P99 = values.length * 99 / 100 := by
    rw [hsl, pctIndex_P99 _ hlen]
  have b50 : values.length / 2 < (sortedCopy values).length := by omega
  have b95 : values.length * 95 / 100 < (sortedCopy values).length := by omega
  have b99 : values.length * 99 / 100 < (sortedCopy values).length := by omega
  obtain ⟨mx, hmx⟩ : ∃ mx, values.max? = some mx := by
    cases values with
    | nil => exact absurd rfl hne
    | cons a l => exact ⟨_, rfl⟩
  obtain ⟨mn, hmn⟩ : ∃ mn, values.min? = some mn := by
    cases values with
    | nil => exact absurd rfl hne
    | cons a l => exact ⟨_, rfl⟩
  have hemp : values.isEmpty = false := by
    cases values with
    | nil => exact absurd rfl hne
    | cons a l => rfl
  refine ⟨⟨values.length, mn, mx, (sortedCopy values)[values.length / 2],
    (sortedCopy values)[values.length * 95 / 100], (sortedCopy values)[values.length * 99 / 100]⟩,
    ?_, sortedCopy_sorted values, sortedCopy_perm values, List.getElem?_eq_getElem b50,
    List.getElem?_eq_getElem b95, List.getElem?_eq_getElem b99, ?_⟩
  · unfold print_summary_entry
    simp only [hemp, hmx, hmn, i50, i95, i99, List.getElem?_eq_getElem b50,
      List.getElem?_eq_getElem b95, List.getElem?_eq_getElem b99, Bool.false_eq_true, if_false,
      Option.bind_eq_bind, Option.some_bind, Option.pure_def, bind_pure_comp, Option.map_some']
  · unfold query_optimized.main_percentiles
    simp only [i50, i95, i99, List.getElem?_eq_getElem b50,
      List.getElem?_eq_getElem b95, List.getElem?_eq_getElem b99,
      Option.bind_eq_bind, Option.some_bind, Option.pure_def, bind_pure_comp, Option.map_some']

/-- Witness for C10: the stream `[30, 10, 20]` has percentiles 20, 30, 30 (indices 1, 2, 2
of the sorted copy `[10, 20, 30]`). -/
theorem C10_percentile_indices_witness :
    print_summary_entry [30, 10, 20] = some ⟨3, 10, 30, 20, 30, 30⟩ ∧
    ∃ s : Summary Nat, print_summary_entry [30, 10, 20] = some s ∧
      (sortedCopy [30, 10, 20])[3 / 2]? = some s.p50 :=
  ⟨by decide,
   (C10_percentile_indices [30, 10, 20] (by decide) (by decide)).1.elim
     (fun s hs => ⟨s, hs.1, hs.2.2.2.1⟩)⟩

end MetricsCollector

/-! ## C11: order of the percentiles -/

namespace MetricsCollector

/-- The three reads of the sorted copy of a non-empty stream are in range and ascending. -/
theorem sorted_reads {α : Type} [LinearOrder α] (values : List α)
    (hne : values ≠ []) (hlen : values.length < 2 ^ 45) :
    ∃ a b c, (sortedCopy values)[pctIndex values.length P50]? = some a ∧
      (sortedCopy values)[pctIndex values.length P95]? = some b ∧
      (sortedCopy values)[pctIndex values.length P99]? = some c ∧ a ≤ b ∧ b ≤ c := by
  have hpos : 0 < values.length := List.length_pos.mpr hne
  have hsl := sortedCopy_length values
  rw [pctIndex_P50 _ (by omega), pctIndex_P95 _ hlen, pctIndex_P99 _ hlen]
  have b50 : values.length / 2 < (sortedCopy values).length := by omega
  have b95 : values.length * 95 / 100 < (sortedCopy values).length := by omega
  have b99 : values.length * 99 / 100 < (sortedCopy values).length := by omega
  refine ⟨_, _, _, List.getElem?_eq_getElem b50, List.getElem?_eq_getElem b95,
    List.getElem?_eq_getElem b99, ?_, ?_⟩
  · exact (sortedCopy_sorted values).rel_get_of_le
      (a := ⟨values.length / 2, b50⟩) (b := ⟨values.length * 95 / 100, b95⟩)
      (by simp only [Fin.mk_le_mk]; omega)
  · exact (sortedCopy_sorted values).rel_get_of_le
      (a := ⟨values.length * 95 / 100, b95⟩) (b := ⟨values.length * 99 / 100, b99⟩)
      (by simp only [Fin.mk_le_mk]; omega)

/-- C11: for every non-empty sample stream (of a length a vector in memory can have), the
percentiles computed by `print_summary`, and those computed by `main` of the basic and of the
optimized query program, satisfy `p50 ≤ p95 ≤ p99`. -/
theorem C11_percentiles_ordered {α : Type} [LinearOrder α] (values : List α)
    (hne : values ≠ []) (hlen : values.length < 2 ^ 45) :
    (∃ s : Summary α, print_summary_entry values = some s ∧ s.p50 ≤ s.p95 ∧ s.p95 ≤ s.p99) ∧
    (∃ p50 p95 p99 : α, hnsw_query_basic.main_percentiles values = some (p50, p95, p99) ∧
      p50 ≤ p95 ∧ p95 ≤ p99) ∧
    (∃ p50 p95 p99 : α, query_optimized.main_percentiles values = some (p50, p95, p99) ∧
      p50 ≤ p95 ∧ p95 ≤ p99) := by
  obtain ⟨a, b, c, ha, hb, hc, hab, hbc⟩ := sorted_reads values hne hlen
  have hsl := sortedCopy_length values
  obtain ⟨mx, hmx⟩ : ∃ mx, values.max? = some mx := by
    cases values with
    | nil => exact absurd rfl hne
    | cons x l => exact ⟨_, rfl⟩
  obtain ⟨mn, hmn⟩ : ∃ mn, values.min? = some mn := by
    cases values with
    | nil => exact absurd rfl hne
    | cons x l => exact ⟨_, rfl⟩
  have hemp : values.isEmpty = false := by
    cases values with
    | nil => exact absurd rfl hne
    | cons x l => rfl
  refine ⟨⟨⟨values.length, mn, mx, a, b, c⟩, ?_, hab, hbc⟩, ⟨a, b, c, ?_, hab, hbc⟩,
    ⟨a, b, c, ?_, hab, hbc⟩⟩
  · unfold print_summary_entry
    simp only [hemp, hmx, hmn, hsl, ha, hb, hc, Bool.false_eq_true, if_false,
      Option.bind_eq_bind, Option.some_bind, Option.pure_def, bind_pure_comp, Option.map_some']
  · unfold hnsw_query_basic.main_percentiles
    simp only [ha, hb, hc, Option.bind_eq_bind, Option.some_bind, Option.pure_def,
      bind_pure_comp, Option.map_some']
  · unfold query_optimized.main_percentiles
    simp only [hsl, ha, hb, hc, Option.bind_eq_bind, Option.some_bind, Option.pure_def,
      bind_pure_comp, Option.map_some']

/-- Witness for C11: the stream `[30, 10, 20]` has `p50 = 20 ≤ p95 = 30 ≤ p99 = 30`. -/
theorem C11_percentiles_ordered_witness :
    print_summary_entry [30, 10, 20] = some ⟨3, 10, 30, 20, 30, 30⟩ ∧
    ∃ s : Summary Nat, print_summary_entry [30, 10, 20] = some s ∧ s.p50 ≤ s.p95 ∧
      s.p95 ≤ s.p99 :=
  ⟨by decide, (C11_percentiles_ordered [30, 10, 20] (by decide) (by decide)).1⟩

end MetricsCollector

/-! ## C12 - C14: the map of streams and the CSV export -/

namespace MetricsCollector

theorem record_keys {α : Type} (m : Metrics α) (metric : Str) (value : α) (k : Str) :
    k ∈ (record m metric value).map Prod.fst ↔ k = metric ∨ k ∈ m.map Prod.fst := by
  induction m with
  | nil => simp [record]
  | cons e rest ih =>
    obtain ⟨k0, vs⟩ := e
    unfold record
    split_ifs with h1 h2
    · simp
    · subst h2; simp
    · simp only [List.map_cons, List.mem_cons, ih]; tauto

theorem record_sorted {α : Type} (m : Metrics α) (metric : Str) (value : α)
    (hm : KeysSorted m) : KeysSorted (record m metric value) := by
  induction m with
  | nil => simp [record, KeysSorted]
  | cons e rest ih =>
    obtain ⟨k0, vs⟩ := e
    unfold KeysSorted at hm ⊢
    simp only [List.map_cons, List.sorted_cons] at hm
    unfold record
    split_ifs with h1 h2
    · simp only [List.map_cons, List.sorted_cons, List.mem_cons]
      refine ⟨?_, hm⟩
      rintro b (rfl | hb)
      · exact h1
      · exact lt_trans h1 (hm.1 b hb)
    · simpa only [List.map_cons, List.sorted_cons] using hm
    · simp only [List.map_cons, List.sorted_cons]
      refine ⟨?_, ih hm.2⟩
      intro b hb
      rcases (record_keys rest metric value b).mp hb with rfl | hb
      · exact lt_of_le_of_ne (not_lt.mp h1) (Ne.symm h2)
      · exact hm.1 b hb

theorem get_metric_of_not_mem {α : Type} (m : Metrics α) (metric : Str)
    (h : metric ∉ m.map Prod.fst) : get_metric m metric = [] := by
  induction m with
  | nil => rfl
  | cons e rest ih =>
    obtain ⟨k0, vs⟩ := e
    simp only [List.map_cons, List.mem_cons, not_or] at h
    simp only [get_metric, if_neg (Ne.symm h.1), ih h.2]

theorem get_metric_record {α : Type} (m : Metrics α) (metric : Str) (value : α) (k : Str)
    (hm : KeysSorted m) :
    get_metric (record m metric value) k =
      if k = metric then get_metric m metric ++ [value] else get_metric m k := by
  induction m with
  | nil =>
    by_cases hk : k = metric
    · simp [record, get_metric, hk]
    · simp [record, get_metric, hk, Ne.symm hk]
  | cons e rest ih =>
    obtain ⟨k0, vs⟩ := e
    unfold KeysSorted at hm
    simp only [List.map_cons, List.sorted_cons] at hm
    unfold record
    split_ifs with h1 h2 h3 h4 h5
    · subst h2
      have hnot : k ∉ ((k0, vs) :: rest).map Prod.fst := by
        simp only [List.map_cons, List.mem_cons, not_or]
        exact ⟨ne_of_lt h1, fun hb => lt_asymm h1 (hm.1 k hb)⟩
      rw [get_metric_of_not_mem _ _ hnot]
      simp [get_metric]
    · simp [get_metric, Ne.symm h2]
    · subst h4; subst h3; simp [get_metric]
    · subst h3; simp [get_metric, Ne.symm h4]
    · subst h5
      have : k0 ≠ k := Ne.symm h3
      simp [get_metric, this, ih hm.2]
    · simp only [get_metric, ih hm.2, if_neg h5]

theorem recordAll_snoc {α : Type} (calls : List (Str × α)) (c : Str × α) :
    recordAll (calls ++ [c]) = record (recordAll calls) c.1 c.2 := by
  simp [recordAll, List.foldl_append]

theorem recordAll_sorted {α : Type} (calls : List (Str × α)) : KeysSorted (recordAll calls) := by
  induction calls using List.reverseRecOn with
  | nil => simp [recordAll, KeysSorted]
  | append_singleton l c ih => rw [recordAll_snoc]; exact record_sorted _ _ _ ih

theorem recordAll_keys {α : Type} (calls : List (Str × α)) (k : Str) :
    k ∈ (recordAll calls).map Prod.fst ↔ k ∈ calls.map Prod.fst := by
  induction calls using List.reverseRecOn with
  | nil => simp [recordAll]
  | append_singleton l c ih =>
    rw [recordAll_snoc, record_keys, ih]
    simp only [List.map_append, List.map_cons, List.map_nil, List.mem_append, List.mem_singleton]
    tauto

end MetricsCollector

namespace MetricsCollector

theorem get_metric_of_mem {α : Type} (m : Metrics α) (hm : KeysSorted m) :
    ∀ e ∈ m, get_metric m e.1 = e.2 := by
  induction m with
  | nil => intro e he; cases he
  | cons e0 rest ih =>
    obtain ⟨k0, vs⟩ := e0
    unfold KeysSorted at hm
    simp only [List.map_cons, List.sorted_cons] at hm
    intro e he
    rcases List.mem_cons.mp he with rfl | he
    · simp [get_metric]
    · have hlt : k0 < e.1 := hm.1 e.1 (List.mem_map_of_mem Prod.fst he)
      simp only [get_metric, if_neg (ne_of_lt hlt)]
      exact ih hm.2 e he

theorem max_points_foldl {α : Type} (m : Metrics α) : ∀ a : Nat,
    a ≤ m.foldl (fun mp e => if e.2.length > mp then e.2.length else mp) a ∧
    (∀ e ∈ m, e.2.length ≤ m.foldl (fun mp e => if e.2.length > mp then e.2.length else mp) a) ∧
    (m.foldl (fun mp e => if e.2.length > mp then e.2.length else mp) a = a ∨
      ∃ e ∈ m, e.2.length = m.foldl (fun mp e => if e.2.length > mp then e.2.length else mp) a) := by
  induction m with
  | nil => intro a; simp
  | cons e0 rest ih =>
    intro a
    simp only [List.foldl_cons, List.mem_cons, forall_eq_or_imp, exists_eq_or_imp]
    by_cases hc : e0.2.length > a
    · simp only [if_pos hc]
      obtain ⟨h1, h2, h3⟩ := ih e0.2.length
      refine ⟨by omega, ⟨h1, h2⟩, ?_⟩
      rcases h3 with h3 | h3
      · right; left; exact h3.symm
      · right; right; exact h3
    · simp only [if_neg hc]
      obtain ⟨h1, h2, h3⟩ := ih a
      refine ⟨h1, ⟨by omega, h2⟩, ?_⟩
      rcases h3 with h3 | h3
      · left; exact h3
      · right; right; exact h3

theorem max_points_spec {α : Type} (m : Metrics α) :
    (∀ e ∈ m, e.2.length ≤ max_points m) ∧
    ((m = [] ∧ max_points m = 0) ∨ ∃ e ∈ m, e.2.length = max_points m) := by
  obtain ⟨_, h2, h3⟩ := max_points_foldl m 0
  refine ⟨h2, ?_⟩
  rcases h3 with h3 | h3
  · cases m with
    | nil => left; exact ⟨rfl, rfl⟩
    | cons e0 rest =>
      right
      refine ⟨e0, List.mem_cons_self _ _, ?_⟩
      have := h2 e0 (List.mem_cons_self _ _)
      unfold max_points
      omega
  · right; exact h3

theorem field_eq {α : Type} [Zero α] (vs : List α) (i : Nat) :
    (if i < vs.length then vs.getD i 0 else 0) =
      (if h : i < vs.length then vs.get ⟨i, h⟩ else 0) := by
  by_cases h : i < vs.length
  · simp [h, List.getD_eq_getElem?_getD, List.getElem?_eq_getElem h]
  · simp [h]

/-- C12 (as the code has it): when the output file opens, `save_to_csv` writes the header
row and then exactly `M` data rows, `M` being the length of the longest stream (`0` for a
collector without streams); data row `i` is the row index `i` followed by exactly one field
per stream, in map order, the field for stream `s` being `s[i]` when `i < length(s)` and the
padding value `0.0` otherwise. -/
theorem C12_csv_rows {α : Type} [Zero α] (m : Metrics α) :
    ∃ rows : List (List (Cell α)), save_to_csv true m = some (header m :: rows) ∧
      rows.length = max_points m ∧
      (∀ e ∈ m, e.2.length ≤ max_points m) ∧
      ((m = [] ∧ max_points m = 0) ∨ ∃ e ∈ m, e.2.length = max_points m) ∧
      ∀ i, i < max_points m → ∃ fields : List (Cell α),
        rows[i]? = some (Cell.index i :: fields) ∧ fields.length = m.length ∧
        ∀ (j : Nat) (hj : j < m.length), fields[j]? = some (Cell.value
          (if h : i < (m.get ⟨j, hj⟩).2.length then (m.get ⟨j, hj⟩).2.get ⟨i, h⟩ else 0)) := by
  refine ⟨(List.range (max_points m)).map (data_row m), by simp [save_to_csv], by simp,
    (max_points_spec m).1, (max_points_spec m).2, ?_⟩
  intro i hi
  refine ⟨m.map (fun e => Cell.value (if i < e.2.length then e.2.getD i 0 else 0)), ?_,
    by simp, ?_⟩
  · rw [List.getElem?_map, List.getElem?_range hi]
    rfl
  · intro j hj
    rw [List.getElem?_map, List.getElem?_eq_getElem hj, Option.map_some', field_eq]
    rfl

/-- Witness for C12: the collector with streams `a = [1, 2]` and `b = [5]` gets two data
rows. -/
theorem C12_csv_rows_witness :
    ∃ rows : List (List (Cell Nat)),
      save_to_csv true [("a".toList, [1, 2]), ("b".toList, [5])] =
        some (header [("a".toList, [1, 2]), ("b".toList, [5])] :: rows) ∧ rows.length = 2 := by
  obtain ⟨rows, h1, h2, _⟩ := C12_csv_rows ([("a".toList, [1, 2]), ("b".toList, [5])] : Metrics Nat)
  exact ⟨rows, h1, h2.trans (by decide)⟩

/-- C12, counterexample to the claim as worded: for the streams `a = [1, 2]` and `b = [5]`
the data rows are `0,1,5` and `1,2,<0.0>`: each begins with the row index, so a row has one
field more than there are streams and the first row is not `1,5`. -/
theorem C12_rows_counterexample :
    save_to_csv true (recordAll [("a".toList, 1), ("a".toList, 2), ("b".toList, 5)] :
        Metrics Nat) =
      some [[Cell.text "timestamp".toList, Cell.text "a".toList, Cell.text "b".toList],
            [Cell.index 0, Cell.value 1, Cell.value 5],
            [Cell.index 1, Cell.value 2, Cell.value 0]] ∧
    data_row (recordAll [("a".toList, 1), ("a".toList, 2), ("b".toList, 5)] : Metrics Nat) 0 ≠
      [Cell.value 1, Cell.value 5] ∧
    (data_row (recordAll [("a".toList, 1), ("a".toList, 2), ("b".toList, 5)] :
        Metrics Nat) 0).length = 3 ∧
    ∀ fmt : Nat → Str, renderRow fmt [Cell.index 0, Cell.value 1, Cell.value 5] =
      '0' :: ',' :: (fmt 1 ++ ',' :: (fmt 5 ++ ['\n'])) := by
  refine ⟨by decide, by decide, by decide, ?_⟩
  intro fmt
  simp [renderRow, Nat.repr, Nat.toDigits, Nat.toDigitsCore, Nat.digitChar, List.asString]

/-- C13 (as the code has it): after any sequence of `record` calls the header row is
`timestamp` followed by the recorded stream names in strictly ascending (lexicographic)
order, each name once, whatever the order of the calls; the fields of every data row follow
the row index in the same order, the field under name `k` being taken from stream `k`. -/
theorem C13_header_key_order {α : Type} [Zero α] (calls : List (Str × α)) :
    ∃ names : List Str, names.Sorted (· < ·) ∧ (∀ k, k ∈ names ↔ k ∈ calls.map Prod.fst) ∧
      header (recordAll calls) = Cell.text "timestamp".toList :: names.map Cell.text ∧
      ∀ i, data_row (recordAll calls) i = Cell.index i ::
        names.map (fun k => Cell.value ((get_metric (recordAll calls) k).getD i 0)) := by
  refine ⟨(recordAll calls).map Prod.fst, recordAll_sorted calls, recordAll_keys calls,
    by simp [header], ?_⟩
  intro i
  simp only [data_row, List.map_map, List.cons.injEq, true_and]
  apply List.map_congr_left
  intro e he
  simp only [Function.comp_apply, get_metric_of_mem _ (recordAll_sorted calls) e he]
  congr 1
  by_cases h : i < e.2.length
  · simp [h]
  · rw [if_neg h, List.getD_eq_default _ _ (not_lt.mp h)]

/-- Witness for C13: recording `b` and then `a` gives the header `timestamp,a,b`. -/
theorem C13_header_key_order_witness :
    ∃ names : List Str, names.Sorted (· < ·) ∧
      header (recordAll [("b".toList, (1 : Nat)), ("a".toList, 2)]) =
        Cell.text "timestamp".toList :: names.map Cell.text := by
  obtain ⟨names, h1, _, h3, _⟩ := C13_header_key_order [("b".toList, (1 : Nat)), ("a".toList, 2)]
  exact ⟨names, h1, h3⟩

/-- C13, counterexample to the claim as worded: recording `b` and then `a` yields a header
that lists `a` before `b`, which is not the order of first recording. -/
theorem C13_first_recorded_counterexample :
    header (recordAll [("b".toList, (1 : Nat)), ("a".toList, 2)]) =
      [Cell.text "timestamp".toList, Cell.text "a".toList, Cell.text "b".toList] ∧
    firstRecorded [("b".toList, (1 : Nat)), ("a".toList, 2)] = ["b".toList, "a".toList] ∧
    header (recordAll [("b".toList, (1 : Nat)), ("a".toList, 2)]) ≠
      Cell.text "timestamp".toList ::
        (firstRecorded [("b".toList, (1 : Nat)), ("a".toList, 2)]).map Cell.text := by
  refine ⟨by decide, by decide, by decide⟩

theorem get_metric_recordAll {α : Type} (calls : List (Str × α)) (name : Str) :
    get_metric (recordAll calls) name =
      (calls.filter (fun c => decide (c.1 = name))).map Prod.snd := by
  induction calls using List.reverseRecOn with
  | nil => rfl
  | append_singleton l c ih =>
    rw [recordAll_snoc, get_metric_record _ _ _ _ (recordAll_sorted l), List.filter_append,
      List.map_append]
    by_cases h : name = c.1
    · subst h
      simp [ih]
    · simp [h, Ne.symm h, ih]

/-- C14: for every collector state (the state after any sequence of `record` calls), name
and value `v`: after `record(name, v)`, `get_metric(name)` is the previous `get_metric(name)`
with `v` appended at the end, `get_metric(m)` is unchanged for every other name `m`, the
stream of a name that was never recorded is empty, and in general `get_metric(name)` is the
sequence of the values recorded under `name`, in call order. -/
theorem C14_record_get_metric {α : Type} (calls : List (Str × α)) (name : Str) (v : α) :
    get_metric (record (recordAll calls) name v) name = get_metric (recordAll calls) name ++ [v] ∧
    (∀ other : Str, other ≠ name →
      get_metric (record (recordAll calls) name v) other = get_metric (recordAll calls) other) ∧
    (name ∉ calls.map Prod.fst → get_metric (recordAll calls) name = []) ∧
    get_metric (recordAll calls) name =
      (calls.filter (fun c => decide (c.1 = name))).map Prod.snd := by
  refine ⟨?_, ?_, ?_, get_metric_recordAll calls name⟩
  · rw [get_metric_record _ _ _ _ (recordAll_sorted calls), if_pos rfl]
  · intro other h
    rw [get_metric_record _ _ _ _ (recordAll_sorted calls), if_neg h]
  · intro h
    exact get_metric_of_not_mem _ _ (fun hk => h ((recordAll_keys calls name).mp hk))

/-- Witness for C14: after `b: 1`, `a: 2`, `b: 3`, recording `b: 4` gives `b = [1, 3, 4]`,
leaves `a = [2]`, and the unrecorded `c` is empty. -/
theorem C14_record_get_metric_witness :
    get_metric (record (recordAll [("b".toList, 1), ("a".toList, 2), ("b".toList, 3)])
      "b".toList 4) "b".toList = [1, 3, 4] ∧
    get_metric (record (recordAll [("b".toList, 1), ("a".toList, 2), ("b".toList, 3)])
      "b".toList 4) "a".toList = [2] ∧
    get_metric (recordAll [("b".toList, 1), ("a".toList, 2), ("b".toList, 3)]) "c".toList
      = ([] : List Nat) :=
  ⟨(C14_record_get_metric [("b".toList, 1), ("a".toList, 2), ("b".toList, 3)]
      "b".toList 4).1.trans (by decide),
   ((C14_record_get_metric [("b".toList, 1), ("a".toList, 2), ("b".toList, 3)]
      "b".toList 4).2.1 "a".toList (by decide)).trans (by decide),
   (C14_record_get_metric [("b".toList, 1), ("a".toList, 2), ("b".toList, 3)]
      "c".toList 0).2.2.1 (by decide)⟩

end MetricsCollector

/-! ## The executor never changes the sizes of its outputs -/

namespace query_optimized

end query_optimized

/-! ## C16: a count mismatch stops the build programs -/

theorem load_embeddings_mmap_count (env : FileEnv) (n0 : Nat) (dim : Int)
    (embeddings : List Word) (hdim : 1 ≤ dim) (hint : dim < 2 ^ 31)
    (hsz : env.bytes.length < 2 ^ 64)
    (h : (build_optimized.load_embeddings_mmap env n0 dim).out = .ok embeddings) :
    embeddings.length = (build_optimized.load_embeddings_mmap env n0 dim).n * dim.toNat := by
  have hd : 1 ≤ dim.toNat := by omega
  have hd2 : dim.toNat < 2 ^ 31 := by omega
  have hTs : toSize dim = dim.toNat := toSize_of_int_range dim hdim hint
  have hw : mulSize 4 (toSize dim) = 4 * dim.toNat := by
    rw [hTs, mulSize_of_lt _ _ (by omega)]
  have hle : env.bytes.length / (4 * dim.toNat) * dim.toNat < 2 ^ 64 := by
    have h1 : env.bytes.length / (4 * dim.toNat) * (4 * dim.toNat) ≤ env.bytes.length :=
      Nat.div_mul_le_self _ _
    have h2 : env.bytes.length / (4 * dim.toNat) * (4 * dim.toNat)
        = 4 * (env.bytes.length / (4 * dim.toNat) * dim.toNat) := by ring
    omega
  unfold build_optimized.load_embeddings_mmap at h ⊢
  simp only [hw] at h ⊢
  cases hc : copyInto (zeroStorage 4 (mulSize (env.bytes.length / (4 * dim.toNat))
      (toSize dim))) env.bytes env.bytes.length with
  | error f =>
    simp only [hc] at h
    split_ifs at h
  | ok storage =>
    simp only [hc] at h ⊢
    split_ifs at h ⊢
    cases h
    rw [words_length, hTs, mulSize_of_lt _ _ hle]

theorem load_ids_mmap_count (env : FileEnv) (n0 : Nat) (ids : List Word)
    (h : (build_optimized.load_ids_mmap env n0).out = .ok ids) :
    ids.length = (build_optimized.load_ids_mmap env n0).n := by
  simp only [build_optimized.load_ids_mmap] at h ⊢
  cases hc : copyInto (zeroStorage 8 (env.bytes.length / 8)) env.bytes env.bytes.length with
  | error f =>
    simp only [hc] at h
    split_ifs at h
  | ok storage =>
    simp only [hc] at h ⊢
    split_ifs at h ⊢
    cases h
    rw [words_length]

theorem build_optimized_main_cases (emb_env ids_env : FileEnv) (n_emb0 n_ids0 : Nat) (dim : Int)
    (space_type : String) (floatVal : Word → F32) (idVal : Word → Nat) :
    (∃ e, build_optimized.main emb_env ids_env n_emb0 n_ids0 dim space_type floatVal idVal
      = BuildOutcome.failed e) ∨
    ∃ embeddings ids,
      (build_optimized.load_embeddings_mmap emb_env n_emb0 dim).out = .ok embeddings ∧
      (build_optimized.load_ids_mmap ids_env n_ids0).out = .ok ids ∧
      (build_optimized.load_embeddings_mmap emb_env n_emb0 dim).n
        = (build_optimized.load_ids_mmap ids_env n_ids0).n ∧
      build_optimized.main emb_env ids_env n_emb0 n_ids0 dim space_type floatVal idVal =
        ⟨.ok (), some (build_optimized.main_space space_type),
         some (build_optimized.main_preprocess space_type (embeddings.map floatVal) dim),
         (build_optimized.build_with_prefetch
           (build_optimized.main_preprocess space_type (embeddings.map floatVal) dim)
           (ids.map idVal) dim).inserts, true⟩ := by
  unfold build_optimized.main
  simp only
  cases he : (build_optimized.load_embeddings_mmap emb_env n_emb0 dim).out with
  | error f => left; exact ⟨_, rfl⟩
  | ok embeddings =>
    cases hi : (build_optimized.load_ids_mmap ids_env n_ids0).out with
    | error f => left; exact ⟨_, rfl⟩
    | ok ids =>
      simp only
      by_cases hn : (build_optimized.load_embeddings_mmap emb_env n_emb0 dim).n
          = (build_optimized.load_ids_mmap ids_env n_ids0).n
      · right
        refine ⟨embeddings, ids, rfl, rfl, hn, ?_⟩
        rw [if_neg (not_not.mpr hn)]
      · left
        rw [if_pos hn]
        exact ⟨_, rfl⟩

theorem basic_main_cases (emb_env ids_env : FileEnv) (dim : Int)
    (floatVal : Word → F32) (idVal : Word → Nat) :
    (∃ e, hnswn_build_basic.main emb_env ids_env dim floatVal idVal = BuildOutcome.failed e) ∨
    ∃ embeddings ids,
      hnswn_build_basic.load_fvec emb_env = .ok embeddings ∧
      hnswn_build_basic.load_u64 ids_env = .ok ids ∧
      hnswn_build_basic.main_count embeddings.length dim = .ok ids.length ∧
      hnswn_build_basic.main emb_env ids_env dim floatVal idVal =
        ⟨.ok (), some Space.L2, some (embeddings.map floatVal),
         (hnswn_build_basic.insert_loop (embeddings.map floatVal) (ids.map idVal) dim).inserts,
         true⟩ := by
  unfold hnswn_build_basic.main
  cases he : hnswn_build_basic.load_fvec emb_env with
  | error f => left; exact ⟨_, rfl⟩
  | ok embeddings =>
    cases hi : hnswn_build_basic.load_u64 ids_env with
    | error f => left; exact ⟨_, rfl⟩
    | ok ids =>
      simp only
      cases hc : hnswn_build_basic.main_count embeddings.length dim with
      | error e => left; exact ⟨_, rfl⟩
      | ok N =>
        simp only
        by_cases hn : ids.length = N
        · right
          subst hn
          refine ⟨embeddings, ids, rfl, rfl, hc, ?_⟩
          rw [if_neg (not_not.mpr rfl)]
        · left
          rw [if_pos hn]
          exact ⟨_, rfl⟩

theorem basic_main_count_ok (size : Nat) (dim : Int) (N : Nat)
    (hdim : 1 ≤ dim) (hint : dim < 2 ^ 31)
    (h : hnswn_build_basic.main_count size dim = .ok N) :
    size % dim.toNat = 0 ∧ N = size / dim.toNat := by
  have hTs : toSize dim = dim.toNat := toSize_of_int_range dim hdim hint
  unfold hnswn_build_basic.main_count at h
  rw [hTs] at h
  split_ifs at h with h1 h2
  · cases h
    exact ⟨not_not.mp h2, rfl⟩

/-- C16: in both build programs, for every pair of a vector file and an id file that the
loaders load, if the vector count (floats div `dim`) differs from the id count, `main` ends
with an error, no `addPoint` call has been made and `saveIndex` has not been called; whenever
an insert call is made or the index is saved, the two counts are equal (and the program then
makes one insert call per identifier). -/
theorem C16_count_mismatch_fatal (emb_env ids_env : FileEnv) (n_emb0 n_ids0 : Nat) (dim : Int)
    (space_type : String) (floatVal : Word → F32) (idVal : Word → Nat)
    (hdim : 1 ≤ dim) (hint : dim < 2 ^ 31) (hsz : emb_env.bytes.length < 2 ^ 64) :
    (∀ embeddings ids,
      (build_optimized.load_embeddings_mmap emb_env n_emb0 dim).out = .ok embeddings →
      (build_optimized.load_ids_mmap ids_env n_ids0).out = .ok ids →
      (embeddings.length / dim.toNat ≠ ids.length →
        (build_optimized.main emb_env ids_env n_emb0 n_ids0 dim space_type floatVal
          idVal).result = .error .countMismatch ∧
        (build_optimized.main emb_env ids_env n_emb0 n_ids0 dim space_type floatVal
          idVal).inserts = [] ∧
        (build_optimized.main emb_env ids_env n_emb0 n_ids0 dim space_type floatVal
          idVal).saved = false) ∧
      (((build_optimized.main emb_env ids_env n_emb0 n_ids0 dim space_type floatVal
          idVal).inserts ≠ [] ∨
        (build_optimized.main emb_env ids_env n_emb0 n_ids0 dim space_type floatVal
          idVal).saved = true) →
        embeddings.length / dim.toNat = ids.length ∧
        (build_optimized.main emb_env ids_env n_emb0 n_ids0 dim space_type floatVal
          idVal).inserts.length = ids.length)) ∧
    (∀ embeddings ids,
      hnswn_build_basic.load_fvec emb_env = .ok embeddings →
      hnswn_build_basic.load_u64 ids_env = .ok ids →
      (embeddings.length / dim.toNat ≠ ids.length →
        (∃ e, (hnswn_build_basic.main emb_env ids_env dim floatVal idVal).result = .error e) ∧
        (hnswn_build_basic.main emb_env ids_env dim floatVal idVal).inserts = [] ∧
        (hnswn_build_basic.main emb_env ids_env dim floatVal idVal).saved = false) ∧
      (((hnswn_build_basic.main emb_env ids_env dim floatVal idVal).inserts ≠ [] ∨
        (hnswn_build_basic.main emb_env ids_env dim floatVal idVal).saved = true) →
        embeddings.length / dim.toNat = ids.length ∧
        (hnswn_build_basic.main emb_env ids_env dim floatVal idVal).inserts.length
          = ids.length)) := by
  have hd : 1 ≤ dim.toNat := by omega
  have hTs : toSize dim = dim.toNat := toSize_of_int_range dim hdim hint
  refine ⟨?_, ?_⟩
  · intro embeddings ids he hi
    have hce := load_embeddings_mmap_count emb_env n_emb0 dim embeddings hdim hint hsz he
    have hci := load_ids_mmap_count ids_env n_ids0 ids hi
    have hcnt : embeddings.length / dim.toNat
        = (build_optimized.load_embeddings_mmap emb_env n_emb0 dim).n := by
      rw [hce]; exact Nat.mul_div_cancel _ (by omega)
    rcases build_optimized_main_cases emb_env ids_env n_emb0 n_ids0 dim space_type floatVal
      idVal with ⟨e, hm⟩ | ⟨embeddings2, ids2, he2, hi2, hn, hm⟩
    · refine ⟨?_, ?_⟩
      · intro hne
        have hne2 : (build_optimized.load_embeddings_mmap emb_env n_emb0 dim).n
            ≠ (build_optimized.load_ids_mmap ids_env n_ids0).n := by
          rw [← hcnt, ← hci]; exact hne
        refine ⟨?_, by rw [hm]; rfl, by rw [hm]; rfl⟩
        unfold build_optimized.main
        simp only [he, hi, if_pos hne2]
        rfl
      · rw [hm]
        rintro (h | h)
        · exact absurd rfl h
        · cases h
    · rw [he] at he2
      rw [hi] at hi2
      cases he2
      cases hi2
      have heq : embeddings.length / dim.toNat = ids.length := by rw [hcnt, hn, hci]
      refine ⟨fun hne => absurd heq hne, fun _ => ⟨heq, ?_⟩⟩
      rw [hm]
      simp only [build_with_prefetch_inserts, List.length_map, List.length_range]
  · intro embeddings ids he hi
    rcases basic_main_cases emb_env ids_env dim floatVal idVal with
      ⟨e, hm⟩ | ⟨embeddings2, ids2, he2, hi2, hc, hm⟩
    · refine ⟨fun _ => ⟨⟨e, by rw [hm]; rfl⟩, by rw [hm]; rfl, by rw [hm]; rfl⟩, ?_⟩
      rw [hm]
      rintro (h | h)
      · exact absurd rfl h
      · cases h
    · rw [he] at he2
      rw [hi] at hi2
      cases he2
      cases hi2
      have heq := (basic_main_count_ok _ dim _ hdim hint hc).2.symm
      refine ⟨fun hne => absurd heq hne, fun _ => ⟨heq, ?_⟩⟩
      rw [hm]
      simp only [insert_loop_inserts, List.length_map, List.length_range, hTs]
      exact heq

/-- Witness for C16: a vector file of two floats with `dim = 1` and an id file of one
identifier: both programs stop with an error and insert nothing. -/
theorem C16_count_mismatch_fatal_witness :
    (build_optimized.main ⟨true, true, true, [0, 0, 0, 0, 0, 0, 0, 0]⟩
      ⟨true, true, true, [7, 0, 0, 0, 0, 0, 0, 0]⟩ 0 0 1 "l2" (fun _ => F32.zero)
      (fun w => w.headD 0)).result = .error .countMismatch ∧
    (hnswn_build_basic.main ⟨true, true, true, [0, 0, 0, 0, 0, 0, 0, 0]⟩
      ⟨true, true, true, [7, 0, 0, 0, 0, 0, 0, 0]⟩ 1 (fun _ => F32.zero)
      (fun w => w.headD 0)).inserts = [] := by
  have h := C16_count_mismatch_fatal ⟨true, true, true, [0, 0, 0, 0, 0, 0, 0, 0]⟩
    ⟨true, true, true, [7, 0, 0, 0, 0, 0, 0, 0]⟩ 0 0 1 "l2" (fun _ => F32.zero)
    (fun w => w.headD 0) (by decide) (by decide) (by decide)
  exact ⟨((h.1 [[0, 0, 0, 0], [0, 0, 0, 0]] [[7, 0, 0, 0, 0, 0, 0, 0]] (by decide)
      (by decide)).1 (by decide)).1,
    ((h.2 [[0, 0, 0, 0], [0, 0, 0, 0]] [[7, 0, 0, 0, 0, 0, 0, 0]] (by decide)
      (by decide)).1 (by decide)).2.1⟩

/-! ## C17: the values of the shared work cursor -/

namespace query_optimized

theorem worker_step_counter (n : Nat) (query_ids : List Nat) (s : RunState) (ev : Nat × Nat) :
    (worker_step n query_ids s ev).counter = s.counter ∨
    (worker_step n query_ids s ev).counter = addSize s.counter 1 := by
  unfold worker_step
  simp only
  cases h : s.pcs[ev.1]? with
  | none => left; rfl
  | some pc => cases pc <;> simp

theorem inv_counter_le (n T base : Nat) (query_ids : List Nat) (s : RunState)
    (h : Inv n T base query_ids s) :
    s.counter ≤ n + T ∧
    ∀ i, i ∈ s.log.map Prod.snd ∨ i ∈ inflight s.pcs → i < n := by
  obtain ⟨hp, -, -, -, hperm, hcnt, -, -⟩ := h
  have hc := List.count_le_length (a := WorkerPC.exited) (l := s.pcs)
  refine ⟨by omega, ?_⟩
  intro i hi
  have hmem : i ∈ s.log.map Prod.snd ++ inflight s.pcs := List.mem_append.mpr hi
  have := List.mem_range.mp (hperm.subset hmem)
  omega

/-- C17 (as the code has it): during every run of the executor over `N` queries with
`T ≥ 1` threads the cursor starts at 0, every step of a worker leaves it unchanged or
increments it by exactly 1 (the fetch-and-increment), its value always lies in `[0, N + T]`,
every index a worker has claimed or processed is below `N`, and when all workers have exited
the cursor equals `N + T`: each worker's last, unsuccessful fetch increments it too. -/
theorem C17_cursor_bounds (n : Nat) (num_threads : Int) (query_ids lat0 pid0 stats0 : List Nat)
    (hT : 1 ≤ num_threads) (hTint : num_threads < 2 ^ 31) (hn : n < 2 ^ 63) :
    (run_init n num_threads lat0 pid0 stats0).counter = 0 ∧
    ∀ sched : Schedule,
      (exec n query_ids sched (run_init n num_threads lat0 pid0 stats0)).counter
        ≤ n + num_threads.toNat ∧
      (∀ ev : Nat × Nat,
        (worker_step n query_ids
          (exec n query_ids sched (run_init n num_threads lat0 pid0 stats0)) ev).counter
          = (exec n query_ids sched (run_init n num_threads lat0 pid0 stats0)).counter ∨
        (worker_step n query_ids
          (exec n query_ids sched (run_init n num_threads lat0 pid0 stats0)) ev).counter
          = (exec n query_ids sched (run_init n num_threads lat0 pid0 stats0)).counter + 1) ∧
      (∀ i,
        i ∈ (exec n query_ids sched (run_init n num_threads lat0 pid0 stats0)).log.map Prod.snd ∨
        i ∈ inflight (exec n query_ids sched (run_init n num_threads lat0 pid0 stats0)).pcs →
        i < n) ∧
      (joined (exec n query_ids sched (run_init n num_threads lat0 pid0 stats0)) →
        (exec n query_ids sched (run_init n num_threads lat0 pid0 stats0)).counter
          = n + num_threads.toNat) := by
  have hTs : toSize num_threads = num_threads.toNat := toSize_of_int_range _ hT hTint
  have hT1 : 1 ≤ num_threads.toNat := by omega
  have hbound : n + num_threads.toNat < 2 ^ 64 := by omega
  have h0 := inv_init n num_threads query_ids lat0 pid0 stats0 hTs
  refine ⟨rfl, ?_⟩
  intro sched
  have hinv := inv_exec n _ _ query_ids hbound sched _ h0
  obtain ⟨hle, hidx⟩ := inv_counter_le _ _ _ _ _ hinv
  refine ⟨hle, ?_, hidx, ?_⟩
  · intro ev
    rcases worker_step_counter n query_ids
      (exec n query_ids sched (run_init n num_threads lat0 pid0 stats0)) ev with h | h
    · left; exact h
    · right
      rw [h]
      unfold addSize SIZE_MOD
      exact Nat.mod_eq_of_lt (by omega)
  · intro hj
    exact (inv_final n _ _ query_ids _ hT1 hinv hj).2.2.2.2.2

/-- Witness for C17: two queries and two threads; the cursor ends at 4. -/
theorem C17_cursor_bounds_witness :
    (exec 2 [10, 11]
      [(0, 0), (1, 0), (0, 0), (0, 0), (0, 0), (1, 0), (1, 0), (1, 0), (1, 0), (0, 0)]
      (run_init 2 2 [] [] [])).counter = 2 + (2 : Int).toNat :=
  ((C17_cursor_bounds 2 2 [10, 11] [] [] [] (by decide) (by decide) (by decide)).2
    [(0, 0), (1, 0), (0, 0), (0, 0), (0, 0), (1, 0), (1, 0), (1, 0), (1, 0), (0, 0)]).2.2.2
    (by decide)

/-- C17, counterexample to the claim as worded: with `N = 2` queries and 2 threads, after
the first two fetches the cursor already equals `N` while both workers are still busy, and
when both workers have exited it equals 4, outside `[0, N)`. -/
theorem C17_cursor_counterexample :
    (exec 2 [10, 11] [(0, 0), (1, 0)] (run_init 2 2 [] [] [])).counter = 2 ∧
    ¬ joined (exec 2 [10, 11] [(0, 0), (1, 0)] (run_init 2 2 [] [] [])) ∧
    joined (exec 2 [10, 11]
      [(0, 0), (1, 0), (0, 0), (0, 0), (0, 0), (1, 0), (1, 0), (1, 0), (1, 0), (0, 0)]
      (run_init 2 2 [] [] [])) ∧
    (exec 2 [10, 11]
      [(0, 0), (1, 0), (0, 0), (0, 0), (0, 0), (1, 0), (1, 0), (1, 0), (1, 0), (0, 0)]
      (run_init 2 2 [] [] [])).counter = 4 ∧
    ¬ (exec 2 [10, 11]
      [(0, 0), (1, 0), (0, 0), (0, 0), (0, 0), (1, 0), (1, 0), (1, 0), (1, 0), (0, 0)]
      (run_init 2 2 [] [] [])).counter < 2 := by
  refine ⟨by decide, by decide, by decide, by decide, by decide⟩

end query_optimized

/-! ## C18: pre-processing and space selection of the optimized build -/

namespace build_optimized

set_option maxRecDepth 100000 in
/-- C18: the pre-processing step and the space selection of `main` test different strings.
For the selector `"cosine"` (any string other than `"ip"` and `"l2"` behaves the same) the
index is created with the inner-product space while the insertion driver receives the loaded
vectors unchanged: the vector `[2.0]` is handed over as `[2.0]`, not as its normalization
`[1.0]`. For the two documented selectors the steps agree: `"ip"` normalizes and selects the
inner-product space, `"l2"` leaves the vectors unchanged and selects the L2 space. -/
theorem C18_selector_mismatch :
    main_space "cosine" = Space.InnerProduct ∧
    main_preprocess "cosine" [F32.fin false (2 ^ 23) (-22)] 1 = [F32.fin false (2 ^ 23) (-22)] ∧
    (normalize_embeddings_aligned [F32.fin false (2 ^ 23) (-22)] 1).normalized = [F32.one] ∧
    main_preprocess "cosine" [F32.fin false (2 ^ 23) (-22)] 1 ≠
      (normalize_embeddings_aligned [F32.fin false (2 ^ 23) (-22)] 1).normalized ∧
    (main ⟨true, true, true, [0, 0, 0, 64]⟩ ⟨true, true, true, [7, 0, 0, 0, 0, 0, 0, 0]⟩ 0 0 1
      "cosine" (fun _ => F32.fin false (2 ^ 23) (-22)) (fun w => w.headD 0)).space
      = some Space.InnerProduct ∧
    (main ⟨true, true, true, [0, 0, 0, 64]⟩ ⟨true, true, true, [7, 0, 0, 0, 0, 0, 0, 0]⟩ 0 0 1
      "cosine" (fun _ => F32.fin false (2 ^ 23) (-22)) (fun w => w.headD 0)).handed
      = some [F32.fin false (2 ^ 23) (-22)] ∧
    (main ⟨true, true, true, [0, 0, 0, 64]⟩ ⟨true, true, true, [7, 0, 0, 0, 0, 0, 0, 0]⟩ 0 0 1
      "cosine" (fun _ => F32.fin false (2 ^ 23) (-22)) (fun w => w.headD 0)).inserts
      = [([F32.fin false (2 ^ 23) (-22)], 7)] ∧
    (∀ (embeddings : List F32) (dim : Int),
      main_space "ip" = Space.InnerProduct ∧
      main_preprocess "ip" embeddings dim
        = (normalize_embeddings_aligned embeddings dim).normalized) ∧
    (∀ (embeddings : List F32) (dim : Int),
      main_space "l2" = Space.L2 ∧ main_preprocess "l2" embeddings dim = embeddings) := by
  refine ⟨by decide, by decide, by decide, by decide, by decide, by decide, by decide, ?_, ?_⟩
  · intro embeddings dim
    exact ⟨by decide, by simp [main_preprocess]⟩
  · intro embeddings dim
    refine ⟨by decide, ?_⟩
    unfold main_preprocess
    rw [if_neg (by decide)]

end build_optimized

/-! ## C19: the percentile reads are in bounds for non-empty lists only -/

theorem pctIndex_lt_iff (n : Nat) (hn : n < 2 ^ 45) :
    (pctIndex n P50 < n ∧ pctIndex n P95 < n ∧ pctIndex n P99 < n) ↔ 1 ≤ n := by
  rw [pctIndex_P50 _ (by omega), pctIndex_P95 _ hn, pctIndex_P99 _ hn]
  constructor
  · rintro ⟨h, -, -⟩; omega
  · intro h; refine ⟨by omega, by omega, by omega⟩

theorem print_summary_entry_some {α : Type} [LinearOrder α] (values : List α)
    (hne : values ≠ []) (hlen : values.length < 2 ^ 45) :
    ∃ s, MetricsCollector.print_summary_entry values = some s := by
  obtain ⟨a, b, c, ha, hb, hc, -, -⟩ := MetricsCollector.sorted_reads values hne hlen
  have hsl := MetricsCollector.sortedCopy_length values
  cases values with
  | nil => exact absurd rfl hne
  | cons x l =>
    unfold MetricsCollector.print_summary_entry
    simp only [hsl, ha, hb, hc, List.isEmpty_cons, Bool.false_eq_true, if_false,
      Option.bind_eq_bind, Option.some_bind, Option.pure_def, bind_pure_comp, Option.map_some',
      List.max?_cons', List.min?_cons']
    exact ⟨_, rfl⟩

theorem main_percentiles_some {α : Type} [LinearOrder α] (values : List α)
    (hne : values ≠ []) (hlen : values.length < 2 ^ 45) :
    (∃ r, query_optimized.main_percentiles values = some r) ∧
    (∃ r, hnsw_query_basic.main_percentiles values = some r) := by
  obtain ⟨a, b, c, ha, hb, hc, -, -⟩ := MetricsCollector.sorted_reads values hne hlen
  have hsl := MetricsCollector.sortedCopy_length values
  constructor
  · unfold query_optimized.main_percentiles
    simp only [hsl, ha, hb, hc, Option.bind_eq_bind, Option.some_bind, Option.pure_def,
      bind_pure_comp, Option.map_some']
    exact ⟨_, rfl⟩
  · unfold hnsw_query_basic.main_percentiles
    simp only [ha, hb, hc, Option.bind_eq_bind, Option.some_bind, Option.pure_def,
      bind_pure_comp, Option.map_some']
    exact ⟨_, rfl⟩

/-- C19: for a list of length `n` (a length a vector in memory can have), the three
percentile indices `trunc(n*0.5)`, `trunc(n*0.95)`, `trunc(n*0.99)` are all below `n` exactly
when `n ≥ 1`. `print_summary` reads no position of an empty stream and never divides by a
zero count (it skips the stream), and for a non-empty stream its reads are in bounds. The
two query programs read position 0 three times and take the mean with divisor 0 when no
query was processed; their reads are in bounds exactly when the list is non-empty. -/
theorem C19_reads_in_bounds_iff_nonempty {α : Type} [LinearOrder α] (values : List α)
    (hlen : values.length < 2 ^ 45) :
    ((pctIndex values.length P50 < values.length ∧ pctIndex values.length P95 < values.length ∧
      pctIndex values.length P99 < values.length) ↔ 1 ≤ values.length) ∧
    (∀ i ∈ MetricsCollector.print_summary_reads values, i < values.length) ∧
    MetricsCollector.print_summary_divisor values ≠ some 0 ∧
    (MetricsCollector.print_summary_entry values = none ↔ values = []) ∧
    (values = [] → MetricsCollector.print_summary_reads values = [] ∧
      MetricsCollector.print_summary_divisor values = none) ∧
    ((∀ i ∈ query_optimized.main_reads values, i < values.length) ↔ values ≠ []) ∧
    ((∀ i ∈ hnsw_query_basic.main_reads values.length, i < values.length) ↔ values ≠ []) ∧
    (query_optimized.main_percentiles values = none ↔ values = []) ∧
    (hnsw_query_basic.main_percentiles values = none ↔ values = []) ∧
    (values = [] →
      query_optimized.main_reads values = [0, 0, 0] ∧
      query_optimized.mean_divisor values = 0 ∧
      hnsw_query_basic.main_reads values.length = [0, 0, 0] ∧
      hnsw_query_basic.mean_divisor values.length = 0) := by
  have hiff := pctIndex_lt_iff values.length hlen
  have hpos : values ≠ [] ↔ 1 ≤ values.length := by
    rw [Nat.succ_le_iff, List.length_pos]
  have h0 : pctIndex 0 P50 = 0 ∧ pctIndex 0 P95 = 0 ∧ pctIndex 0 P99 = 0 := by
    rw [pctIndex_P50 0 (by norm_num), pctIndex_P95 0 (by norm_num),
      pctIndex_P99 0 (by norm_num)]
    exact ⟨rfl, rfl, rfl⟩
  have hreads : (∀ i ∈ [pctIndex values.length P50, pctIndex values.length P95,
      pctIndex values.length P99], i < values.length) ↔ values ≠ [] := by
    rw [hpos, ← hiff]
    simp only [List.mem_cons, List.mem_singleton, List.not_mem_nil, or_false,
      forall_eq_or_imp, forall_eq]
  refine ⟨hiff, ?_, ?_, ?_, ?_, hreads, hreads, ?_, ?_, ?_⟩
  · intro i hi
    unfold MetricsCollector.print_summary_reads at hi
    cases values with
    | nil => simp at hi
    | cons x l =>
      simp only [List.isEmpty_cons, Bool.false_eq_true, if_false] at hi
      exact (hreads.mpr (List.cons_ne_nil x l)) i hi
  · unfold MetricsCollector.print_summary_divisor
    cases values with
    | nil => simp
    | cons x l => simp
  · constructor
    · intro h
      by_contra hne
      obtain ⟨s, hs⟩ := print_summary_entry_some values hne hlen
      rw [hs] at h
      cases h
    · rintro rfl
      rfl
  · rintro rfl
    exact ⟨rfl, rfl⟩
  · constructor
    · intro h
      by_contra hne
      obtain ⟨r, hr⟩ := (main_percentiles_some values hne hlen).1
      rw [hr] at h
      cases h
    · rintro rfl
      rfl
  · constructor
    · intro h
      by_contra hne
      obtain ⟨r, hr⟩ := (main_percentiles_some values hne hlen).2
      rw [hr] at h
      cases h
    · rintro rfl
      rfl
  · rintro rfl
    simp only [query_optimized.main_reads, hnsw_query_basic.main_reads, List.length_nil, h0.1,
      h0.2.1, h0.2.2]
    exact ⟨trivial, rfl, trivial, rfl⟩

/-- Witness for C19: the list `[30, 10, 20]` has its three reads in bounds, and the empty
list makes the query programs read position 0. -/
theorem C19_reads_in_bounds_iff_nonempty_witness :
    (∀ i ∈ query_optimized.main_reads [30, 10, 20], i < 3) ∧
    query_optimized.main_reads ([] : List Nat) = [0, 0, 0] :=
  ⟨(C19_reads_in_bounds_iff_nonempty [30, 10, 20] (by decide)).2.2.2.2.2.1.mpr (by decide),
   ((C19_reads_in_bounds_iff_nonempty ([] : List Nat) (by decide)).2.2.2.2.2.2.2.2.2 rfl).1⟩

/-! ## C20: the size validation of the two build programs -/

theorem two_stage_iff (s d : Nat) :
    (s % 4 = 0 ∧ (s / 4) % d = 0) ↔ s % (4 * d) = 0 := by
  constructor
  · rintro ⟨h4, hd⟩
    exact Nat.mod_eq_zero_of_dvd
      (Nat.mul_dvd_of_dvd_div (Nat.dvd_of_mod_eq_zero h4) (Nat.dvd_of_mod_eq_zero hd))
  · intro h
    have hdvd : 4 * d ∣ s := Nat.dvd_of_mod_eq_zero h
    refine ⟨Nat.mod_eq_zero_of_dvd (Dvd.dvd.trans (Dvd.intro _ rfl) hdvd), ?_⟩
    exact Nat.mod_eq_zero_of_dvd (Nat.dvd_div_of_mul_dvd hdvd)

theorem basic_load_fvec_cases (env : FileEnv) (hopen : env.openOk = true) :
    (env.bytes.length % 4 = 0 ∧
      hnswn_build_basic.load_fvec env = .ok (words 4 (env.bytes.length / 4) env.bytes)) ∨
    (env.bytes.length % 4 ≠ 0 ∧ hnswn_build_basic.load_fvec env = .error .sizeMismatch) := by
  unfold hnswn_build_basic.load_fvec
  simp only [hopen, Bool.not_true, Bool.false_eq_true, if_false]
  by_cases h4 : env.bytes.length % 4 = 0
  · left
    refine ⟨h4, ?_⟩
    rw [if_neg (not_not.mpr h4), copyInto_exact 4 _ env.bytes (by omega)]
  · right
    exact ⟨h4, by rw [if_pos h4]⟩

theorem load_embeddings_mmap_check (env : FileEnv) (n0 : Nat) (dim : Int)
    (hopen : env.openOk = true) (hstat : env.statOk = true)
    (hdim : 1 ≤ dim) (hint : dim < 2 ^ 31) (hsz : env.bytes.length < 2 ^ 64) :
    (env.bytes.length % (4 * dim.toNat) ≠ 0 ∧
      (build_optimized.load_embeddings_mmap env n0 dim).out = .error .sizeMismatch) ∨
    (env.bytes.length % (4 * dim.toNat) = 0 ∧
      (build_optimized.load_embeddings_mmap env n0 dim).n = env.bytes.length / (4 * dim.toNat) ∧
      ((build_optimized.load_embeddings_mmap env n0 dim).out = .error .mapError ∨
       ∃ embeddings, (build_optimized.load_embeddings_mmap env n0 dim).out = .ok embeddings)) := by
  have hd : 1 ≤ dim.toNat := by omega
  have hd2 : dim.toNat < 2 ^ 31 := by omega
  have hTs : toSize dim = dim.toNat := toSize_of_int_range dim hdim hint
  have hw : mulSize 4 (toSize dim) = 4 * dim.toNat := by
    rw [hTs, mulSize_of_lt _ _ (by omega)]
  unfold build_optimized.load_embeddings_mmap
  simp only [hopen, hstat, hw, Bool.not_true, Bool.false_eq_true, if_false]
  rw [if_neg (by omega)]
  by_cases hm : env.bytes.length % (4 * dim.toNat) = 0
  · right
    refine ⟨hm, ?_⟩
    rw [if_neg (not_not.mpr hm)]
    obtain ⟨q, hq⟩ : ∃ q, q = env.bytes.length / (4 * dim.toNat) := ⟨_, rfl⟩
    have hdvd : 4 * dim.toNat * q = env.bytes.length := by
      rw [hq]; exact Nat.mul_div_cancel_left' (Nat.dvd_of_mod_eq_zero hm)
    have hlen : env.bytes.length = 4 * (q * dim.toNat) := by
      rw [← hdvd]; ring
    rw [← hq]
    have hcount : mulSize q (toSize dim) = q * dim.toNat := by
      rw [hTs]
      exact mulSize_of_lt _ _ (by omega)
    by_cases hmap : env.mmapSucceeds env.bytes.length = true
    · simp only [hmap, Bool.not_true, Bool.false_eq_true, if_false]
      rw [hcount, copyInto_exact 4 _ env.bytes hlen]
      exact ⟨rfl, Or.inr ⟨_, rfl⟩⟩
    · rw [if_pos (by simpa using hmap)]
      exact ⟨rfl, Or.inl rfl⟩
  · left
    refine ⟨hm, ?_⟩
    rw [if_pos hm]

/-- C20: for every file of `s` bytes that can be opened and every `dim ≥ 1`, the basic build
accepts the size (`load_fvec` returns and the dimension check of `main` passes) exactly when
the size check of `load_embeddings_mmap` does not reject it, and that is exactly when
`s mod (4*dim) = 0`, which is the same as `s mod 4 = 0` and `(s div 4) mod dim = 0`; on
acceptance both compute the same vector count, `(s div 4) div dim = s div (4*dim)`. -/
theorem C20_two_stage_validation (env : FileEnv) (n0 : Nat) (dim : Int)
    (hopen : env.openOk = true) (hstat : env.statOk = true)
    (hdim : 1 ≤ dim) (hint : dim < 2 ^ 31) (hsz : env.bytes.length < 2 ^ 64) :
    ((∃ embeddings N, hnswn_build_basic.load_fvec env = .ok embeddings ∧
        hnswn_build_basic.main_count embeddings.length dim = .ok N) ↔
      (build_optimized.load_embeddings_mmap env n0 dim).out ≠ .error .sizeMismatch) ∧
    ((build_optimized.load_embeddings_mmap env n0 dim).out ≠ .error .sizeMismatch ↔
      env.bytes.length % (4 * dim.toNat) = 0) ∧
    ((env.bytes.length % 4 = 0 ∧ (env.bytes.length / 4) % dim.toNat = 0) ↔
      env.bytes.length % (4 * dim.toNat) = 0) ∧
    ∀ embeddings N, hnswn_build_basic.load_fvec env = .ok embeddings →
      hnswn_build_basic.main_count embeddings.length dim = .ok N →
      (build_optimized.load_embeddings_mmap env n0 dim).n = N ∧
      N = env.bytes.length / 4 / dim.toNat ∧ N = env.bytes.length / (4 * dim.toNat) := by
  have hd : 1 ≤ dim.toNat := by omega
  have hTs : toSize dim = dim.toNat := toSize_of_int_range dim hdim hint
  have hmmap : (build_optimized.load_embeddings_mmap env n0 dim).out ≠ .error .sizeMismatch ↔
      env.bytes.length % (4 * dim.toNat) = 0 := by
    rcases load_embeddings_mmap_check env n0 dim hopen hstat hdim hint hsz with
      ⟨hm, ho⟩ | ⟨hm, -, ho | ⟨e, ho⟩⟩
    · rw [ho]; exact ⟨fun h => absurd rfl h, fun h => absurd h hm⟩
    · rw [ho]; exact ⟨fun _ => hm, fun _ h => by cases h⟩
    · rw [ho]; exact ⟨fun _ => hm, fun _ h => by cases h⟩
  have hbasic : ∀ embeddings N, hnswn_build_basic.load_fvec env = .ok embeddings →
      hnswn_build_basic.main_count embeddings.length dim = .ok N →
      env.bytes.length % 4 = 0 ∧ (env.bytes.length / 4) % dim.toNat = 0 ∧
      N = env.bytes.length / 4 / dim.toNat := by
    intro embeddings N he hc
    rcases basic_load_fvec_cases env hopen with ⟨h4, hl⟩ | ⟨h4, hl⟩
    · rw [hl] at he
      cases he
      rw [words_length] at hc
      obtain ⟨h1, h2⟩ := basic_main_count_ok _ dim _ hdim hint hc
      exact ⟨h4, h1, h2⟩
    · rw [hl] at he
      cases he
  refine ⟨?_, hmmap, two_stage_iff _ _, ?_⟩
  · rw [hmmap, ← two_stage_iff]
    constructor
    · rintro ⟨embeddings, N, he, hc⟩
      obtain ⟨h1, h2, -⟩ := hbasic embeddings N he hc
      exact ⟨h1, h2⟩
    · rintro ⟨h4, hdm⟩
      rcases basic_load_fvec_cases env hopen with ⟨-, hl⟩ | ⟨h4n, -⟩
      · refine ⟨_, env.bytes.length / 4 / dim.toNat, hl, ?_⟩
        rw [words_length]
        unfold hnswn_build_basic.main_count
        rw [hTs, if_neg (by omega), if_neg (not_not.mpr hdm)]
      · exact absurd h4 h4n
  · intro embeddings N he hc
    obtain ⟨h1, h2, h3⟩ := hbasic embeddings N he hc
    have hm := (two_stage_iff _ _).mp ⟨h1, h2⟩
    have hdd : env.bytes.length / 4 / dim.toNat = env.bytes.length / (4 * dim.toNat) :=
      Nat.div_div_eq_div_mul _ _ _
    rcases load_embeddings_mmap_check env n0 dim hopen hstat hdim hint hsz with
      ⟨hmn, -⟩ | ⟨-, hn, -⟩
    · exact absurd hm hmn
    · exact ⟨by rw [hn, h3, hdd], h3, by rw [h3, hdd]⟩

/-- Witness for C20: a file of 8 bytes and `dim = 2` is accepted by both programs, which
both count one vector. -/
theorem C20_two_stage_validation_witness :
    (build_optimized.load_embeddings_mmap ⟨true, true, true, [0, 0, 0, 0, 0, 0, 0, 0]⟩ 0 2).n = 1 ∧
    (build_optimized.load_embeddings_mmap ⟨true, true, true, [0, 0, 0, 0, 0, 0, 0, 0]⟩ 0 2).out
      ≠ .error .sizeMismatch := by
  have h := C20_two_stage_validation ⟨true, true, true, [0, 0, 0, 0, 0, 0, 0, 0]⟩ 0 2
    (by decide) (by decide) (by decide) (by decide) (by decide)
  exact ⟨(h.2.2.2 [[0, 0, 0, 0], [0, 0, 0, 0]] 1 (by decide) (by decide)).1,
    h.2.1.mpr (by decide)⟩

/-! ## C15: the number of queries processed by the two query programs -/

end ProyectoSO
